import Mathlib

/-!
# Verification of the Avro schema sanitizer and compatibility checker

This file embeds, as executable Lean definitions, the core of
`src/v/pandaproxy/schema_registry/avro.cc`:

* the recursive compatibility predicate `check_compatible` over two Avro
  schema trees (embedded as `ccFuel` / `checkCompatible` below), and
* the JSON sanitizer pipeline `sanitize_avro_schema_definition`
  (embedded as `sanitizeAvroSchemaDefinition`), including a model of the
  rapidjson parse (with `kParseStopWhenDoneFlag`) and the rapidjson writer.

The underlying avro C++ library (`avro::Node`, `Node::resolve`,
`Node::nameIndex`, ...) is not part of the repository; the pieces of it the
source uses are modelled from the specification and marked as such.

Recursive functions over the schema tree and the JSON DOM are defined with an
explicit fuel parameter (structural recursion on the fuel), together with
lemmas showing that any fuel above a size bound yields the same defined
result; this keeps every definition kernel-computable and makes the
termination behaviour of the C++ recursion an explicit theorem.
-/

namespace AvroSpec

/-! ## Option-valued short-circuit list combinators

These mirror the `for`-loops with early `return` in `check_compatible`:
the `Option` layer is `none` exactly when the available fuel ran out. -/

def allOptM (f : α → Option Bool) : List α → Option Bool
  | [] => some true
  | x :: xs =>
    match f x with
    | none => none
    | some false => some false
    | some true => allOptM f xs

def anyOptM (f : α → Option Bool) : List α → Option Bool
  | [] => some false
  | x :: xs =>
    match f x with
    | none => none
    | some true => some true
    | some false => anyOptM f xs

/-! ## The Avro schema tree

`avro::Type` tags and the node tree built by the avro library from a schema
definition.  A recursive reference to a named type appears in the tree as a
symbolic node carrying the name (`avro::NodeSymbolic`); `check_compatible`
never recurses through it structurally, so the tree traversed by the checker
is finite. -/

inductive AvroType where
  | avroNull | avroBool | avroInt | avroLong | avroFloat | avroDouble
  | avroBytes | avroString
  | avroRecord | avroEnum | avroArray | avroMap | avroUnion | avroFixed
  | avroSymbolic
  deriving DecidableEq, BEq, Repr

inductive PrimTag where
  | pnull | pbool | pint | plong | pfloat | pdouble | pbytes | pstring
  deriving DecidableEq, BEq, Repr

mutual
inductive Node where
  | prim (t : PrimTag)
  | arecord (name : String) (fields : List Field)
  | aenum (name : String) (symbols : List String) (defaultType : AvroType)
  | aarray (items : Node)
  | amap (values : Node)
  | aunion (branches : List Node)
  | afixed (name : String) (size : Nat)
  | symbolic (name : String)

/-- A record field: unqualified name, type, and the `avro::Type` tag of the
field's default value datum.  A field with no default carries a
default-constructed datum whose tag is `avroNull`; a field whose default is
JSON `null` carries the same tag (the asymmetry the spec documents). -/
inductive Field where
  | mk (fname : String) (ftype : Node) (fdefault : AvroType)
end

mutual
/-- Size of a schema tree, used as the fuel bound for `ccFuel`. -/
def nodeSize : Node → Nat
  | .prim _ => 1
  | .arecord _ fs => 1 + fieldsSize fs
  | .aenum _ _ _ => 1
  | .aarray t => 1 + nodeSize t
  | .amap t => 1 + nodeSize t
  | .aunion bs => 1 + nodesSize bs
  | .afixed _ _ => 1
  | .symbolic _ => 1

def fieldsSize : List Field → Nat
  | [] => 0
  | .mk _ t _ :: fs => 1 + nodeSize t + fieldsSize fs

def nodesSize : List Node → Nat
  | [] => 0
  | b :: bs => 1 + nodeSize b + nodesSize bs
end

def Field.fname : Field → String
  | .mk n _ _ => n

def Field.ftype : Field → Node
  | .mk _ t _ => t

def Field.fdefault : Field → AvroType
  | .mk _ _ d => d

def primTagType : PrimTag → AvroType
  | .pnull => .avroNull
  | .pbool => .avroBool
  | .pint => .avroInt
  | .plong => .avroLong
  | .pfloat => .avroFloat
  | .pdouble => .avroDouble
  | .pbytes => .avroBytes
  | .pstring => .avroString

/-- `avro::Node::type()`. -/
def nodeType : Node → AvroType
  | .prim t => primTagType t
  | .arecord _ _ => .avroRecord
  | .aenum _ _ _ => .avroEnum
  | .aarray _ => .avroArray
  | .amap _ => .avroMap
  | .aunion _ => .avroUnion
  | .afixed _ _ => .avroFixed
  | .symbolic _ => .avroSymbolic

/-- `avro::SchemaResolution`. -/
inductive Resolution where
  | noMatch | resolveMatch | promotable
  deriving DecidableEq, BEq, Repr

/-- Modelled from the spec: the avro library's primary resolve test
`writer.resolve(reader)` ("kind match plus any per-kind scalar-level test
such as fixed length equality, primitive numeric widening rules", and for
case D "documented numeric promotions and the `string`/`bytes` symmetry";
"for array and map, recurse into element/value types").  The avro library
itself is not part of the repository.  Named types match on name equality;
union nodes are treated as matching at this level, since `check_compatible`
handles all union cases with its own branch logic before the final resolve
fall-through can see one. -/
def resolve (writer reader : Node) : Resolution :=
  match writer, reader with
  | .prim tw, .prim tr =>
    if tw = tr then .resolveMatch
    else
      match tw, tr with
      | .pint, .plong => .promotable
      | .pint, .pfloat => .promotable
      | .pint, .pdouble => .promotable
      | .plong, .pfloat => .promotable
      | .plong, .pdouble => .promotable
      | .pfloat, .pdouble => .promotable
      | .pbytes, .pstring => .promotable
      | .pstring, .pbytes => .promotable
      | _, _ => .noMatch
  | .arecord wn _, .arecord rn _ => if wn = rn then .resolveMatch else .noMatch
  | .aenum wn _ _, .aenum rn _ _ => if wn = rn then .resolveMatch else .noMatch
  | .afixed wn wsz, .afixed rn rsz =>
    if wn = rn ∧ wsz = rsz then .resolveMatch else .noMatch
  | .aarray wi, .aarray ri => resolve wi ri
  | .amap wv, .amap rv => resolve wv rv
  | .aunion _, _ => .resolveMatch
  | _, .aunion _ => .resolveMatch
  | .symbolic wn, .symbolic rn => if wn = rn then .resolveMatch else .noMatch
  | .symbolic wn, .arecord rn _ => if wn = rn then .resolveMatch else .noMatch
  | .arecord wn _, .symbolic rn => if wn = rn then .resolveMatch else .noMatch
  | _, _ => .noMatch

/-- Fuel-indexed embedding of `check_compatible(avro::Node&, avro::Node&)`
(avro.cc lines 36-123).  `none` means the fuel ran out; `ccFuel_spec` below
shows any fuel above `nodeSize reader + nodeSize writer` returns a defined
result, so `checkCompatible` (the fuel-closed version) is exactly the C++
function. -/
def ccFuel : Nat → Node → Node → Option Bool
  | 0, _, _ => none
  | fuel + 1, reader, writer =>
    if nodeType reader = nodeType writer then
      -- "Do a quick check first"
      if resolve writer reader = Resolution.noMatch then some false
      else
        match reader, writer with
        | .arecord _ rfs, .arecord _ wfs =>
          -- "Recursively check fields", driven by the reader's field order
          allOptM (fun rf =>
            match wfs.find? (fun wf => wf.fname = rf.fname) with
            | some wf => ccFuel fuel rf.ftype wf.ftype
            | none => some (rf.fdefault ≠ AvroType.avroNull)) rfs
        | .aenum _ rsyms rdef, .aenum _ wsyms _ =>
          if rdef ≠ AvroType.avroNull then some true
          else if wsyms.all (fun ws => rsyms.contains ws) then
            -- loop finished: control falls through to the final resolve test
            some (resolve writer reader ≠ Resolution.noMatch)
          else some false
        | .aunion rbs, .aunion wbs =>
          allOptM (fun wb => anyOptM (fun rb => ccFuel fuel rb wb) rbs) wbs
        | _, _ => some (resolve writer reader ≠ Resolution.noMatch)
    else
      match reader, writer with
      | .aunion rbs, _ => anyOptM (fun rb => ccFuel fuel rb writer) rbs
      | _, .aunion wbs => allOptM (fun wb => ccFuel fuel reader wb) wbs
      | _, _ => some (resolve writer reader ≠ Resolution.noMatch)

/-- The compatibility predicate `compatible(reader, writer)`. -/
def checkCompatible (reader writer : Node) : Bool :=
  (ccFuel (nodeSize reader + nodeSize writer + 1) reader writer).getD false

/-! ### Fuel irrelevance for `ccFuel`

Any fuel strictly above `nodeSize reader + nodeSize writer` yields the same
defined result; this both justifies `checkCompatible` and is the termination
statement for the recursion (claim C5). -/

theorem allOptM_congr {f g : α → Option Bool} {l : List α}
    (h : ∀ x ∈ l, f x = g x) : allOptM f l = allOptM g l := by
  induction l with
  | nil => rfl
  | cons x xs ih =>
    simp only [allOptM, h x (List.mem_cons_self x xs)]
    cases g x with
    | none => rfl
    | some b =>
      cases b
      · rfl
      · exact ih (fun y hy => h y (List.mem_cons_of_mem _ hy))

theorem anyOptM_congr {f g : α → Option Bool} {l : List α}
    (h : ∀ x ∈ l, f x = g x) : anyOptM f l = anyOptM g l := by
  induction l with
  | nil => rfl
  | cons x xs ih =>
    simp only [anyOptM, h x (List.mem_cons_self x xs)]
    cases g x with
    | none => rfl
    | some b =>
      cases b
      · exact ih (fun y hy => h y (List.mem_cons_of_mem _ hy))
      · rfl

theorem allOptM_eq_all {f : α → Option Bool} {g : α → Bool} {l : List α}
    (h : ∀ x ∈ l, f x = some (g x)) : allOptM f l = some (l.all g) := by
  induction l with
  | nil => rfl
  | cons x xs ih =>
    simp only [allOptM, h x (List.mem_cons_self x xs), List.all_cons]
    cases hx : g x
    · simp
    · simpa using ih (fun y hy => h y (List.mem_cons_of_mem _ hy))

theorem anyOptM_eq_any {f : α → Option Bool} {g : α → Bool} {l : List α}
    (h : ∀ x ∈ l, f x = some (g x)) : anyOptM f l = some (l.any g) := by
  induction l with
  | nil => rfl
  | cons x xs ih =>
    simp only [anyOptM, h x (List.mem_cons_self x xs), List.any_cons]
    cases hx : g x
    · simpa using ih (fun y hy => h y (List.mem_cons_of_mem _ hy))
    · simp

theorem nodeSize_pos : ∀ s : Node, 0 < nodeSize s := by
  intro s
  cases s <;> simp [nodeSize]

theorem ftype_size_lt_fieldsSize {f : Field} {fs : List Field}
    (h : f ∈ fs) : nodeSize f.ftype < fieldsSize fs := by
  induction fs with
  | nil => cases h
  | cons g gs ih =>
    rcases List.mem_cons.mp h with rfl | h'
    · cases f with
      | mk n t d => simp [fieldsSize, Field.ftype]; omega
    · have := ih h'
      cases g with
      | mk n t d => simp [fieldsSize]; omega

theorem node_size_lt_nodesSize {b : Node} {bs : List Node}
    (h : b ∈ bs) : nodeSize b < nodesSize bs := by
  induction bs with
  | nil => cases h
  | cons c cs ih =>
    rcases List.mem_cons.mp h with rfl | h'
    · simp [nodesSize]; omega
    · have := ih h'
      simp [nodesSize]; omega

theorem allOptM_isSome {f : α → Option Bool} {l : List α}
    (h : ∀ x ∈ l, (f x).isSome) : (allOptM f l).isSome := by
  induction l with
  | nil => rfl
  | cons x xs ih =>
    have hx := h x (List.mem_cons_self x xs)
    simp only [allOptM]
    cases hfx : f x with
    | none => rw [hfx] at hx; simp at hx
    | some b =>
      cases b
      · rfl
      · exact ih (fun y hy => h y (List.mem_cons_of_mem _ hy))

theorem anyOptM_isSome {f : α → Option Bool} {l : List α}
    (h : ∀ x ∈ l, (f x).isSome) : (anyOptM f l).isSome := by
  induction l with
  | nil => rfl
  | cons x xs ih =>
    have hx := h x (List.mem_cons_self x xs)
    simp only [anyOptM]
    cases hfx : f x with
    | none => rw [hfx] at hx; simp at hx
    | some b =>
      cases b
      · exact ih (fun y hy => h y (List.mem_cons_of_mem _ hy))
      · rfl

theorem nodeType_eq_union {w : Node} (h : nodeType w = AvroType.avroUnion) :
    ∃ bs, w = Node.aunion bs := by
  cases w with
  | aunion bs => exact ⟨bs, rfl⟩
  | prim t => cases t <;> simp [nodeType, primTagType] at h
  | _ => simp [nodeType] at h

theorem nodeType_eq_record {w : Node} (h : nodeType w = AvroType.avroRecord) :
    ∃ nm fs, w = Node.arecord nm fs := by
  cases w with
  | arecord nm fs => exact ⟨nm, fs, rfl⟩
  | prim t => cases t <;> simp [nodeType, primTagType] at h
  | _ => simp [nodeType] at h

theorem ccFuel_congr :
    ∀ f1 : Nat, ∀ r w : Node, ∀ f2 : Nat,
      nodeSize r + nodeSize w < f1 → nodeSize r + nodeSize w < f2 →
      ccFuel f1 r w = ccFuel f2 r w ∧ (ccFuel f1 r w).isSome := by
  intro f1
  induction f1 with
  | zero => intro r w f2 h1 _; omega
  | succ n ih =>
    intro r w f2 h1 h2
    obtain ⟨m, rfl⟩ : ∃ m, f2 = m + 1 := ⟨f2 - 1, by omega⟩
    by_cases hru : nodeType r = AvroType.avroUnion
    · obtain ⟨rbs, rfl⟩ := nodeType_eq_union hru
      have her : nodeSize (Node.aunion rbs) = 1 + nodesSize rbs := rfl
      by_cases hwu : nodeType w = AvroType.avroUnion
      · obtain ⟨wbs, rfl⟩ := nodeType_eq_union hwu
        have hew : nodeSize (Node.aunion wbs) = 1 + nodesSize wbs := rfl
        have hstep : ∀ fl : Nat,
            ccFuel (fl + 1) (Node.aunion rbs) (Node.aunion wbs) =
              allOptM (fun wb => anyOptM (fun rb => ccFuel fl rb wb) rbs) wbs := by
          intro fl
          simp [ccFuel, nodeType, resolve]
        rw [hstep n, hstep m]
        constructor
        · refine allOptM_congr (fun wb hwbm => ?_)
          refine anyOptM_congr (fun rb hrbm => ?_)
          have ha := node_size_lt_nodesSize hrbm
          have hb := node_size_lt_nodesSize hwbm
          exact (ih rb wb m (by omega) (by omega)).1
        · refine allOptM_isSome (fun wb hwbm => ?_)
          refine anyOptM_isSome (fun rb hrbm => ?_)
          have ha := node_size_lt_nodesSize hrbm
          have hb := node_size_lt_nodesSize hwbm
          exact (ih rb wb (n + 1) (by omega) (by omega)).2
      · have hne : nodeType (Node.aunion rbs) ≠ nodeType w :=
          fun hc => hwu (hc.symm.trans rfl)
        have hstep : ∀ fl : Nat,
            ccFuel (fl + 1) (Node.aunion rbs) w =
              anyOptM (fun rb => ccFuel fl rb w) rbs := by
          intro fl
          simp only [ccFuel, if_neg hne]
        rw [hstep n, hstep m]
        constructor
        · refine anyOptM_congr (fun rb hrbm => ?_)
          have ha := node_size_lt_nodesSize hrbm
          exact (ih rb w m (by omega) (by omega)).1
        · refine anyOptM_isSome (fun rb hrbm => ?_)
          have ha := node_size_lt_nodesSize hrbm
          exact (ih rb w (n + 1) (by omega) (by omega)).2
    · by_cases hwu : nodeType w = AvroType.avroUnion
      · obtain ⟨wbs, rfl⟩ := nodeType_eq_union hwu
        have hew : nodeSize (Node.aunion wbs) = 1 + nodesSize wbs := rfl
        have hne : nodeType r ≠ nodeType (Node.aunion wbs) :=
          fun hc => hru (hc.trans rfl)
        cases r with
        | aunion rbs => exact absurd rfl hru
        | _ =>
          simp only [ccFuel, if_neg hne]
          constructor
          · refine allOptM_congr (fun wb hwbm => ?_)
            have ha := node_size_lt_nodesSize hwbm
            exact (ih _ wb m (by omega) (by omega)).1
          · refine allOptM_isSome (fun wb hwbm => ?_)
            have ha := node_size_lt_nodesSize hwbm
            exact (ih _ wb (n + 1) (by omega) (by omega)).2
      · by_cases hrec : nodeType r = AvroType.avroRecord ∧ nodeType w = AvroType.avroRecord
        · obtain ⟨rn, rfs, rfl⟩ := nodeType_eq_record hrec.1
          obtain ⟨wnm, wfs, rfl⟩ := nodeType_eq_record hrec.2
          have her : nodeSize (Node.arecord rn rfs) = 1 + fieldsSize rfs := rfl
          have hew : nodeSize (Node.arecord wnm wfs) = 1 + fieldsSize wfs := rfl
          have hstep : ∀ fl : Nat,
              ccFuel (fl + 1) (Node.arecord rn rfs) (Node.arecord wnm wfs) =
                if resolve (Node.arecord wnm wfs) (Node.arecord rn rfs) =
                    Resolution.noMatch then some false
                else
                  allOptM (fun rf =>
                    match wfs.find? (fun wf => wf.fname = rf.fname) with
                    | some wf => ccFuel fl rf.ftype wf.ftype
                    | none => some (decide (rf.fdefault ≠ AvroType.avroNull))) rfs := by
            intro fl
            simp [ccFuel, nodeType]
          rw [hstep n, hstep m]
          by_cases hres :
              resolve (Node.arecord wnm wfs) (Node.arecord rn rfs) = Resolution.noMatch
          · simp [hres]
          · simp only [if_neg hres]
            constructor
            · refine allOptM_congr (fun rf hrf => ?_)
              cases hfind : wfs.find? (fun wf => wf.fname = rf.fname) with
              | none => rfl
              | some wf =>
                have hwf := List.mem_of_find?_eq_some hfind
                have ha := ftype_size_lt_fieldsSize hrf
                have hb := ftype_size_lt_fieldsSize hwf
                exact (ih rf.ftype wf.ftype m (by omega) (by omega)).1
            · refine allOptM_isSome (fun rf hrf => ?_)
              cases hfind : wfs.find? (fun wf => wf.fname = rf.fname) with
              | none => rfl
              | some wf =>
                have hwf := List.mem_of_find?_eq_some hfind
                have ha := ftype_size_lt_fieldsSize hrf
                have hb := ftype_size_lt_fieldsSize hwf
                exact (ih rf.ftype wf.ftype (n + 1) (by omega) (by omega)).2
        · cases r <;> cases w
          any_goals exact absurd rfl hru
          any_goals exact absurd rfl hwu
          any_goals exact absurd (And.intro rfl rfl) hrec
          all_goals exact ⟨rfl, by simp only [ccFuel]; (repeat' split) <;> rfl⟩

theorem ccFuel_eq_cc {fuel : Nat} (r w : Node)
    (h : nodeSize r + nodeSize w < fuel) :
    ccFuel fuel r w = some (checkCompatible r w) := by
  have hb : nodeSize r + nodeSize w < nodeSize r + nodeSize w + 1 :=
    Nat.lt_succ_self _
  obtain ⟨b, hsome⟩ := Option.isSome_iff_exists.mp
    (ccFuel_congr (nodeSize r + nodeSize w + 1) r w _ hb hb).2
  have heq := (ccFuel_congr fuel r w (nodeSize r + nodeSize w + 1) h hb).1
  rw [heq, hsome]
  unfold checkCompatible
  rw [hsome]
  rfl

/-! ### One-step equations for `checkCompatible`, one per shape of the
C++ `if`/`else if` chain. -/

theorem cc_record_eq (rn wnm : String) (rfs wfs : List Field) :
    checkCompatible (Node.arecord rn rfs) (Node.arecord wnm wfs) =
      if resolve (Node.arecord wnm wfs) (Node.arecord rn rfs) = Resolution.noMatch
      then false
      else rfs.all (fun rf =>
        match wfs.find? (fun wf => wf.fname = rf.fname) with
        | some wf => checkCompatible rf.ftype wf.ftype
        | none => decide (rf.fdefault ≠ AvroType.avroNull)) := by
  have her : nodeSize (Node.arecord rn rfs) = 1 + fieldsSize rfs := rfl
  have hew : nodeSize (Node.arecord wnm wfs) = 1 + fieldsSize wfs := rfl
  have hstep :
      checkCompatible (Node.arecord rn rfs) (Node.arecord wnm wfs) =
        (if resolve (Node.arecord wnm wfs) (Node.arecord rn rfs) =
            Resolution.noMatch
         then some false
         else allOptM (fun rf =>
           match wfs.find? (fun wf => wf.fname = rf.fname) with
           | some wf =>
             ccFuel (nodeSize (Node.arecord rn rfs) +
               nodeSize (Node.arecord wnm wfs)) rf.ftype wf.ftype
           | none => some (decide (rf.fdefault ≠ AvroType.avroNull))) rfs).getD
          false := by
    rfl
  rw [hstep]
  by_cases hres :
      resolve (Node.arecord wnm wfs) (Node.arecord rn rfs) = Resolution.noMatch
  · simp [hres]
  · simp only [if_neg hres]
    rw [allOptM_eq_all (g := fun rf =>
      match wfs.find? (fun wf => wf.fname = rf.fname) with
      | some wf => checkCompatible rf.ftype wf.ftype
      | none => decide (rf.fdefault ≠ AvroType.avroNull))]
    · rfl
    · intro rf hrf
      cases hfind : wfs.find? (fun wf => wf.fname = rf.fname) with
      | none => simp only [hfind]
      | some wf =>
        simp only [hfind]
        apply ccFuel_eq_cc
        have hwf := List.mem_of_find?_eq_some hfind
        have ha := ftype_size_lt_fieldsSize hrf
        have hb := ftype_size_lt_fieldsSize hwf
        omega

theorem cc_enum_eq (rn wnm : String) (rsyms wsyms : List String)
    (rdef wdef : AvroType) :
    checkCompatible (Node.aenum rn rsyms rdef) (Node.aenum wnm wsyms wdef) =
      if resolve (Node.aenum wnm wsyms wdef) (Node.aenum rn rsyms rdef) =
          Resolution.noMatch
      then false
      else (decide (rdef ≠ AvroType.avroNull) ||
        wsyms.all (fun ws => rsyms.contains ws)) := by
  have hstep :
      checkCompatible (Node.aenum rn rsyms rdef) (Node.aenum wnm wsyms wdef) =
        (if resolve (Node.aenum wnm wsyms wdef) (Node.aenum rn rsyms rdef) =
            Resolution.noMatch then some false
         else if rdef ≠ AvroType.avroNull then some true
         else if wsyms.all (fun ws => rsyms.contains ws) then
           some (decide (resolve (Node.aenum wnm wsyms wdef)
             (Node.aenum rn rsyms rdef) ≠ Resolution.noMatch))
         else some false).getD false := by
    rfl
  rw [hstep]
  by_cases hres :
      resolve (Node.aenum wnm wsyms wdef) (Node.aenum rn rsyms rdef) =
        Resolution.noMatch
  · simp [hres]
  · simp only [if_neg hres]
    by_cases hdef : rdef = AvroType.avroNull
    · subst hdef
      cases hall : wsyms.all (fun ws => rsyms.contains ws)
      · simp
      · simp [hres]
    · rw [if_pos hdef]
      simp [hdef]

theorem cc_union_union_eq (rbs wbs : List Node) :
    checkCompatible (Node.aunion rbs) (Node.aunion wbs) =
      wbs.all (fun wb => rbs.any (fun rb => checkCompatible rb wb)) := by
  have her : nodeSize (Node.aunion rbs) = 1 + nodesSize rbs := rfl
  have hew : nodeSize (Node.aunion wbs) = 1 + nodesSize wbs := rfl
  have hstep :
      checkCompatible (Node.aunion rbs) (Node.aunion wbs) =
        (allOptM (fun wb => anyOptM (fun rb =>
          ccFuel (nodeSize (Node.aunion rbs) + nodeSize (Node.aunion wbs))
            rb wb) rbs) wbs).getD false := by
    rfl
  rw [hstep]
  rw [allOptM_eq_all (g := fun wb => rbs.any (fun rb => checkCompatible rb wb))]
  · rfl
  · intro wb hwbm
    rw [anyOptM_eq_any (g := fun rb => checkCompatible rb wb)]
    intro rb hrbm
    apply ccFuel_eq_cc
    have ha := node_size_lt_nodesSize hrbm
    have hb := node_size_lt_nodesSize hwbm
    omega

theorem cc_reader_union_eq (rbs : List Node) (w : Node)
    (hw : nodeType w ≠ AvroType.avroUnion) :
    checkCompatible (Node.aunion rbs) w =
      rbs.any (fun rb => checkCompatible rb w) := by
  have her : nodeSize (Node.aunion rbs) = 1 + nodesSize rbs := rfl
  have hne : nodeType (Node.aunion rbs) ≠ nodeType w :=
    fun hc => hw (hc.symm.trans rfl)
  have hstep :
      checkCompatible (Node.aunion rbs) w =
        (anyOptM (fun rb =>
          ccFuel (nodeSize (Node.aunion rbs) + nodeSize w) rb w) rbs).getD
          false := by
    unfold checkCompatible
    congr 1
    simp only [ccFuel, if_neg hne]
  rw [hstep]
  rw [anyOptM_eq_any (g := fun rb => checkCompatible rb w)]
  · rfl
  · intro rb hrbm
    apply ccFuel_eq_cc
    have ha := node_size_lt_nodesSize hrbm
    omega

theorem cc_writer_union_eq (r : Node) (wbs : List Node)
    (hr : nodeType r ≠ AvroType.avroUnion) :
    checkCompatible r (Node.aunion wbs) =
      wbs.all (fun wb => checkCompatible r wb) := by
  have hew : nodeSize (Node.aunion wbs) = 1 + nodesSize wbs := rfl
  have hne : nodeType r ≠ nodeType (Node.aunion wbs) :=
    fun hc => hr (hc.trans rfl)
  have hstep :
      checkCompatible r (Node.aunion wbs) =
        (allOptM (fun wb =>
          ccFuel (nodeSize r + nodeSize (Node.aunion wbs)) r wb) wbs).getD
          false := by
    unfold checkCompatible
    congr 1
    cases r
    case aunion bs => exact absurd rfl hr
    all_goals simp only [ccFuel, if_neg hne]
  rw [hstep]
  rw [allOptM_eq_all (g := fun wb => checkCompatible r wb)]
  · rfl
  · intro wb hwbm
    apply ccFuel_eq_cc
    have ha := node_size_lt_nodesSize hwbm
    omega

/-! ### Validity invariants and reflexivity -/

/-- Pairwise-distinct strings. -/
def nodupStr : List String → Bool
  | [] => true
  | s :: t => !t.contains s && nodupStr t

def fieldNamesOf (fs : List Field) : List String := fs.map Field.fname

mutual
/-- Modelled from the spec: the invariants the Schema Tree Builder guarantees
for every schema it hands to the checker ("Field names within one record are
unique", "Enum symbols within one enum are unique"); only successfully built
schemas reach `check_compatible`.  The builder itself (the avro library's
`compileJsonSchemaFromMemory`) is not part of the repository. -/
def validNode : Node → Bool
  | .prim _ => true
  | .arecord _ fs => nodupStr (fieldNamesOf fs) && validFields fs
  | .aenum _ syms _ => nodupStr syms
  | .aarray t => validNode t
  | .amap t => validNode t
  | .aunion bs => validNodes bs
  | .afixed _ _ => true
  | .symbolic _ => true

def validFields : List Field → Bool
  | [] => true
  | .mk _ t _ :: fs => validNode t && validFields fs

def validNodes : List Node → Bool
  | [] => true
  | b :: bs => validNode b && validNodes bs
end

theorem validFields_mem {fs : List Field} (hv : validFields fs = true)
    {f : Field} (hf : f ∈ fs) : validNode f.ftype = true := by
  induction fs with
  | nil => cases hf
  | cons g gs ih =>
    cases g with
    | mk a b c =>
      simp only [validFields, Bool.and_eq_true] at hv
      rcases List.mem_cons.mp hf with rfl | hf'
      · exact hv.1
      · exact ih hv.2 hf'

theorem validNodes_mem {bs : List Node} (hv : validNodes bs = true)
    {b : Node} (hb : b ∈ bs) : validNode b = true := by
  induction bs with
  | nil => cases hb
  | cons c cs ih =>
    simp only [validNodes, Bool.and_eq_true] at hv
    rcases List.mem_cons.mp hb with rfl | hb'
    · exact hv.1
    · exact ih hv.2 hb'

theorem find?_self_of_nodup {fs : List Field}
    (hnd : nodupStr (fieldNamesOf fs) = true) {rf : Field} (hrf : rf ∈ fs) :
    fs.find? (fun wf => wf.fname = rf.fname) = some rf := by
  induction fs with
  | nil => cases hrf
  | cons g gs ih =>
    simp only [fieldNamesOf, List.map_cons, nodupStr, Bool.and_eq_true,
      Bool.not_eq_true'] at hnd
    rcases List.mem_cons.mp hrf with rfl | hrf'
    · simp [List.find?]
    · have hne : ¬ (g.fname = rf.fname) := by
        intro hc
        have hm : rf.fname ∈ gs.map Field.fname :=
          List.mem_map_of_mem Field.fname hrf'
        rw [← hc] at hm
        have h2 : (gs.map Field.fname).contains g.fname = true :=
          List.elem_eq_true_of_mem hm
        rw [hnd.1] at h2
        cases h2
      rw [List.find?_cons_of_neg _ (by simpa using hne)]
      exact ih hnd.2 hrf'

theorem resolve_refl_aux :
    ∀ n : Nat, ∀ s : Node, nodeSize s ≤ n →
      resolve s s ≠ Resolution.noMatch := by
  intro n
  induction n with
  | zero => intro s hs; have := nodeSize_pos s; omega
  | succ k ih =>
    intro s hs
    cases s with
    | prim t => simp [resolve]
    | arecord nm fs => simp [resolve]
    | aenum a b c => simp [resolve]
    | aarray t =>
      have ht : nodeSize t ≤ k := by
        have : nodeSize (Node.aarray t) = 1 + nodeSize t := rfl
        omega
      simpa [resolve] using ih t ht
    | amap t =>
      have ht : nodeSize t ≤ k := by
        have : nodeSize (Node.amap t) = 1 + nodeSize t := rfl
        omega
      simpa [resolve] using ih t ht
    | aunion bs => simp [resolve]
    | afixed a b => simp [resolve]
    | symbolic a => simp [resolve]

theorem resolve_refl (s : Node) : resolve s s ≠ Resolution.noMatch :=
  resolve_refl_aux (nodeSize s) s le_rfl

theorem cc_refl_aux :
    ∀ n : Nat, ∀ s : Node, nodeSize s ≤ n → validNode s = true →
      checkCompatible s s = true := by
  intro n
  induction n with
  | zero => intro s hs _; have := nodeSize_pos s; omega
  | succ k ih =>
    intro s hs hv
    cases s with
    | prim t =>
      have hr := resolve_refl (Node.prim t)
      simp [checkCompatible, ccFuel, hr]
    | aarray t =>
      have hr := resolve_refl (Node.aarray t)
      simp [checkCompatible, ccFuel, nodeType, hr]
    | amap t =>
      have hr := resolve_refl (Node.amap t)
      simp [checkCompatible, ccFuel, nodeType, hr]
    | afixed a b =>
      have hr := resolve_refl (Node.afixed a b)
      simp [checkCompatible, ccFuel, nodeType, hr]
    | symbolic a =>
      have hr := resolve_refl (Node.symbolic a)
      simp [checkCompatible, ccFuel, nodeType, hr]
    | aenum nm syms d =>
      rw [cc_enum_eq, if_neg (resolve_refl _)]
      cases hd : decide (d ≠ AvroType.avroNull)
      · simp only [Bool.false_or]
        rw [List.all_eq_true]
        intro x hx
        simpa using List.elem_eq_true_of_mem hx
      · simp
    | arecord nm fs =>
      have hrsz : nodeSize (Node.arecord nm fs) = 1 + fieldsSize fs := rfl
      simp only [validNode, Bool.and_eq_true] at hv
      rw [cc_record_eq, if_neg (resolve_refl _)]
      rw [List.all_eq_true]
      intro rf hrf
      rw [find?_self_of_nodup hv.1 hrf]
      have hsz := ftype_size_lt_fieldsSize hrf
      exact ih rf.ftype (by omega) (validFields_mem hv.2 hrf)
    | aunion bs =>
      have hrsz : nodeSize (Node.aunion bs) = 1 + nodesSize bs := rfl
      rw [cc_union_union_eq]
      rw [List.all_eq_true]
      intro wb hwb
      rw [List.any_eq_true]
      refine ⟨wb, hwb, ?_⟩
      have hsz := node_size_lt_nodesSize hwb
      exact ih wb (by omega) (validNodes_mem hv hwb)

theorem cc_refl (s : Node) (hv : validNode s = true) :
    checkCompatible s s = true :=
  cc_refl_aux (nodeSize s) s le_rfl hv

theorem list_all_congr {f g : α → Bool} {l : List α}
    (h : ∀ x ∈ l, f x = g x) : l.all f = l.all g := by
  induction l with
  | nil => rfl
  | cons x xs ih =>
    simp only [List.all_cons, h x (List.mem_cons_self x xs)]
    rw [ih (fun y hy => h y (List.mem_cons_of_mem _ hy))]

/-! ## Claims C1-C5: the compatibility checker -/

/-- C1: for two record schemas that pass the primary resolve test,
`compatible(reader, writer)` iterates over every reader field in declaration
order: if the writer has a field of the same unqualified name the two field
types are checked recursively and any failure makes the whole check false;
otherwise a reader field with a non-null default is considered satisfied and
a reader field with a null default makes the result false.  Writer fields
absent from the reader never affect the verdict. -/
theorem c1_record_field_iteration (rn wnm : String) (rfs wfs : List Field)
    (h : resolve (Node.arecord wnm wfs) (Node.arecord rn rfs) ≠
      Resolution.noMatch) :
    (checkCompatible (Node.arecord rn rfs) (Node.arecord wnm wfs) =
      rfs.all (fun rf =>
        match wfs.find? (fun wf => wf.fname = rf.fname) with
        | some wf => checkCompatible rf.ftype wf.ftype
        | none => decide (rf.fdefault ≠ AvroType.avroNull))) ∧
    (∀ extra : Field, (∀ rf ∈ rfs, rf.fname ≠ extra.fname) →
      checkCompatible (Node.arecord rn rfs) (Node.arecord wnm (wfs ++ [extra])) =
        checkCompatible (Node.arecord rn rfs) (Node.arecord wnm wfs)) := by
  constructor
  · rw [cc_record_eq, if_neg h]
  · intro extra hextra
    rw [cc_record_eq, cc_record_eq]
    have hres2 :
        resolve (Node.arecord wnm (wfs ++ [extra])) (Node.arecord rn rfs) =
          resolve (Node.arecord wnm wfs) (Node.arecord rn rfs) := rfl
    rw [hres2, if_neg h, if_neg h]
    apply list_all_congr
    intro rf hrf
    have hfind :
        (wfs ++ [extra]).find? (fun wf => wf.fname = rf.fname) =
          wfs.find? (fun wf => wf.fname = rf.fname) := by
      rw [List.find?_append]
      cases hf : wfs.find? (fun wf => wf.fname = rf.fname) with
      | some wf => rfl
      | none =>
        have hx : ¬ (extra.fname = rf.fname) := fun hc => hextra rf hrf hc.symm
        simp [List.find?, hx]
    rw [hfind]

theorem c1_record_field_iteration_witness :
    (resolve
        (Node.arecord "R" [Field.mk "a" (Node.prim PrimTag.pint) AvroType.avroNull])
        (Node.arecord "R"
          [Field.mk "a" (Node.prim PrimTag.pint) AvroType.avroNull,
           Field.mk "b" (Node.prim PrimTag.pint) AvroType.avroInt]) ≠
      Resolution.noMatch) ∧
    ((checkCompatible
        (Node.arecord "R"
          [Field.mk "a" (Node.prim PrimTag.pint) AvroType.avroNull,
           Field.mk "b" (Node.prim PrimTag.pint) AvroType.avroInt])
        (Node.arecord "R" [Field.mk "a" (Node.prim PrimTag.pint) AvroType.avroNull]) =
      [Field.mk "a" (Node.prim PrimTag.pint) AvroType.avroNull,
       Field.mk "b" (Node.prim PrimTag.pint) AvroType.avroInt].all (fun rf =>
        match [Field.mk "a" (Node.prim PrimTag.pint) AvroType.avroNull].find?
            (fun wf => wf.fname = rf.fname) with
        | some wf => checkCompatible rf.ftype wf.ftype
        | none => decide (rf.fdefault ≠ AvroType.avroNull))) ∧
    (∀ extra : Field,
      (∀ rf ∈ [Field.mk "a" (Node.prim PrimTag.pint) AvroType.avroNull,
               Field.mk "b" (Node.prim PrimTag.pint) AvroType.avroInt],
        rf.fname ≠ extra.fname) →
      checkCompatible
        (Node.arecord "R"
          [Field.mk "a" (Node.prim PrimTag.pint) AvroType.avroNull,
           Field.mk "b" (Node.prim PrimTag.pint) AvroType.avroInt])
        (Node.arecord "R"
          ([Field.mk "a" (Node.prim PrimTag.pint) AvroType.avroNull] ++ [extra])) =
      checkCompatible
        (Node.arecord "R"
          [Field.mk "a" (Node.prim PrimTag.pint) AvroType.avroNull,
           Field.mk "b" (Node.prim PrimTag.pint) AvroType.avroInt])
        (Node.arecord "R" [Field.mk "a" (Node.prim PrimTag.pint) AvroType.avroNull]))) :=
  ⟨by decide, c1_record_field_iteration "R" "R" _ _ (by decide)⟩

/-- C2: when both reader and writer are unions that pass the primary resolve
test, `compatible` is true iff every writer branch is compatible with at
least one reader branch. -/
theorem c2_union_union (rbs wbs : List Node)
    (h : resolve (Node.aunion wbs) (Node.aunion rbs) ≠ Resolution.noMatch) :
    checkCompatible (Node.aunion rbs) (Node.aunion wbs) = true ↔
      ∀ wb ∈ wbs, ∃ rb ∈ rbs, checkCompatible rb wb = true := by
  rw [cc_union_union_eq]
  simp [List.all_eq_true, List.any_eq_true]

theorem c2_union_union_witness :
    (resolve (Node.aunion [Node.prim PrimTag.pint])
        (Node.aunion [Node.prim PrimTag.pint, Node.prim PrimTag.pstring]) ≠
      Resolution.noMatch) ∧
    (checkCompatible
        (Node.aunion [Node.prim PrimTag.pint, Node.prim PrimTag.pstring])
        (Node.aunion [Node.prim PrimTag.pint]) = true ↔
      ∀ wb ∈ [Node.prim PrimTag.pint],
        ∃ rb ∈ [Node.prim PrimTag.pint, Node.prim PrimTag.pstring],
          checkCompatible rb wb = true) :=
  ⟨by decide, c2_union_union _ _ (by decide)⟩

/-- C3: when both reader and writer are enums that pass the primary resolve
test, `compatible` is true whenever the reader has a non-null default symbol;
with a null (absent) reader default, it is true iff every writer symbol
appears among the reader symbols. -/
theorem c3_enum (rn wnm : String) (rsyms wsyms : List String)
    (rdef wdef : AvroType)
    (h : resolve (Node.aenum wnm wsyms wdef) (Node.aenum rn rsyms rdef) ≠
      Resolution.noMatch) :
    (rdef ≠ AvroType.avroNull →
      checkCompatible (Node.aenum rn rsyms rdef) (Node.aenum wnm wsyms wdef) =
        true) ∧
    (rdef = AvroType.avroNull →
      (checkCompatible (Node.aenum rn rsyms rdef) (Node.aenum wnm wsyms wdef) =
          true ↔ ∀ ws ∈ wsyms, ws ∈ rsyms)) := by
  constructor
  · intro hd
    rw [cc_enum_eq, if_neg h]
    simp [hd]
  · intro hd
    subst hd
    rw [cc_enum_eq, if_neg h]
    simp [List.all_eq_true]

theorem c3_enum_witness :
    (resolve (Node.aenum "E" ["X", "Y", "Z"] AvroType.avroNull)
        (Node.aenum "E" ["X", "Y"] AvroType.avroNull) ≠ Resolution.noMatch) ∧
    ((AvroType.avroNull ≠ AvroType.avroNull →
      checkCompatible (Node.aenum "E" ["X", "Y"] AvroType.avroNull)
        (Node.aenum "E" ["X", "Y", "Z"] AvroType.avroNull) = true) ∧
    (AvroType.avroNull = AvroType.avroNull →
      (checkCompatible (Node.aenum "E" ["X", "Y"] AvroType.avroNull)
          (Node.aenum "E" ["X", "Y", "Z"] AvroType.avroNull) = true ↔
        ∀ ws ∈ ["X", "Y", "Z"], ws ∈ ["X", "Y"]))) :=
  ⟨by decide, c3_enum "E" "E" ["X", "Y"] ["X", "Y", "Z"] _ _ (by decide)⟩

/-- C4: when the reader is a union and the writer is not, `compatible` is
true iff some reader branch is compatible with the writer (the loop returns
at the first compatible branch); in particular a union absorbs any valid
non-union branch schema: `compatible(union{s, other}, s) = true`. -/
theorem c4_reader_union :
    (∀ (rbs : List Node) (w : Node), nodeType w ≠ AvroType.avroUnion →
      (checkCompatible (Node.aunion rbs) w = true ↔
        ∃ rb ∈ rbs, checkCompatible rb w = true)) ∧
    (∀ s other : Node, validNode s = true → nodeType s ≠ AvroType.avroUnion →
      checkCompatible (Node.aunion [s, other]) s = true) := by
  constructor
  · intro rbs w hw
    rw [cc_reader_union_eq rbs w hw]
    simp [List.any_eq_true]
  · intro s other hv hs
    rw [cc_reader_union_eq _ _ hs]
    simp [cc_refl s hv]

theorem c4_reader_union_witness :
    (nodeType (Node.prim PrimTag.pint) ≠ AvroType.avroUnion) ∧
    (validNode (Node.prim PrimTag.pint) = true) ∧
    (checkCompatible (Node.aunion [Node.prim PrimTag.pint, Node.prim PrimTag.pstring])
        (Node.prim PrimTag.pint) = true ↔
      ∃ rb ∈ [Node.prim PrimTag.pint, Node.prim PrimTag.pstring],
        checkCompatible rb (Node.prim PrimTag.pint) = true) ∧
    (checkCompatible (Node.aunion [Node.prim PrimTag.pint, Node.prim PrimTag.pstring])
        (Node.prim PrimTag.pint) = true) :=
  ⟨by decide, by decide,
    c4_reader_union.1 [Node.prim PrimTag.pint, Node.prim PrimTag.pstring]
      (Node.prim PrimTag.pint) (by decide),
    c4_reader_union.2 (Node.prim PrimTag.pint) (Node.prim PrimTag.pstring)
      (by decide) (by decide)⟩

/-- C5: `compatible(reader, writer)` terminates within a recursion depth
bounded by the sizes of the two schema trees: any fuel above
`nodeSize reader + nodeSize writer` yields the same defined verdict, for
every pair of schema trees, including self-referential record schemas
(whose recursive references appear as symbolic leaf nodes and are not
structurally recursed). -/
theorem c5_termination (reader writer : Node) (fuel : Nat)
    (h : nodeSize reader + nodeSize writer < fuel) :
    ccFuel fuel reader writer = some (checkCompatible reader writer) :=
  ccFuel_eq_cc reader writer h

theorem c5_termination_witness :
    (nodeSize (Node.arecord "R" [Field.mk "self" (Node.symbolic "R") AvroType.avroNull]) +
      nodeSize (Node.arecord "R" [Field.mk "self" (Node.symbolic "R") AvroType.avroNull]) <
        100) ∧
    ccFuel 100
      (Node.arecord "R" [Field.mk "self" (Node.symbolic "R") AvroType.avroNull])
      (Node.arecord "R" [Field.mk "self" (Node.symbolic "R") AvroType.avroNull]) =
      some (checkCompatible
        (Node.arecord "R" [Field.mk "self" (Node.symbolic "R") AvroType.avroNull])
        (Node.arecord "R" [Field.mk "self" (Node.symbolic "R") AvroType.avroNull])) :=
  ⟨by decide,
    c5_termination
      (Node.arecord "R" [Field.mk "self" (Node.symbolic "R") AvroType.avroNull])
      (Node.arecord "R" [Field.mk "self" (Node.symbolic "R") AvroType.avroNull])
      100 (by decide)⟩

/-! ## The JSON DOM

`rapidjson::GenericValue`, as it appears after parsing.  Numbers are kept as
their scanned literal text: the sanitizer never inspects or rewrites a
number, so the numeric value itself is never needed (this also keeps
floating point out of the model). -/

inductive Json where
  | jnull
  | jbool (b : Bool)
  | jnum (lit : String)
  | jstr (s : String)
  | jarr (elems : List Json)
  | jobj (members : List (String × Json))

mutual
/-- Size of a JSON DOM value, the fuel bound for `sanitizeValF`/`writeValF`. -/
def jsonSize : Json → Nat
  | .jnull => 1
  | .jbool _ => 1
  | .jnum _ => 1
  | .jstr _ => 1
  | .jarr xs => 1 + jsonArrSize xs
  | .jobj ms => 1 + jsonObjSize ms

def jsonArrSize : List Json → Nat
  | [] => 0
  | x :: xs => 1 + jsonSize x + jsonArrSize xs

def jsonObjSize : List (String × Json) → Nat
  | [] => 0
  | (_, v) :: ms => 1 + jsonSize v + jsonObjSize ms
end

/-- `error_code::schema_invalid` (the only code this module uses). -/
inductive ErrorCode where
  | schemaInvalid
  deriving DecidableEq

/-- `error_info`. -/
structure ErrorInfo where
  code : ErrorCode
  msg : String
  deriving DecidableEq

/-- `rapidjson::GenericValue::Object::FindMember` (first member with the
given key). -/
def findFirst (k : String) : List (String × Json) → Option Json
  | [] => none
  | (k0, v) :: ms => if k0 = k then some v else findFirst k ms

/-- In-place overwrite of the first member with the given key. -/
def setFirst (k : String) (v' : Json) : List (String × Json) →
    List (String × Json)
  | [] => []
  | (k0, v) :: ms =>
    if k0 = k then (k0, v') :: ms else (k0, v) :: setFirst k v' ms

/-- `name_sv.substr(name_sv.find_last_of('.') + 1)`: the final dot-separated
segment (the whole string when it has no dot). -/
def lastSegment (s : String) : String :=
  String.mk ((s.toList.reverse.takeWhile (fun c => c ≠ '.')).reverse)

/-- `sanitize_name` (avro.cc lines 135-151): a `"name"` value must be a
non-empty string; it is rewritten to its final dot-separated segment when
that differs in length (i.e. when the string contains a dot). -/
def sanitizeName (name : Json) : Except ErrorInfo Json :=
  match name with
  | .jstr s =>
    if s.length = 0 then
      .error ⟨.schemaInvalid, "Invalid JSON Field \"name\""⟩
    else if (lastSegment s).length ≠ s.length then .ok (.jstr (lastSegment s))
    else .ok (.jstr s)
  | _ => .error ⟨.schemaInvalid, "Invalid JSON Field \"name\""⟩

/-- `sanitize` on an array (avro.cc lines 239-249), parameterized by the
value sanitizer `sv` (`none` = fuel ran out). -/
def sanitizeArrF (sv : Json → Option (Except ErrorInfo Json)) :
    List Json → Option (Except ErrorInfo (List Json))
  | [] => some (.ok [])
  | x :: xs =>
    match sv x with
    | none => none
    | some (.error e) => some (.error e)
    | some (.ok x') =>
      match sanitizeArrF sv xs with
      | none => none
      | some (.error e) => some (.error e)
      | some (.ok xs') => some (.ok (x' :: xs'))

/-- `sanitize_record` (avro.cc lines 153-166): requires a `"fields"` member
holding an array, then sanitizes it in place. -/
def sanitizeRecordF (sv : Json → Option (Except ErrorInfo Json))
    (ms : List (String × Json)) :
    Option (Except ErrorInfo (List (String × Json))) :=
  match findFirst "fields" ms with
  | none => some (.error ⟨.schemaInvalid, "Missing JSON field \"fields\""⟩)
  | some fv =>
    match fv with
    | .jarr xs =>
      match sv (.jarr xs) with
      | none => none
      | some (.error e) => some (.error e)
      | some (.ok fv') => some (.ok (setFirst "fields" fv' ms))
    | _ =>
      some (.error ⟨.schemaInvalid, "JSON field \"fields\" is not an array"⟩)

/-- The `"type"` handling of `sanitize` on an object (avro.cc lines
221-235 plus `sanitize_avro_type`, which special-cases only `"record"`). -/
def sanitizeObjTypeF (sv : Json → Option (Except ErrorInfo Json))
    (ms : List (String × Json)) :
    Option (Except ErrorInfo (List (String × Json))) :=
  match findFirst "type" ms with
  | none => some (.ok ms)
  | some tv =>
    match sv tv with
    | none => none
    | some (.error e) => some (.error e)
    | some (.ok tv') =>
      match tv' with
      | .jstr tstr =>
        if tstr = "record" then sanitizeRecordF sv (setFirst "type" tv' ms)
        else some (.ok (setFirst "type" tv' ms))
      | _ => some (.ok (setFirst "type" tv' ms))

/-- `sanitize` on an object (avro.cc lines 211-237): first the `"name"`
member, then the `"type"` member. -/
def sanitizeObjF (sv : Json → Option (Except ErrorInfo Json))
    (ms : List (String × Json)) :
    Option (Except ErrorInfo (List (String × Json))) :=
  match findFirst "name" ms with
  | some nv =>
    match sanitizeName nv with
    | .error e => some (.error e)
    | .ok nv' => sanitizeObjTypeF sv (setFirst "name" nv' ms)
  | none => sanitizeObjTypeF sv ms

/-- Fuel-indexed `sanitize` on a JSON value (avro.cc lines 189-209):
objects and arrays recurse, scalars pass through. -/
def sanitizeValF : Nat → Json → Option (Except ErrorInfo Json)
  | 0, _ => none
  | fuel + 1, v =>
    match v with
    | .jobj ms =>
      match sanitizeObjF (fun x => sanitizeValF fuel x) ms with
      | none => none
      | some (.error e) => some (.error e)
      | some (.ok ms') => some (.ok (.jobj ms'))
    | .jarr xs =>
      match sanitizeArrF (fun x => sanitizeValF fuel x) xs with
      | none => none
      | some (.error e) => some (.error e)
      | some (.ok xs') => some (.ok (.jarr xs'))
    | x => some (.ok x)

/-- The fuel-closed sanitizer on a DOM value. -/
def sanitizeVal (v : Json) : Except ErrorInfo Json :=
  (sanitizeValF (jsonSize v + 1) v).getD
    (.error ⟨.schemaInvalid, "unreachable: fuel"⟩)

/-! ## The rapidjson parse and write model

`sanitize_avro_schema_definition` parses with
`kParseDefaultFlags | kParseStopWhenDoneFlag` and re-emits the DOM with
`rapidjson::Writer`.  The parser below follows rapidjson's strict JSON
grammar on a character list; `kParseStopWhenDoneFlag` appears as the
pipeline simply discarding the unconsumed remainder.  Parse-error messages
are kept short and byte offsets are not tracked (no settled claim consumes
them). -/

def isWsChar (c : Char) : Bool :=
  c = ' ' ∨ c = '\t' ∨ c = '\n' ∨ c = '\x0D'

def skipWs : List Char → List Char
  | [] => []
  | c :: cs => if isWsChar c then skipWs cs else c :: cs

def isDigitCh (c : Char) : Bool := '0' ≤ c ∧ c ≤ '9'

def hexVal (c : Char) : Option Nat :=
  if '0' ≤ c ∧ c ≤ '9' then some (c.toNat - 48)
  else if 'a' ≤ c ∧ c ≤ 'f' then some (c.toNat - 87)
  else if 'A' ≤ c ∧ c ≤ 'F' then some (c.toNat - 55)
  else none

/-- Four hex digits decoded to their value (rapidjson `ParseHex4`). -/
def hex4 (h1 h2 h3 h4 : Char) : Option Nat :=
  match hexVal h1, hexVal h2, hexVal h3, hexVal h4 with
  | some a, some b, some c, some d => some (((a * 16 + b) * 16 + c) * 16 + d)
  | _, _, _, _ => none

/-- The single-character escapes of rapidjson `ParseString`. -/
def escDecode (e : Char) : Option Char :=
  if e = '"' then some '"'
  else if e = '\\' then some '\\'
  else if e = '/' then some '/'
  else if e = 'b' then some '\x08'
  else if e = 'f' then some '\x0C'
  else if e = 'n' then some '\n'
  else if e = 'r' then some '\x0D'
  else if e = 't' then some '\t'
  else none

mutual
/-- rapidjson `ParseString`: body after the opening quote, with escapes and
surrogate pairs; `acc` holds the decoded prefix reversed.  Dispatch is by
`if` on the character so that proofs can discharge branches by hypothesis;
`parseStrU` handles the `\\u` escape. -/
def parseStrAux : List Char → List Char → Except String (String × List Char)
  | _, [] => .error "Missing a closing quotation mark in string."
  | acc, c :: rest =>
    if c = '"' then .ok (String.mk acc.reverse, rest)
    else if c = '\\' then
      match rest with
      | [] => .error "Missing a closing quotation mark in string."
      | e :: rest2 =>
        if e = 'u' then parseStrU acc rest2
        else
          match escDecode e with
          | some d => parseStrAux (d :: acc) rest2
          | none => .error "Invalid escape character in string."
    else if c.toNat < 0x20 then .error "Invalid encoding in string."
    else parseStrAux (c :: acc) rest

def parseStrU : List Char → List Char → Except String (String × List Char)
  | acc, h1 :: h2 :: h3 :: h4 :: rest3 =>
    match hex4 h1 h2 h3 h4 with
    | none => .error "Incorrect hex digit after escape in string."
    | some n =>
      if 0xD800 ≤ n ∧ n ≤ 0xDBFF then parseStrUSur n acc rest3
      else if 0xDC00 ≤ n ∧ n ≤ 0xDFFF then
        .error "The surrogate pair in string is invalid."
      else parseStrAux (Char.ofNat n :: acc) rest3
  | _, _ => .error "Incorrect hex digit after escape in string."

/-- The low-surrogate continuation of a `\u` escape whose first code unit is
a high surrogate. -/
def parseStrUSur (n : Nat) :
    List Char → List Char → Except String (String × List Char)
  | acc, e2 :: u2 :: g1 :: g2 :: g3 :: g4 :: rest4 =>
    if e2 = '\\' ∧ u2 = 'u' then
      match hex4 g1 g2 g3 g4 with
      | none => .error "Incorrect hex digit after escape in string."
      | some n2 =>
        if 0xDC00 ≤ n2 ∧ n2 ≤ 0xDFFF then
          parseStrAux
            (Char.ofNat (0x10000 + (n - 0xD800) * 0x400 +
              (n2 - 0xDC00)) :: acc) rest4
        else .error "The surrogate pair in string is invalid."
    else .error "The surrogate pair in string is invalid."
  | _, _ => .error "The surrogate pair in string is invalid."
end

/-- Longest digit prefix and the remainder. -/
def scanDigits : List Char → List Char × List Char
  | [] => ([], [])
  | c :: cs =>
    if isDigitCh c then
      let (d, r) := scanDigits cs
      (c :: d, r)
    else ([], c :: cs)

/-- rapidjson `ParseNumber`, exponent part. -/
def parseNumberExp (neg ip fp : List Char) (s : List Char) :
    Except String (List Char × List Char) :=
  match s with
  | c :: t =>
    if c = 'e' ∨ c = 'E' then
      match t with
      | [] => .error "Missing exponent in number."
      | u :: t2 =>
        if u = '+' ∨ u = '-' then
          match scanDigits t2 with
          | ([], _) => .error "Missing exponent in number."
          | (d, r) => .ok (neg ++ ip ++ fp ++ (c :: ([u] ++ d)), r)
        else
          match scanDigits (u :: t2) with
          | ([], _) => .error "Missing exponent in number."
          | (d, r) => .ok (neg ++ ip ++ fp ++ (c :: d), r)
    else .ok (neg ++ ip ++ fp, c :: t)
  | [] => .ok (neg ++ ip ++ fp, [])

/-- rapidjson `ParseNumber`, fraction part. -/
def parseNumberFrac (neg ip : List Char) (s : List Char) :
    Except String (List Char × List Char) :=
  match s with
  | c :: t =>
    if c = '.' then
      match scanDigits t with
      | ([], _) => .error "Missing fraction part in number."
      | (d, r) => parseNumberExp neg ip ('.' :: d) r
    else parseNumberExp neg ip [] (c :: t)
  | [] => parseNumberExp neg ip [] []

/-- rapidjson `ParseNumber`: strict grammar, returning the scanned literal
and the remainder.  After a leading `0` no further integer digits are
consumed. -/
def parseNumber (s : List Char) : Except String (List Char × List Char) :=
  match s with
  | [] => .error "Invalid value."
  | c :: t =>
    if c = '-' then
      match t with
      | [] => .error "Invalid value."
      | c2 :: t2 =>
        if c2 = '0' then parseNumberFrac ['-'] ['0'] t2
        else if isDigitCh c2 then
          match scanDigits t2 with
          | (d, r) => parseNumberFrac ['-'] (c2 :: d) r
        else .error "Invalid value."
    else if c = '0' then parseNumberFrac [] ['0'] t
    else if isDigitCh c then
      match scanDigits t with
      | (d, r) => parseNumberFrac [] (c :: d) r
    else .error "Invalid value."

/-- rapidjson `ParseArray` element loop, parameterized by the value parser
`pv`; the caller has consumed `[` and any whitespace and checked the array
is not empty. -/
def parseElemsF (pv : List Char → Option (Except String (Json × List Char))) :
    Nat → List Char → Option (Except String (List Json × List Char))
  | 0, _ => none
  | fuel + 1, s =>
    match pv s with
    | none => none
    | some (.error e) => some (.error e)
    | some (.ok (v, s1)) =>
      match skipWs s1 with
      | [] => some (.error "Missing a comma or square bracket in array.")
      | c :: s2 =>
        if c = ',' then
          match parseElemsF pv fuel (skipWs s2) with
          | none => none
          | some (.error e) => some (.error e)
          | some (.ok (vs, rest)) => some (.ok (v :: vs, rest))
        else if c = ']' then some (.ok ([v], s2))
        else some (.error "Missing a comma or square bracket in array.")

/-- rapidjson `ParseObject` member loop. -/
def parseMembersF (pv : List Char → Option (Except String (Json × List Char))) :
    Nat → List Char →
    Option (Except String (List (String × Json) × List Char))
  | 0, _ => none
  | fuel + 1, s =>
    match s with
    | [] => some (.error "Missing a name for object member.")
    | c0 :: s0 =>
      if c0 = '"' then
        match parseStrAux [] s0 with
        | .error e => some (.error e)
        | .ok (k, s1) =>
          match skipWs s1 with
          | [] => some (.error "Missing a colon after a name of object member.")
          | c1 :: s2 =>
            if c1 = ':' then
              match pv (skipWs s2) with
              | none => none
              | some (.error e) => some (.error e)
              | some (.ok (v, s3)) =>
                match skipWs s3 with
                | [] =>
                  some (.error "Missing a comma or curly bracket in object.")
                | c2 :: s4 =>
                  if c2 = ',' then
                    match parseMembersF pv fuel (skipWs s4) with
                    | none => none
                    | some (.error e) => some (.error e)
                    | some (.ok (ms, rest)) => some (.ok ((k, v) :: ms, rest))
                  else if c2 = '\x7d' then some (.ok ([(k, v)], s4))
                  else
                    some (.error "Missing a comma or curly bracket in object.")
            else some (.error "Missing a colon after a name of object member.")
      else some (.error "Missing a name for object member.")

/-- rapidjson `ParseValue`: dispatch on the first character (the caller has
skipped whitespace). -/
def parseValueF : Nat → List Char → Option (Except String (Json × List Char))
  | 0, _ => none
  | fuel + 1, s =>
    match s with
    | [] => some (.error "The document is empty.")
    | c :: rest =>
      if c = 'n' then
        match rest with
        | c1 :: c2 :: c3 :: rest2 =>
          if c1 = 'u' ∧ c2 = 'l' ∧ c3 = 'l' then some (.ok (.jnull, rest2))
          else some (.error "Invalid value.")
        | _ => some (.error "Invalid value.")
      else if c = 't' then
        match rest with
        | c1 :: c2 :: c3 :: rest2 =>
          if c1 = 'r' ∧ c2 = 'u' ∧ c3 = 'e' then some (.ok (.jbool true, rest2))
          else some (.error "Invalid value.")
        | _ => some (.error "Invalid value.")
      else if c = 'f' then
        match rest with
        | c1 :: c2 :: c3 :: c4 :: rest2 =>
          if c1 = 'a' ∧ c2 = 'l' ∧ c3 = 's' ∧ c4 = 'e' then
            some (.ok (.jbool false, rest2))
          else some (.error "Invalid value.")
        | _ => some (.error "Invalid value.")
      else if c = '"' then
        match parseStrAux [] rest with
        | .error e => some (.error e)
        | .ok (str, rest2) => some (.ok (.jstr str, rest2))
      else if c = '[' then
        match skipWs rest with
        | c2 :: rest2 =>
          if c2 = ']' then some (.ok (.jarr [], rest2))
          else
            match parseElemsF (fun t => parseValueF fuel t) fuel (c2 :: rest2) with
            | none => none
            | some (.error e) => some (.error e)
            | some (.ok (vs, rest3)) => some (.ok (.jarr vs, rest3))
        | [] => some (.error "Missing a comma or square bracket in array.")
      else if c = '\x7b' then
        match skipWs rest with
        | c2 :: rest2 =>
          if c2 = '\x7d' then some (.ok (.jobj [], rest2))
          else
            match parseMembersF (fun t => parseValueF fuel t) fuel (c2 :: rest2) with
            | none => none
            | some (.error e) => some (.error e)
            | some (.ok (ms, rest3)) => some (.ok (.jobj ms, rest3))
        | [] => some (.error "Missing a name for object member.")
      else if c = '-' ∨ isDigitCh c then
        match parseNumber (c :: rest) with
        | .error e => some (.error e)
        | .ok (lit, rest2) => some (.ok (.jnum (String.mk lit), rest2))
      else some (.error "Invalid value.")

/-- `rapidjson::Writer` character escaping: quote, backslash, the short
control escapes, `\u00XX` (uppercase hex) for other control characters,
everything else verbatim. -/
def hexDigUpper (n : Nat) : Char :=
  if n < 10 then Char.ofNat (48 + n) else Char.ofNat (55 + n)

def escChar (c : Char) : List Char :=
  if c = '"' then ['\\', '"']
  else if c = '\\' then ['\\', '\\']
  else if c = '\x08' then ['\\', 'b']
  else if c = '\x0C' then ['\\', 'f']
  else if c = '\n' then ['\\', 'n']
  else if c = '\x0D' then ['\\', 'r']
  else if c = '\t' then ['\\', 't']
  else if c.toNat < 0x20 then
    ['\\', 'u', '0', '0', hexDigUpper (c.toNat / 16), hexDigUpper (c.toNat % 16)]
  else [c]

def escStr : List Char → List Char
  | [] => []
  | c :: t => escChar c ++ escStr t

def writeStrChars (s : String) : List Char := '"' :: (escStr s.toList ++ ['"'])

def joinComma : List (List Char) → List Char
  | [] => []
  | [x] => x
  | x :: xs => x ++ ',' :: joinComma xs

def mapOptList (f : α → Option (List Char)) : List α → Option (List (List Char))
  | [] => some []
  | x :: xs =>
    match f x, mapOptList f xs with
    | some y, some ys => some (y :: ys)
    | _, _ => none

/-- Fuel-indexed `rapidjson::Writer` serialization of a DOM value: compact
output, members and elements in DOM order, number literals verbatim. -/
def writeValF : Nat → Json → Option (List Char)
  | 0, _ => none
  | fuel + 1, v =>
    match v with
    | .jnull => some ['n', 'u', 'l', 'l']
    | .jbool true => some ['t', 'r', 'u', 'e']
    | .jbool false => some ['f', 'a', 'l', 's', 'e']
    | .jnum lit => some lit.toList
    | .jstr s => some (writeStrChars s)
    | .jarr xs =>
      match mapOptList (fun x => writeValF fuel x) xs with
      | none => none
      | some parts => some ('[' :: (joinComma parts ++ [']']))
    | .jobj ms =>
      match mapOptList (fun kv => (writeValF fuel kv.2).map
          (fun vcs => writeStrChars kv.1 ++ ':' :: vcs)) ms with
      | none => none
      | some parts => some ('\x7b' :: (joinComma parts ++ ['\x7d']))

def writeVal (v : Json) : List Char := (writeValF (jsonSize v + 1) v).getD []

/-- `sanitize_avro_schema_definition` (avro.cc lines 265-297): parse with
`kParseDefaultFlags | kParseStopWhenDoneFlag` (the remainder after the root
value is discarded without error), sanitize the DOM, and re-emit it.  A
sanitize error message gets the original schema text appended. -/
def sanitizeAvroSchemaDefinition (defn : String) : Except ErrorInfo String :=
  let s0 := skipWs defn.toList
  match s0 with
  | [] => .error ⟨.schemaInvalid, "Invalid schema: The document is empty."⟩
  | _ =>
    match parseValueF (defn.toList.length + 1) s0 with
    | none => .error ⟨.schemaInvalid, "Invalid schema: unreachable fuel"⟩
    | some (.error e) => .error ⟨.schemaInvalid, "Invalid schema: " ++ e⟩
    | some (.ok (v, _rest)) =>
      match sanitizeValF (jsonSize v + 1) v with
      | none => .error ⟨.schemaInvalid, "unreachable fuel"⟩
      | some (.error e) => .error ⟨e.code, e.msg ++ " " ++ defn⟩
      | some (.ok v') => .ok (String.mk (writeVal v'))

/-! ## Member and name lemmas for the sanitizer -/

theorem findFirst_setFirst_self {k : String} {w : Json} :
    ∀ {ms : List (String × Json)} {v : Json}, findFirst k ms = some v →
      findFirst k (setFirst k w ms) = some w := by
  intro ms
  induction ms with
  | nil => intro v h; cases h
  | cons m t ih =>
    intro v h
    obtain ⟨k0, v0⟩ := m
    by_cases hk : k0 = k
    · simp [findFirst, setFirst, hk]
    · simp only [findFirst, setFirst, if_neg hk] at h ⊢
      exact ih h

theorem findFirst_setFirst_ne {k k' : String} (hne : k ≠ k') {w : Json} :
    ∀ ms : List (String × Json),
      findFirst k (setFirst k' w ms) = findFirst k ms := by
  intro ms
  induction ms with
  | nil => rfl
  | cons m t ih =>
    obtain ⟨k0, v0⟩ := m
    by_cases hk' : k0 = k'
    · have hk : ¬ k0 = k := fun hc => hne (hc ▸ hk')
      simp [findFirst, setFirst, hk', hk, Ne.symm hne]
    · by_cases hk : k0 = k
      · simp [findFirst, setFirst, hk', hk, hne]
      · simp only [setFirst, if_neg hk', findFirst, if_neg hk]
        exact ih

theorem setFirst_self {k : String} :
    ∀ {ms : List (String × Json)} {v : Json}, findFirst k ms = some v →
      setFirst k v ms = ms := by
  intro ms
  induction ms with
  | nil => intro v h; cases h
  | cons m t ih =>
    intro v h
    obtain ⟨k0, v0⟩ := m
    by_cases hk : k0 = k
    · simp only [findFirst, if_pos hk] at h
      injection h with h
      simp [setFirst, hk, h]
    · simp only [findFirst, if_neg hk] at h
      simp [setFirst, hk, ih h]

theorem stringMk_toList : ∀ s : String, String.mk s.toList = s := by
  intro s
  cases s
  rfl

theorem toList_stringMk : ∀ l : List Char, (String.mk l).toList = l := by
  intro l
  rfl

theorem takeWhile_eq_self_of_length {p : α → Bool} :
    ∀ l : List α, (l.takeWhile p).length = l.length → l.takeWhile p = l := by
  intro l
  induction l with
  | nil => intro _; rfl
  | cons c t ih =>
    intro h
    cases hp : p c with
    | false => rw [List.takeWhile_cons_of_neg (by simp [hp])] at h ⊢; simp at h
    | true =>
      rw [List.takeWhile_cons_of_pos (by simp [hp])] at h ⊢
      simp only [List.length_cons, Nat.add_right_cancel_iff] at h
      rw [ih h]

theorem takeWhile_eq_self_of_forall {p : α → Bool} :
    ∀ l : List α, (∀ c ∈ l, p c = true) → l.takeWhile p = l := by
  intro l
  induction l with
  | nil => intro _; rfl
  | cons c t ih =>
    intro h
    rw [List.takeWhile_cons_of_pos (h c (List.mem_cons_self c t))]
    rw [ih (fun x hx => h x (List.mem_cons_of_mem _ hx))]

theorem lastSegment_no_dot {s : String} :
    ∀ c ∈ (lastSegment s).toList, c ≠ '.' := by
  intro c hc
  have hc2 : c ∈ s.toList.reverse.takeWhile (fun c => c ≠ '.') := by
    have : (lastSegment s).toList =
        (s.toList.reverse.takeWhile (fun c => c ≠ '.')).reverse := rfl
    rw [this] at hc
    exact List.mem_reverse.mp hc
  have := List.mem_takeWhile_imp hc2
  simpa using this

theorem lastSegment_eq_of_length_eq {s : String}
    (h : (lastSegment s).length = s.length) : lastSegment s = s := by
  have hlen : (s.toList.reverse.takeWhile (fun c => c ≠ '.')).length =
      s.toList.reverse.length := by
    have h1 : (lastSegment s).length =
        (s.toList.reverse.takeWhile (fun c => c ≠ '.')).length := by
      have : (lastSegment s).toList =
          (s.toList.reverse.takeWhile (fun c => c ≠ '.')).reverse := rfl
      have h2 : (lastSegment s).length = (lastSegment s).toList.length := rfl
      rw [h2, this, List.length_reverse]
    have h3 : s.length = s.toList.length := rfl
    rw [h1, h3] at h
    rw [h, List.length_reverse]
  have := takeWhile_eq_self_of_length _ hlen
  have h4 : lastSegment s = String.mk (s.toList.reverse.reverse) := by
    unfold lastSegment
    rw [this]
  rw [List.reverse_reverse] at h4
  rw [h4, stringMk_toList]

theorem contains_dot_of_length_ne {s : String}
    (h : (lastSegment s).length ≠ s.length) : s.toList.contains '.' = true := by
  by_contra hc
  apply h
  have hnotin : ('.' : Char) ∉ s.toList := by
    intro hin
    exact hc (List.elem_eq_true_of_mem hin)
  have hall : ∀ c ∈ s.toList.reverse, (fun c => decide (c ≠ '.')) c = true := by
    intro c hcm
    have : c ∈ s.toList := List.mem_reverse.mp hcm
    simp only [decide_eq_true_eq]
    intro hcc
    exact hnotin (hcc ▸ this)
  have := takeWhile_eq_self_of_forall _ hall
  have h4 : lastSegment s = String.mk (s.toList.reverse.reverse) := by
    unfold lastSegment
    rw [this]
  rw [List.reverse_reverse] at h4
  rw [h4, stringMk_toList]

theorem string_eq_empty_of_length_eq_zero {s : String} (h : s.length = 0) :
    s = "" := by
  cases s with
  | mk data =>
    cases data with
    | nil => rfl
    | cons c t => simp [String.length] at h

theorem sanitizeName_ok {s : String} (hs : s ≠ "") :
    sanitizeName (.jstr s) = .ok (.jstr (lastSegment s)) := by
  have hstep : sanitizeName (.jstr s) =
      if s.length = 0 then
        .error ⟨.schemaInvalid, "Invalid JSON Field \"name\""⟩
      else if (lastSegment s).length ≠ s.length then .ok (.jstr (lastSegment s))
      else .ok (.jstr s) := rfl
  rw [hstep]
  rw [if_neg (fun hc => hs (string_eq_empty_of_length_eq_zero hc))]
  by_cases hl : (lastSegment s).length ≠ s.length
  · rw [if_pos hl]
  · rw [if_neg hl]
    rw [lastSegment_eq_of_length_eq (not_not.mp hl)]

theorem sanitizeObjTypeF_shape {sv : Json → Option (Except ErrorInfo Json)}
    {ms ms' : List (String × Json)}
    (h : sanitizeObjTypeF sv ms = some (.ok ms')) :
    ms' = ms ∨ (∃ tv', ms' = setFirst "type" tv' ms) ∨
      (∃ tv' fv', ms' = setFirst "fields" fv' (setFirst "type" tv' ms)) := by
  unfold sanitizeObjTypeF at h
  cases hf : findFirst "type" ms with
  | none =>
    rw [hf] at h
    simp at h
    exact Or.inl h.symm
  | some tv =>
    rw [hf] at h
    dsimp only at h
    cases hsv : sv tv with
    | none => rw [hsv] at h; cases h
    | some r =>
      rw [hsv] at h
      cases r with
      | error e => simp at h
      | ok tv' =>
        cases tv' with
        | jstr tstr =>
          by_cases hrec : tstr = "record"
          · simp only [if_pos hrec] at h
            unfold sanitizeRecordF at h
            cases hff : findFirst "fields" (setFirst "type" (.jstr tstr) ms) with
            | none => rw [hff] at h; simp at h
            | some fv =>
              rw [hff] at h
              cases fv with
              | jarr xs =>
                dsimp only at h
                cases hsv2 : sv (.jarr xs) with
                | none => rw [hsv2] at h; cases h
                | some r2 =>
                  rw [hsv2] at h
                  cases r2 with
                  | error e => simp at h
                  | ok fv' =>
                    simp at h
                    exact Or.inr (Or.inr ⟨.jstr tstr, fv', h.symm⟩)
              | jnull => simp at h
              | jbool b => simp at h
              | jnum l => simp at h
              | jstr s2 => simp at h
              | jobj ms2 => simp at h
          · simp only [if_neg hrec] at h
            simp at h
            exact Or.inr (Or.inl ⟨.jstr tstr, h.symm⟩)
        | jnull => simp at h; exact Or.inr (Or.inl ⟨.jnull, h.symm⟩)
        | jbool b => simp at h; exact Or.inr (Or.inl ⟨.jbool b, h.symm⟩)
        | jnum l => simp at h; exact Or.inr (Or.inl ⟨.jnum l, h.symm⟩)
        | jarr xs => simp at h; exact Or.inr (Or.inl ⟨.jarr xs, h.symm⟩)
        | jobj ms2 => simp at h; exact Or.inr (Or.inl ⟨.jobj ms2, h.symm⟩)

/-! ## Claims C8 and C9: name handling in the sanitizer -/

/-- C8: at every JSON object the sanitizer visits whose (first) `"name"`
member exists: a non-string or empty-string value yields `schema_invalid`;
a non-empty string value is rewritten to its final dot-separated segment
(everything up to and including the last `.` is dropped). -/
theorem c8_name_rewrite (fuel : Nat) (ms : List (String × Json)) :
    (∀ x, findFirst "name" ms = some x → (∀ s : String, x = .jstr s → s = "") →
      sanitizeValF (fuel + 1) (.jobj ms) =
        some (.error ⟨.schemaInvalid, "Invalid JSON Field \"name\""⟩)) ∧
    (∀ (s : String) (ms' : List (String × Json)),
      findFirst "name" ms = some (.jstr s) → s ≠ "" →
      sanitizeValF (fuel + 1) (.jobj ms) = some (.ok (.jobj ms')) →
      findFirst "name" ms' = some (.jstr (lastSegment s))) := by
  constructor
  · intro x hx hbad
    have herr : sanitizeName x =
        .error ⟨.schemaInvalid, "Invalid JSON Field \"name\""⟩ := by
      cases x with
      | jstr s =>
        have hs : s = "" := hbad s rfl
        subst hs
        rfl
      | jnull => rfl
      | jbool b => rfl
      | jnum l => rfl
      | jarr xs => rfl
      | jobj ms2 => rfl
    have hstep : sanitizeValF (fuel + 1) (.jobj ms) =
        (match sanitizeObjF (fun x => sanitizeValF fuel x) ms with
          | none => none
          | some (Except.error e) => some (Except.error e)
          | some (Except.ok ms2) => some (Except.ok (Json.jobj ms2))) := rfl
    rw [hstep]
    unfold sanitizeObjF
    rw [hx]
    dsimp only
    rw [herr]
  · intro s ms' hn hs hok
    have hchain : sanitizeObjTypeF (fun x => sanitizeValF fuel x)
        (setFirst "name" (.jstr (lastSegment s)) ms) = some (.ok ms') := by
      have hstep : sanitizeValF (fuel + 1) (.jobj ms) =
          (match sanitizeObjF (fun x => sanitizeValF fuel x) ms with
            | none => none
            | some (.error e) => some (.error e)
            | some (.ok ms') => some (.ok (.jobj ms'))) := rfl
      rw [hstep] at hok
      unfold sanitizeObjF at hok
      rw [hn] at hok
      dsimp only at hok
      rw [sanitizeName_ok hs] at hok
      dsimp only at hok
      cases hobj : sanitizeObjTypeF (fun x => sanitizeValF fuel x)
          (setFirst "name" (.jstr (lastSegment s)) ms) with
      | none => rw [hobj] at hok; cases hok
      | some r =>
        rw [hobj] at hok
        cases r with
        | error e => simp at hok
        | ok ms2 =>
          simp at hok
          rw [hok]
    have hn1 : findFirst "name" (setFirst "name" (.jstr (lastSegment s)) ms) =
        some (.jstr (lastSegment s)) := findFirst_setFirst_self hn
    rcases sanitizeObjTypeF_shape hchain with heq | ⟨tv', heq⟩ | ⟨tv', fv', heq⟩
    · rw [heq]; exact hn1
    · rw [heq, findFirst_setFirst_ne (by decide)]; exact hn1
    · rw [heq, findFirst_setFirst_ne (by decide),
        findFirst_setFirst_ne (by decide)]
      exact hn1

theorem c8_name_rewrite_witness :
    (sanitizeValF 3 (.jobj [("name", .jbool true)]) =
      some (.error ⟨.schemaInvalid, "Invalid JSON Field \"name\""⟩)) ∧
    (findFirst "name" [("name", Json.jstr "Widget")] =
      some (.jstr (lastSegment "com.acme.Widget"))) :=
  ⟨(c8_name_rewrite 2 [("name", .jbool true)]).1 (.jbool true) rfl
      (fun s hs => by cases hs),
    (c8_name_rewrite 2 [("name", .jstr "com.acme.Widget")]).2 "com.acme.Widget"
      [("name", .jstr "Widget")] rfl (by decide) rfl⟩

/-- C9: a `"name"` value that is a non-empty string ending in `.` passes
`sanitize_name`'s emptiness check (performed on the original string) and is
rewritten to the empty string; a whole schema containing such a name
sanitizes successfully with an empty name in the output. -/
theorem c9_trailing_dot_name :
    (∀ (t : String), t ++ "." ≠ "" →
      sanitizeName (.jstr (t ++ ".")) = .ok (.jstr "")) ∧
    (sanitizeAvroSchemaDefinition "\x7b\"name\":\"com.acme.\"\x7d" =
      .ok "\x7b\"name\":\"\"\x7d") := by
  constructor
  · intro t ht
    rw [sanitizeName_ok ht]
    have : lastSegment (t ++ ".") = "" := by
      unfold lastSegment
      have h1 : (t ++ ".").toList = t.toList ++ ['.'] := by
        have : (t ++ ".").toList = t.toList ++ (".").toList := by
          cases t
          rfl
        rw [this]
        rfl
      rw [h1, List.reverse_append]
      rfl
    rw [this]
  · rfl

theorem c9_trailing_dot_name_witness :
    ("com.acme" ++ "." ≠ "") ∧
    (sanitizeName (.jstr ("com.acme" ++ ".")) = .ok (.jstr "")) :=
  ⟨by decide, c9_trailing_dot_name.1 "com.acme" (by decide)⟩

/-! ## Claim C10: the sanitizer's frame property -/

mutual
/-- `v'` differs from `v` at most by replacing the string value of `"name"`
members that contain a `.` with their final dot-separated segment. -/
inductive JFrame : Json → Json → Prop where
  | eq (v : Json) : JFrame v v
  | arr {xs xs' : List Json} : JFrameList xs xs' → JFrame (.jarr xs) (.jarr xs')
  | obj {ms ms' : List (String × Json)} : MFrameList ms ms' →
      JFrame (.jobj ms) (.jobj ms')

inductive JFrameList : List Json → List Json → Prop where
  | nil : JFrameList [] []
  | cons {x x' : Json} {xs xs' : List Json} : JFrame x x' → JFrameList xs xs' →
      JFrameList (x :: xs) (x' :: xs')

/-- Members are in the same order under the same keys. -/
inductive MFrameList : List (String × Json) → List (String × Json) → Prop where
  | nil : MFrameList [] []
  | cons {k : String} {v v' : Json} {ms ms' : List (String × Json)} :
      MEntry k v v' → MFrameList ms ms' →
      MFrameList ((k, v) :: ms) ((k, v') :: ms')

/-- A member value either changes by the frame relation (recursively), or it
is the string value of a `"name"` member containing a `.`, replaced by its
final segment. -/
inductive MEntry : String → Json → Json → Prop where
  | keep {k : String} {v v' : Json} : JFrame v v' → MEntry k v v'
  | nameStrip {s : String} : s.toList.contains '.' = true →
      MEntry "name" (.jstr s) (.jstr (lastSegment s))
end

/-- Apply an optional first-member update. -/
def apF (k : String) (u : Option Json) (ms : List (String × Json)) :
    List (String × Json) :=
  match u with
  | some w => setFirst k w ms
  | none => ms

theorem apF_cons_ne {k : String} {u : Option Json} {k0 : String} {v : Json}
    {t : List (String × Json)} (hne : k0 ≠ k) :
    apF k u ((k0, v) :: t) = (k0, v) :: apF k u t := by
  cases u with
  | none => rfl
  | some w => simp [apF, setFirst, hne]

theorem apF_cons_eq {k : String} {w : Json} {v : Json}
    {t : List (String × Json)} :
    apF k (some w) ((k, v) :: t) = (k, w) :: t := by
  simp [apF, setFirst]

theorem findFirst_apF_ne {k k' : String} (hne : k ≠ k') {u : Option Json}
    (ms : List (String × Json)) :
    findFirst k (apF k' u ms) = findFirst k ms := by
  cases u with
  | none => rfl
  | some w => exact findFirst_setFirst_ne hne ms

theorem mf_multi :
    ∀ (ms : List (String × Json)) (un ut uf : Option Json),
      (∀ w, un = some w →
        ∃ v, findFirst "name" ms = some v ∧ MEntry "name" v w) →
      (∀ w, ut = some w →
        ∃ v, findFirst "type" ms = some v ∧ MEntry "type" v w) →
      (∀ w, uf = some w →
        ∃ v, findFirst "fields" ms = some v ∧ MEntry "fields" v w) →
      MFrameList ms (apF "fields" uf (apF "type" ut (apF "name" un ms))) := by
  intro ms
  induction ms with
  | nil =>
    intro un ut uf _ _ _
    have h1 : ∀ u : Option Json, apF "name" u ([] : List (String × Json)) = [] := by
      intro u; cases u <;> rfl
    have h2 : ∀ (k : String) (u : Option Json),
        apF k u ([] : List (String × Json)) = [] := by
      intro k u; cases u <;> rfl
    rw [h2, h2, h2]
    exact MFrameList.nil
  | cons m t ih =>
    intro un ut uf hn ht hf
    obtain ⟨k0, v0⟩ := m
    by_cases hk1 : k0 = "name"
    · subst hk1
      cases hun : un with
      | some w =>
        rw [apF_cons_eq, apF_cons_ne (by decide), apF_cons_ne (by decide)]
        obtain ⟨v, hv, he⟩ := hn w hun
        simp only [findFirst, if_pos rfl] at hv
        injection hv with hv
        subst hv
        refine MFrameList.cons he ?_
        refine ih none ut uf (fun w h => by cases h) ?_ ?_
        · intro w hw
          obtain ⟨v2, hv2, he2⟩ := ht w hw
          simp only [findFirst, if_neg (by decide : ¬ ("name" : String) = "type")] at hv2
          exact ⟨v2, hv2, he2⟩
        · intro w hw
          obtain ⟨v2, hv2, he2⟩ := hf w hw
          simp only [findFirst,
            if_neg (by decide : ¬ ("name" : String) = "fields")] at hv2
          exact ⟨v2, hv2, he2⟩
      | none =>
        have hid : apF "name" none ((("name" : String), v0) :: t) =
            (("name" : String), v0) :: t := rfl
        rw [hid, apF_cons_ne (by decide), apF_cons_ne (by decide)]
        refine MFrameList.cons (MEntry.keep (JFrame.eq v0)) ?_
        refine ih none ut uf (fun w h => by cases h) ?_ ?_
        · intro w hw
          obtain ⟨v2, hv2, he2⟩ := ht w hw
          simp only [findFirst, if_neg (by decide : ¬ ("name" : String) = "type")] at hv2
          exact ⟨v2, hv2, he2⟩
        · intro w hw
          obtain ⟨v2, hv2, he2⟩ := hf w hw
          simp only [findFirst,
            if_neg (by decide : ¬ ("name" : String) = "fields")] at hv2
          exact ⟨v2, hv2, he2⟩
    · by_cases hk2 : k0 = "type"
      · subst hk2
        rw [apF_cons_ne (by decide)]
        cases hut : ut with
        | some w =>
          rw [apF_cons_eq, apF_cons_ne (by decide)]
          obtain ⟨v, hv, he⟩ := ht w hut
          simp only [findFirst, if_pos rfl] at hv
          injection hv with hv
          subst hv
          refine MFrameList.cons he ?_
          refine ih un none uf ?_ (fun w h => by cases h) ?_
          · intro w hw
            obtain ⟨v2, hv2, he2⟩ := hn w hw
            simp only [findFirst,
              if_neg (by decide : ¬ ("type" : String) = "name")] at hv2
            exact ⟨v2, hv2, he2⟩
          · intro w hw
            obtain ⟨v2, hv2, he2⟩ := hf w hw
            simp only [findFirst,
              if_neg (by decide : ¬ ("type" : String) = "fields")] at hv2
            exact ⟨v2, hv2, he2⟩
        | none =>
          have hid : ∀ l : List (String × Json), apF "type" none l = l := by
            intro l; rfl
          rw [hid, apF_cons_ne (by decide)]
          refine MFrameList.cons (MEntry.keep (JFrame.eq v0)) ?_
          refine ih un none uf ?_ (fun w h => by cases h) ?_
          · intro w hw
            obtain ⟨v2, hv2, he2⟩ := hn w hw
            simp only [findFirst,
              if_neg (by decide : ¬ ("type" : String) = "name")] at hv2
            exact ⟨v2, hv2, he2⟩
          · intro w hw
            obtain ⟨v2, hv2, he2⟩ := hf w hw
            simp only [findFirst,
              if_neg (by decide : ¬ ("type" : String) = "fields")] at hv2
            exact ⟨v2, hv2, he2⟩
      · by_cases hk3 : k0 = "fields"
        · subst hk3
          rw [apF_cons_ne (by decide), apF_cons_ne (by decide)]
          cases huf : uf with
          | some w =>
            rw [apF_cons_eq]
            obtain ⟨v, hv, he⟩ := hf w huf
            simp only [findFirst, if_pos rfl] at hv
            injection hv with hv
            subst hv
            refine MFrameList.cons he ?_
            refine ih un ut none ?_ ?_ (fun w h => by cases h)
            · intro w hw
              obtain ⟨v2, hv2, he2⟩ := hn w hw
              simp only [findFirst,
                if_neg (by decide : ¬ ("fields" : String) = "name")] at hv2
              exact ⟨v2, hv2, he2⟩
            · intro w hw
              obtain ⟨v2, hv2, he2⟩ := ht w hw
              simp only [findFirst,
                if_neg (by decide : ¬ ("fields" : String) = "type")] at hv2
              exact ⟨v2, hv2, he2⟩
          | none =>
            have hid : ∀ l : List (String × Json), apF "fields" none l = l := by
              intro l; rfl
            rw [hid]
            refine MFrameList.cons (MEntry.keep (JFrame.eq v0)) ?_
            refine ih un ut none ?_ ?_ (fun w h => by cases h)
            · intro w hw
              obtain ⟨v2, hv2, he2⟩ := hn w hw
              simp only [findFirst,
                if_neg (by decide : ¬ ("fields" : String) = "name")] at hv2
              exact ⟨v2, hv2, he2⟩
            · intro w hw
              obtain ⟨v2, hv2, he2⟩ := ht w hw
              simp only [findFirst,
                if_neg (by decide : ¬ ("fields" : String) = "type")] at hv2
              exact ⟨v2, hv2, he2⟩
        · rw [apF_cons_ne hk1, apF_cons_ne hk2, apF_cons_ne hk3]
          refine MFrameList.cons (MEntry.keep (JFrame.eq v0)) ?_
          refine ih un ut uf ?_ ?_ ?_
          · intro w hw
            obtain ⟨v2, hv2, he2⟩ := hn w hw
            simp only [findFirst, if_neg hk1] at hv2
            exact ⟨v2, hv2, he2⟩
          · intro w hw
            obtain ⟨v2, hv2, he2⟩ := ht w hw
            simp only [findFirst, if_neg hk2] at hv2
            exact ⟨v2, hv2, he2⟩
          · intro w hw
            obtain ⟨v2, hv2, he2⟩ := hf w hw
            simp only [findFirst, if_neg hk3] at hv2
            exact ⟨v2, hv2, he2⟩

theorem sanitizeObjTypeF_inv {sv : Json → Option (Except ErrorInfo Json)}
    {ms ms' : List (String × Json)}
    (h : sanitizeObjTypeF sv ms = some (.ok ms')) :
    (findFirst "type" ms = none ∧ ms' = ms) ∨
    (∃ tv tv', findFirst "type" ms = some tv ∧ sv tv = some (.ok tv') ∧
      (((∀ tstr, tv' = .jstr tstr → tstr ≠ "record") ∧
          ms' = setFirst "type" tv' ms) ∨
       (tv' = .jstr "record" ∧
        ∃ xs fv', findFirst "fields" (setFirst "type" tv' ms) =
            some (.jarr xs) ∧
          sv (.jarr xs) = some (.ok fv') ∧
          ms' = setFirst "fields" fv' (setFirst "type" tv' ms)))) := by
  unfold sanitizeObjTypeF at h
  cases hf : findFirst "type" ms with
  | none =>
    rw [hf] at h
    simp at h
    exact Or.inl ⟨rfl, h.symm⟩
  | some tv =>
    rw [hf] at h
    dsimp only at h
    cases hsv : sv tv with
    | none => rw [hsv] at h; cases h
    | some r =>
      rw [hsv] at h
      cases r with
      | error e => simp at h
      | ok tv' =>
        refine Or.inr ⟨tv, tv', rfl, hsv, ?_⟩
        cases tv' with
        | jstr tstr =>
          by_cases hrec : tstr = "record"
          · simp only [if_pos hrec] at h
            unfold sanitizeRecordF at h
            cases hff : findFirst "fields" (setFirst "type" (.jstr tstr) ms)
              with
            | none => rw [hff] at h; simp at h
            | some fv =>
              rw [hff] at h
              cases fv with
              | jarr xs =>
                dsimp only at h
                cases hsv2 : sv (.jarr xs) with
                | none => rw [hsv2] at h; cases h
                | some r2 =>
                  rw [hsv2] at h
                  cases r2 with
                  | error e => simp at h
                  | ok fv' =>
                    simp at h
                    exact Or.inr ⟨by rw [hrec], xs, fv', rfl, hsv2, h.symm⟩
              | jnull => simp at h
              | jbool b => simp at h
              | jnum l => simp at h
              | jstr s2 => simp at h
              | jobj ms2 => simp at h
          · simp only [if_neg hrec] at h
            simp at h
            exact Or.inl ⟨fun tstr2 heq hc =>
              hrec (by injection heq with he; exact he.trans hc), h.symm⟩
        | jnull => simp at h; exact Or.inl ⟨(fun t heq => nomatch heq), h.symm⟩
        | jbool b => simp at h; exact Or.inl ⟨(fun t heq => nomatch heq), h.symm⟩
        | jnum l => simp at h; exact Or.inl ⟨(fun t heq => nomatch heq), h.symm⟩
        | jarr xs => simp at h; exact Or.inl ⟨(fun t heq => nomatch heq), h.symm⟩
        | jobj ms2 => simp at h; exact Or.inl ⟨(fun t heq => nomatch heq), h.symm⟩

theorem sanitizeName_ok_inv {nv nv' : Json} (h : sanitizeName nv = .ok nv') :
    ∃ s : String, nv = .jstr s ∧ s ≠ "" ∧
      ((nv' = .jstr (lastSegment s) ∧ (lastSegment s).length ≠ s.length) ∨
        nv' = nv) := by
  cases nv with
  | jstr s =>
    have hstep : sanitizeName (.jstr s) =
        if s.length = 0 then
          .error ⟨.schemaInvalid, "Invalid JSON Field \"name\""⟩
        else if (lastSegment s).length ≠ s.length then
          .ok (.jstr (lastSegment s))
        else .ok (.jstr s) := rfl
    rw [hstep] at h
    by_cases h0 : s.length = 0
    · rw [if_pos h0] at h; cases h
    · rw [if_neg h0] at h
      refine ⟨s, rfl, fun hc => h0 (by rw [hc]; rfl), ?_⟩
      by_cases hl : (lastSegment s).length ≠ s.length
      · rw [if_pos hl] at h
        injection h with h
        exact Or.inl ⟨h.symm, hl⟩
      · rw [if_neg hl] at h
        injection h with h
        exact Or.inr h.symm
  | jnull => cases h
  | jbool b => cases h
  | jnum l => cases h
  | jarr xs => cases h
  | jobj ms2 => cases h

theorem sanitizeArrF_frame {sv : Json → Option (Except ErrorInfo Json)}
    (hsv : ∀ x y, sv x = some (.ok y) → JFrame x y) :
    ∀ xs xs', sanitizeArrF sv xs = some (.ok xs') → JFrameList xs xs' := by
  intro xs
  induction xs with
  | nil =>
    intro xs' h
    simp only [sanitizeArrF] at h
    injection h with h
    injection h with h
    rw [← h]
    exact JFrameList.nil
  | cons x t ih =>
    intro xs' h
    simp only [sanitizeArrF] at h
    cases hx : sv x with
    | none => rw [hx] at h; cases h
    | some r =>
      rw [hx] at h
      cases r with
      | error e => simp at h
      | ok x' =>
        dsimp only at h
        cases ht : sanitizeArrF sv t with
        | none => rw [ht] at h; cases h
        | some r2 =>
          rw [ht] at h
          cases r2 with
          | error e => simp at h
          | ok t' =>
            simp at h
            rw [← h]
            exact JFrameList.cons (hsv x x' hx) (ih t' ht)

theorem sanitizeObjF_frame (fuel : Nat)
    (IH : ∀ v v', sanitizeValF fuel v = some (.ok v') → JFrame v v') :
    ∀ ms ms', sanitizeObjF (fun x => sanitizeValF fuel x) ms =
      some (.ok ms') → MFrameList ms ms' := by
  intro ms ms' h
  have hcont : ∀ un : Option Json,
      (∀ w, un = some w →
        ∃ v, findFirst "name" ms = some v ∧ MEntry "name" v w) →
      sanitizeObjTypeF (fun x => sanitizeValF fuel x) (apF "name" un ms) =
        some (.ok ms') →
      MFrameList ms ms' := by
    intro un hun hty
    rcases sanitizeObjTypeF_inv hty with ⟨htn, heq⟩ |
      ⟨tv, tv', htv, hsvtv, hrest⟩
    · rw [heq]
      exact mf_multi ms un none none hun (fun w hw => by cases hw)
        (fun w hw => by cases hw)
    · have htv' : findFirst "type" ms = some tv := by
        rw [← findFirst_apF_ne (by decide : ("type" : String) ≠ "name") ms]
        exact htv
      have hframe_tv : MEntry "type" tv tv' :=
        MEntry.keep (IH tv tv' hsvtv)
      rcases hrest with ⟨-, heq⟩ | ⟨-, xs, hfvv, hfv, hsvfv, heq⟩
      · rw [heq]
        exact mf_multi ms un (some tv') none hun
          (fun w hw => by injection hw with hw; exact ⟨tv, htv', hw ▸ hframe_tv⟩)
          (fun w hw => by cases hw)
      · have hfv' : findFirst "fields" ms = some (.jarr xs) := by
          rw [← findFirst_apF_ne (by decide : ("fields" : String) ≠ "name") ms
            (u := un),
            ← findFirst_setFirst_ne (by decide : ("fields" : String) ≠ "type")]
          exact hfv
        rw [heq]
        exact mf_multi ms un (some tv') (some hfvv) hun
          (fun w hw => by injection hw with hw; exact ⟨tv, htv', hw ▸ hframe_tv⟩)
          (fun w hw => by
            injection hw with hw
            exact ⟨.jarr xs, hfv',
              hw ▸ MEntry.keep (IH (.jarr xs) hfvv hsvfv)⟩)
  unfold sanitizeObjF at h
  cases hn : findFirst "name" ms with
  | some nv =>
    rw [hn] at h
    dsimp only at h
    cases hsn : sanitizeName nv with
    | error e => rw [hsn] at h; cases h
    | ok nv' =>
      rw [hsn] at h
      obtain ⟨s, hnv, hs, hcase⟩ := sanitizeName_ok_inv hsn
      have hentry : MEntry "name" nv nv' := by
        rcases hcase with ⟨hnv', hlen⟩ | hnv'
        · rw [hnv, hnv']
          exact MEntry.nameStrip (contains_dot_of_length_ne hlen)
        · rw [hnv']
          exact MEntry.keep (JFrame.eq nv)
      exact hcont (some nv')
        (fun w hw => by injection hw with hw; exact ⟨nv, hn, hw ▸ hentry⟩) h
  | none =>
    rw [hn] at h
    exact hcont none (fun w hw => by cases hw) h

theorem sanitizeValF_frame :
    ∀ (fuel : Nat) (v v' : Json),
      sanitizeValF fuel v = some (.ok v') → JFrame v v' := by
  intro fuel
  induction fuel with
  | zero => intro v v' h; cases h
  | succ n ih =>
    intro v v' h
    cases v with
    | jnull => injection h with h; injection h with h; rw [← h]; exact JFrame.eq _
    | jbool b => injection h with h; injection h with h; rw [← h]; exact JFrame.eq _
    | jnum l => injection h with h; injection h with h; rw [← h]; exact JFrame.eq _
    | jstr s => injection h with h; injection h with h; rw [← h]; exact JFrame.eq _
    | jarr xs =>
      have hstep : sanitizeValF (n + 1) (.jarr xs) =
          (match sanitizeArrF (fun x => sanitizeValF n x) xs with
            | none => none
            | some (Except.error e) => some (Except.error e)
            | some (Except.ok xs2) => some (Except.ok (Json.jarr xs2))) := rfl
      rw [hstep] at h
      cases harr : sanitizeArrF (fun x => sanitizeValF n x) xs with
      | none => rw [harr] at h; cases h
      | some r =>
        rw [harr] at h
        cases r with
        | error e => simp at h
        | ok xs' =>
          simp at h
          rw [← h]
          exact JFrame.arr (sanitizeArrF_frame (fun x y hx => ih x y hx) xs xs' harr)
    | jobj ms =>
      have hstep : sanitizeValF (n + 1) (.jobj ms) =
          (match sanitizeObjF (fun x => sanitizeValF n x) ms with
            | none => none
            | some (Except.error e) => some (Except.error e)
            | some (Except.ok ms2) => some (Except.ok (Json.jobj ms2))) := rfl
      rw [hstep] at h
      cases hobj : sanitizeObjF (fun x => sanitizeValF n x) ms with
      | none => rw [hobj] at h; cases h
      | some r =>
        rw [hobj] at h
        cases r with
        | error e => simp at h
        | ok ms' =>
          simp at h
          rw [← h]
          exact JFrame.obj (sanitizeObjF_frame n (fun x y hx => ih x y hx) ms ms' hobj)

/-- C10: whenever the sanitizer succeeds on a DOM value, the output differs
from the input at most by replacing `"name"` member string values that
contain a `.` with their final dot-separated segment: every other member
(and its key and position), every array element and every scalar is emitted
unchanged. -/
theorem c10_sanitize_frame (fuel : Nat) (v v' : Json)
    (h : sanitizeValF fuel v = some (.ok v')) : JFrame v v' :=
  sanitizeValF_frame fuel v v' h

theorem c10_sanitize_frame_witness :
    JFrame (.jobj [("name", .jstr "com.acme.Widget"), ("type", .jstr "int")])
      (.jobj [("name", .jstr "Widget"), ("type", .jstr "int")]) :=
  c10_sanitize_frame 3
    (.jobj [("name", .jstr "com.acme.Widget"), ("type", .jstr "int")])
    (.jobj [("name", .jstr "Widget"), ("type", .jstr "int")]) rfl

/-- Counterexample to C6 as stated: on `\x7b"name":"a."\x7d` the first
sanitize succeeds and emits an empty name (the non-emptiness check runs
before the final segment is taken), so the second sanitize fails with
`schema_invalid`; `sanitize (sanitize x)` is not `sanitize x`. -/
theorem c6_idempotence_counterexample :
    sanitizeAvroSchemaDefinition "\x7b\"name\":\"a.\"\x7d" =
      .ok "\x7b\"name\":\"\"\x7d" ∧
    sanitizeAvroSchemaDefinition "\x7b\"name\":\"\"\x7d" =
      .error ⟨.schemaInvalid,
        "Invalid JSON Field \"name\" \x7b\"name\":\"\"\x7d"⟩ :=
  ⟨rfl, rfl⟩

/-- Counterexample to C7 as stated: `kParseStopWhenDoneFlag` makes the parse
stop after the first complete JSON value, so a valid schema followed by
trailing garbage is NOT rejected with `schema_invalid`; the garbage is
silently discarded and sanitize succeeds. -/
theorem c7_trailing_garbage_counterexample :
    sanitizeAvroSchemaDefinition "\x7b\x7d garbage" = .ok "\x7b\x7d" := rfl

theorem lastSegment_of_no_dot {s : String} (h : ∀ c ∈ s.toList, c ≠ '.') :
    lastSegment s = s := by
  have hall : ∀ c ∈ s.toList.reverse, (fun c => decide (c ≠ '.')) c = true := by
    intro c hcm
    simp only [decide_eq_true_eq]
    exact h c (List.mem_reverse.mp hcm)
  have ht := takeWhile_eq_self_of_forall _ hall
  have h4 : lastSegment s = String.mk (s.toList.reverse.reverse) := by
    unfold lastSegment
    rw [ht]
  rw [h4, List.reverse_reverse, stringMk_toList]

theorem sanitizeName_idem {nv nv' nv'' : Json} (h1 : sanitizeName nv = .ok nv')
    (h2 : sanitizeName nv' = .ok nv'') : nv'' = nv' := by
  obtain ⟨s, hnv, hs, hcase⟩ := sanitizeName_ok_inv h1
  rcases hcase with ⟨hnv1, hlen⟩ | hnv1
  · subst hnv1
    obtain ⟨t, hjt, ht, hcase2⟩ := sanitizeName_ok_inv h2
    injection hjt with hjt
    subst hjt
    rcases hcase2 with ⟨hnv2, hlen2⟩ | hnv2
    · exfalso
      apply hlen2
      rw [lastSegment_of_no_dot lastSegment_no_dot]
    · exact hnv2
  · subst hnv1
    rw [h1] at h2
    injection h2 with h2
    exact h2.symm

theorem findFirst_objTypeF {sv : Json → Option (Except ErrorInfo Json)}
    {ms ms' : List (String × Json)}
    (h : sanitizeObjTypeF sv ms = some (.ok ms')) (k : String)
    (hk1 : k ≠ "type") (hk2 : k ≠ "fields") :
    findFirst k ms' = findFirst k ms := by
  rcases sanitizeObjTypeF_shape h with heq | ⟨tv', heq⟩ | ⟨tv', fv', heq⟩
  · rw [heq]
  · rw [heq, findFirst_setFirst_ne hk1]
  · rw [heq, findFirst_setFirst_ne hk2, findFirst_setFirst_ne hk1]

theorem sanitizeObjF_inv {sv : Json → Option (Except ErrorInfo Json)}
    {ms ms' : List (String × Json)}
    (h : sanitizeObjF sv ms = some (.ok ms')) :
    ∃ ms1,
      ((findFirst "name" ms = none ∧ ms1 = ms) ∨
        (∃ nv nv', findFirst "name" ms = some nv ∧ sanitizeName nv = .ok nv' ∧
          ms1 = setFirst "name" nv' ms)) ∧
      sanitizeObjTypeF sv ms1 = some (.ok ms') := by
  unfold sanitizeObjF at h
  cases hn : findFirst "name" ms with
  | none =>
    rw [hn] at h
    exact ⟨ms, Or.inl ⟨rfl, rfl⟩, h⟩
  | some nv =>
    rw [hn] at h
    dsimp only at h
    cases hsn : sanitizeName nv with
    | error e => rw [hsn] at h; simp at h
    | ok nv' =>
      rw [hsn] at h
      exact ⟨setFirst "name" nv' ms, Or.inr ⟨nv, nv', rfl, hsn, rfl⟩, h⟩

theorem sanitizeObjTypeF_idem {sv1 sv2 : Json → Option (Except ErrorInfo Json)}
    (IH : ∀ x y z, sv1 x = some (.ok y) → sv2 y = some (.ok z) → z = y)
    {ms1 ms' ms'' : List (String × Json)}
    (h1 : sanitizeObjTypeF sv1 ms1 = some (.ok ms'))
    (h2 : sanitizeObjTypeF sv2 ms' = some (.ok ms'')) : ms'' = ms' := by
  rcases sanitizeObjTypeF_inv h1 with ⟨htn, heq⟩ | ⟨tv, tv', htv1, hsv1, hrest⟩
  · subst heq
    rcases sanitizeObjTypeF_inv h2 with ⟨-, heq2⟩ | ⟨TV, TV', htv2, -, -⟩
    · exact heq2
    · rw [htn] at htv2; cases htv2
  · rcases hrest with ⟨hnotrec, heq⟩ | ⟨hrec, xs, fv', hff1, hsvf1, heq⟩
    · subst heq
      have hfind' : findFirst "type" (setFirst "type" tv' ms1) = some tv' :=
        findFirst_setFirst_self htv1
      rcases sanitizeObjTypeF_inv h2 with ⟨htn2, -⟩ |
        ⟨TV, TV', htv2, hsv2, hrest2⟩
      · rw [hfind'] at htn2; cases htn2
      · rw [hfind'] at htv2
        injection htv2 with htv2
        subst htv2
        have hTV' : TV' = tv' := IH tv tv' TV' hsv1 hsv2
        subst hTV'
        rcases hrest2 with ⟨-, heq2⟩ | ⟨hrec2, -⟩
        · rw [heq2, setFirst_self hfind']
        · exact absurd rfl (hnotrec "record" hrec2)
    · subst hrec
      subst heq
      have hfindT' : findFirst "type"
          (setFirst "fields" fv' (setFirst "type" (.jstr "record") ms1)) =
            some (.jstr "record") := by
        rw [findFirst_setFirst_ne (by decide : ("type" : String) ≠ "fields")]
        exact findFirst_setFirst_self htv1
      have hfindF' : findFirst "fields"
          (setFirst "fields" fv' (setFirst "type" (.jstr "record") ms1)) =
            some fv' :=
        findFirst_setFirst_self hff1
      rcases sanitizeObjTypeF_inv h2 with ⟨htn2, -⟩ |
        ⟨TV, TV', htv2, hsv2, hrest2⟩
      · rw [hfindT'] at htn2; cases htn2
      · rw [hfindT'] at htv2
        injection htv2 with htv2
        subst htv2
        have hTV' : TV' = .jstr "record" := IH tv (.jstr "record") TV' hsv1 hsv2
        subst hTV'
        rcases hrest2 with ⟨hnr2, -⟩ | ⟨-, XS, FV', hff2, hsvf2, heq2⟩
        · exact absurd rfl (hnr2 "record" rfl)
        · rw [setFirst_self hfindT'] at hff2 heq2
          rw [hfindF'] at hff2
          injection hff2 with hff2
          subst hff2
          have hFV' : FV' = .jarr XS := IH (.jarr xs) (.jarr XS) FV' hsvf1 hsvf2
          subst hFV'
          rw [heq2, setFirst_self hfindF']

theorem sanitizeObjF_idem {sv1 sv2 : Json → Option (Except ErrorInfo Json)}
    (IH : ∀ x y z, sv1 x = some (.ok y) → sv2 y = some (.ok z) → z = y)
    {ms ms' ms'' : List (String × Json)}
    (h1 : sanitizeObjF sv1 ms = some (.ok ms'))
    (h2 : sanitizeObjF sv2 ms' = some (.ok ms'')) : ms'' = ms' := by
  obtain ⟨ms1, hname1, hty1⟩ := sanitizeObjF_inv h1
  obtain ⟨ms1', hname2, hty2⟩ := sanitizeObjF_inv h2
  rcases hname1 with ⟨hnone, heq1⟩ | ⟨nv, nv', hfind1, hsan1, heq1⟩
  · subst heq1
    have hn' : findFirst "name" ms' = none := by
      rw [findFirst_objTypeF hty1 "name" (by decide) (by decide)]
      exact hnone
    rcases hname2 with ⟨-, heq2⟩ | ⟨NV, NV', hfind2, -, -⟩
    · subst heq2
      exact sanitizeObjTypeF_idem IH hty1 hty2
    · rw [hn'] at hfind2; cases hfind2
  · subst heq1
    have hname_ms1 : findFirst "name" (setFirst "name" nv' ms) = some nv' :=
      findFirst_setFirst_self hfind1
    have hn' : findFirst "name" ms' = some nv' := by
      rw [findFirst_objTypeF hty1 "name" (by decide) (by decide)]
      exact hname_ms1
    rcases hname2 with ⟨hnone2, -⟩ | ⟨NV, NV', hfind2, hsan2, heq2⟩
    · rw [hn'] at hnone2; cases hnone2
    · rw [hn'] at hfind2
      injection hfind2 with hfind2
      subst hfind2
      have hNV' : NV' = nv' := sanitizeName_idem hsan1 hsan2
      subst hNV'
      rw [setFirst_self hn'] at heq2
      subst heq2
      exact sanitizeObjTypeF_idem IH hty1 hty2

theorem sanitizeArrF_idem {sv1 sv2 : Json → Option (Except ErrorInfo Json)}
    (IH : ∀ x y z, sv1 x = some (.ok y) → sv2 y = some (.ok z) → z = y) :
    ∀ xs xs' xs'', sanitizeArrF sv1 xs = some (.ok xs') →
      sanitizeArrF sv2 xs' = some (.ok xs'') → xs'' = xs' := by
  intro xs
  induction xs with
  | nil =>
    intro xs' xs'' h1 h2
    simp only [sanitizeArrF] at h1
    injection h1 with h1
    injection h1 with h1
    subst h1
    simp only [sanitizeArrF] at h2
    injection h2 with h2
    injection h2 with h2
    exact h2.symm
  | cons x t ih =>
    intro xs' xs'' h1 h2
    simp only [sanitizeArrF] at h1
    cases hx1 : sv1 x with
    | none => rw [hx1] at h1; cases h1
    | some r =>
      rw [hx1] at h1
      cases r with
      | error e => simp at h1
      | ok x' =>
        dsimp only at h1
        cases ht1 : sanitizeArrF sv1 t with
        | none => rw [ht1] at h1; cases h1
        | some r2 =>
          rw [ht1] at h1
          cases r2 with
          | error e => simp at h1
          | ok t' =>
            simp at h1
            subst h1
            simp only [sanitizeArrF] at h2
            cases hx2 : sv2 x' with
            | none => rw [hx2] at h2; cases h2
            | some s2 =>
              rw [hx2] at h2
              cases s2 with
              | error e => simp at h2
              | ok x'' =>
                dsimp only at h2
                cases ht2 : sanitizeArrF sv2 t' with
                | none => rw [ht2] at h2; cases h2
                | some s3 =>
                  rw [ht2] at h2
                  cases s3 with
                  | error e => simp at h2
                  | ok t'' =>
                    simp at h2
                    rw [← h2]
                    rw [IH x x' x'' hx1 hx2, ih t' t'' ht1 ht2]

theorem sanitizeValF_idem :
    ∀ (f2 f1 : Nat) (v v' v'' : Json),
      sanitizeValF f1 v = some (.ok v') →
      sanitizeValF f2 v' = some (.ok v'') → v'' = v' := by
  intro f2
  induction f2 with
  | zero => intro f1 v v' v'' h1 h2; cases h2
  | succ n2 ih =>
    intro f1 v v' v'' h1 h2
    cases f1 with
    | zero => cases h1
    | succ n1 =>
      cases v with
      | jnull =>
        injection h1 with h1
        injection h1 with h1
        subst h1
        injection h2 with h2
        injection h2 with h2
        exact h2.symm
      | jbool b =>
        injection h1 with h1
        injection h1 with h1
        subst h1
        injection h2 with h2
        injection h2 with h2
        exact h2.symm
      | jnum l =>
        injection h1 with h1
        injection h1 with h1
        subst h1
        injection h2 with h2
        injection h2 with h2
        exact h2.symm
      | jstr s =>
        injection h1 with h1
        injection h1 with h1
        subst h1
        injection h2 with h2
        injection h2 with h2
        exact h2.symm
      | jarr xs =>
        have hstep : sanitizeValF (n1 + 1) (.jarr xs) =
            (match sanitizeArrF (fun x => sanitizeValF n1 x) xs with
              | none => none
              | some (Except.error e) => some (Except.error e)
              | some (Except.ok xs2) => some (Except.ok (Json.jarr xs2))) := rfl
        rw [hstep] at h1
        cases harr1 : sanitizeArrF (fun x => sanitizeValF n1 x) xs with
        | none => rw [harr1] at h1; cases h1
        | some r =>
          rw [harr1] at h1
          cases r with
          | error e => simp at h1
          | ok xs' =>
            simp at h1
            subst h1
            have hstep2 : sanitizeValF (n2 + 1) (.jarr xs') =
                (match sanitizeArrF (fun x => sanitizeValF n2 x) xs' with
                  | none => none
                  | some (Except.error e) => some (Except.error e)
                  | some (Except.ok xs2) =>
                    some (Except.ok (Json.jarr xs2))) := rfl
            rw [hstep2] at h2
            cases harr2 : sanitizeArrF (fun x => sanitizeValF n2 x) xs' with
            | none => rw [harr2] at h2; cases h2
            | some r2 =>
              rw [harr2] at h2
              cases r2 with
              | error e => simp at h2
              | ok xs'' =>
                simp at h2
                rw [← h2]
                exact congrArg Json.jarr
                  (sanitizeArrF_idem (fun x y z hx hy => ih n1 x y z hx hy)
                    xs xs' xs'' harr1 harr2)
      | jobj ms =>
        have hstep : sanitizeValF (n1 + 1) (.jobj ms) =
            (match sanitizeObjF (fun x => sanitizeValF n1 x) ms with
              | none => none
              | some (Except.error e) => some (Except.error e)
              | some (Except.ok ms2) => some (Except.ok (Json.jobj ms2))) := rfl
        rw [hstep] at h1
        cases hobj1 : sanitizeObjF (fun x => sanitizeValF n1 x) ms with
        | none => rw [hobj1] at h1; cases h1
        | some r =>
          rw [hobj1] at h1
          cases r with
          | error e => simp at h1
          | ok ms' =>
            simp at h1
            subst h1
            have hstep2 : sanitizeValF (n2 + 1) (.jobj ms') =
                (match sanitizeObjF (fun x => sanitizeValF n2 x) ms' with
                  | none => none
                  | some (Except.error e) => some (Except.error e)
                  | some (Except.ok ms2) =>
                    some (Except.ok (Json.jobj ms2))) := rfl
            rw [hstep2] at h2
            cases hobj2 : sanitizeObjF (fun x => sanitizeValF n2 x) ms' with
            | none => rw [hobj2] at h2; cases h2
            | some r2 =>
              rw [hobj2] at h2
              cases r2 with
              | error e => simp at h2
              | ok ms'' =>
                simp at h2
                rw [← h2]
                exact congrArg Json.jobj
                  (sanitizeObjF_idem (fun x y z hx hy => ih n1 x y z hx hy)
                    hobj1 hobj2)

/-! ## Number-literal lemmas: extension by a blocked suffix and re-parsing -/

/-- A character that could extend a number literal in progress. -/
def isNumContCh (c : Char) : Bool :=
  isDigitCh c || c = '.' || c = 'e' || c = 'E' || c = '+' || c = '-'

/-- The suffix cannot extend a number literal that ends right before it. -/
def numBoundOk : List Char → Bool
  | [] => true
  | c :: _ => !isNumContCh c

theorem numBound_facts {c : Char} {t : List Char}
    (h : numBoundOk (c :: t) = true) :
    isDigitCh c = false ∧ c ≠ '.' ∧ c ≠ 'e' ∧ c ≠ 'E' ∧ c ≠ '+' ∧ c ≠ '-' := by
  simp only [numBoundOk, isNumContCh, Bool.not_eq_eq_eq_not, Bool.not_true,
    Bool.or_eq_false_iff, decide_eq_false_iff_not] at h
  exact ⟨h.1.1.1.1.1, h.1.1.1.1.2, h.1.1.1.2, h.1.1.2, h.1.2, h.2⟩

theorem scanDigits_all :
    ∀ {cs d r : List Char}, scanDigits cs = (d, r) →
      ∀ c ∈ d, isDigitCh c = true := by
  intro cs
  induction cs with
  | nil =>
    intro d r h c hc
    simp only [scanDigits] at h
    injection h with h1 h2
    subst h1
    cases hc
  | cons c0 t ih =>
    intro d r h c hc
    simp only [scanDigits] at h
    cases hd : isDigitCh c0 with
    | true =>
      rw [hd] at h
      cases hst : scanDigits t with
      | mk d0 r0 =>
        rw [hst] at h
        simp only [if_true] at h
        injection h with h1 h2
        subst h1
        cases hc with
        | head => exact hd
        | tail _ hmem => exact ih hst c hmem
    | false =>
      rw [hd] at h
      simp only [Bool.false_eq_true, if_false] at h
      injection h with h1 h2
      subst h1
      cases hc

theorem scanDigits_ext :
    ∀ {cs d r : List Char}, scanDigits cs = (d, r) →
      ∀ g : List Char, (r = [] → numBoundOk g = true) →
        scanDigits (cs ++ g) = (d, r ++ g) := by
  intro cs
  induction cs with
  | nil =>
    intro d r h g hg
    simp only [scanDigits] at h
    injection h with h1 h2
    subst h1
    subst h2
    cases g with
    | nil => rfl
    | cons c t =>
      have hc := (numBound_facts (hg rfl)).1
      simp [scanDigits, hc]
  | cons c0 t ih =>
    intro d r h g hg
    simp only [scanDigits] at h
    cases hd : isDigitCh c0 with
    | true =>
      rw [hd] at h
      cases hst : scanDigits t with
      | mk d0 r0 =>
        rw [hst] at h
        simp only [if_true] at h
        injection h with h1 h2
        subst h1
        subst h2
        have hext := ih hst g hg
        simp only [List.cons_append, scanDigits, hd, if_true, List.append_eq,
          hext]
    | false =>
      rw [hd] at h
      simp only [Bool.false_eq_true, if_false] at h
      injection h with h1 h2
      subst h1
      subst h2
      simp [scanDigits, hd]

theorem scanDigits_of_all :
    ∀ {d : List Char}, (∀ c ∈ d, isDigitCh c = true) →
      ∀ {q : List Char}, (∀ c t, q = c :: t → isDigitCh c = false) →
        scanDigits (d ++ q) = (d, q) := by
  intro d
  induction d with
  | nil =>
    intro _ q hq
    cases q with
    | nil => rfl
    | cons c t => simp [scanDigits, hq c t rfl]
  | cons c0 t ih =>
    intro hd q hq
    have hc0 : isDigitCh c0 = true := hd c0 (List.mem_cons_self c0 t)
    have hrest := ih (fun c hc => hd c (List.mem_cons_of_mem _ hc)) hq
    simp only [List.cons_append, scanDigits, hc0, if_true, List.append_eq,
      hrest]

theorem parseNumberExp_cons (neg ip fp : List Char) (c : Char) (t : List Char) :
    parseNumberExp neg ip fp (c :: t) =
      if c = 'e' ∨ c = 'E' then
        match t with
        | [] => .error "Missing exponent in number."
        | u :: t2 =>
          if u = '+' ∨ u = '-' then
            match scanDigits t2 with
            | ([], _) => .error "Missing exponent in number."
            | (d, r) => .ok (neg ++ ip ++ fp ++ (c :: ([u] ++ d)), r)
          else
            match scanDigits (u :: t2) with
            | ([], _) => .error "Missing exponent in number."
            | (d, r) => .ok (neg ++ ip ++ fp ++ (c :: d), r)
      else .ok (neg ++ ip ++ fp, c :: t) := rfl

theorem parseNumberFrac_cons (neg ip : List Char) (c : Char) (t : List Char) :
    parseNumberFrac neg ip (c :: t) =
      if c = '.' then
        match scanDigits t with
        | ([], _) => .error "Missing fraction part in number."
        | (d, r) => parseNumberExp neg ip ('.' :: d) r
      else parseNumberExp neg ip [] (c :: t) := rfl

theorem parseNumber_cons (c : Char) (t : List Char) :
    parseNumber (c :: t) =
      if c = '-' then
        match t with
        | [] => .error "Invalid value."
        | c2 :: t2 =>
          if c2 = '0' then parseNumberFrac ['-'] ['0'] t2
          else if isDigitCh c2 then
            match scanDigits t2 with
            | (d, r) => parseNumberFrac ['-'] (c2 :: d) r
          else .error "Invalid value."
      else if c = '0' then parseNumberFrac [] ['0'] t
      else if isDigitCh c then
        match scanDigits t with
        | (d, r) => parseNumberFrac [] (c :: d) r
      else .error "Invalid value." := rfl

theorem parseNumberExp_ext {neg ip fp s lit r : List Char}
    (h : parseNumberExp neg ip fp s = .ok (lit, r)) (g : List Char)
    (hg : r = [] → numBoundOk g = true) :
    parseNumberExp neg ip fp (s ++ g) = .ok (lit, r ++ g) := by
  cases s with
  | nil =>
    have hstep : parseNumberExp neg ip fp [] = .ok (neg ++ ip ++ fp, []) := rfl
    rw [hstep] at h
    injection h with h
    injection h with h1 h2
    subst h1
    subst h2
    simp only [List.nil_append]
    cases g with
    | nil => exact hstep
    | cons c t =>
      obtain ⟨-, -, he, hE, -, -⟩ := numBound_facts (hg rfl)
      rw [parseNumberExp_cons, if_neg (fun hor => hor.elim he hE)]
  | cons c t =>
    by_cases he : c = 'e' ∨ c = 'E'
    · rw [parseNumberExp_cons, if_pos he] at h
      cases t with
      | nil => dsimp only at h; cases h
      | cons u t2 =>
        dsimp only at h
        simp only [List.cons_append]
        rw [parseNumberExp_cons, if_pos he]
        dsimp only
        by_cases hu : u = '+' ∨ u = '-'
        · rw [if_pos hu] at h ⊢
          cases hscan : scanDigits t2 with
          | mk d0 r0 =>
            rw [hscan] at h
            cases d0 with
            | nil => dsimp only at h; cases h
            | cons dc dt =>
              dsimp only at h
              injection h with h
              injection h with h1 h2
              subst h1
              subst h2
              rw [scanDigits_ext hscan g hg]
        · rw [if_neg hu] at h ⊢
          cases hscan : scanDigits (u :: t2) with
          | mk d0 r0 =>
            rw [hscan] at h
            cases d0 with
            | nil => dsimp only at h; cases h
            | cons dc dt =>
              dsimp only at h
              injection h with h
              injection h with h1 h2
              subst h1
              subst h2
              have hscang := scanDigits_ext hscan g hg
              rw [List.cons_append] at hscang
              rw [hscang]
    · rw [parseNumberExp_cons, if_neg he] at h
      injection h with h
      injection h with h1 h2
      subst h1
      subst h2
      simp only [List.cons_append]
      rw [parseNumberExp_cons, if_neg he]

theorem parseNumberFrac_ext {neg ip s lit r : List Char}
    (h : parseNumberFrac neg ip s = .ok (lit, r)) (g : List Char)
    (hg : r = [] → numBoundOk g = true) :
    parseNumberFrac neg ip (s ++ g) = .ok (lit, r ++ g) := by
  cases s with
  | nil =>
    have hstep : parseNumberFrac neg ip [] = .ok (neg ++ ip ++ [], []) := rfl
    rw [hstep] at h
    injection h with h
    injection h with h1 h2
    subst h1
    subst h2
    simp only [List.nil_append]
    cases g with
    | nil => exact hstep
    | cons c t =>
      obtain ⟨-, hdot, he, hE, -, -⟩ := numBound_facts (hg rfl)
      rw [parseNumberFrac_cons, if_neg hdot, parseNumberExp_cons,
        if_neg (fun hor => hor.elim he hE)]
  | cons c t =>
    by_cases hdot : c = '.'
    · rw [parseNumberFrac_cons, if_pos hdot] at h
      cases hscan : scanDigits t with
      | mk d0 r0 =>
        rw [hscan] at h
        cases d0 with
        | nil => dsimp only at h; cases h
        | cons dc dt =>
          dsimp only at h
          have hcond : r0 = [] → numBoundOk g = true := by
            intro hr0
            subst hr0
            have hstepE : parseNumberExp neg ip ('.' :: dc :: dt) [] =
                .ok (neg ++ ip ++ ('.' :: dc :: dt), []) := rfl
            rw [hstepE] at h
            injection h with h
            injection h with h1 h2
            exact hg h2.symm
          have hscang := scanDigits_ext hscan g hcond
          simp only [List.cons_append]
          rw [parseNumberFrac_cons, if_pos hdot, hscang]
          dsimp only
          exact parseNumberExp_ext h g hg
    · rw [parseNumberFrac_cons, if_neg hdot] at h
      simp only [List.cons_append]
      rw [parseNumberFrac_cons, if_neg hdot]
      have hext := parseNumberExp_ext h g hg
      rw [List.cons_append] at hext
      exact hext

theorem parseNumber_ext {s lit r : List Char} (h : parseNumber s = .ok (lit, r))
    (g : List Char) (hg : r = [] → numBoundOk g = true) :
    parseNumber (s ++ g) = .ok (lit, r ++ g) := by
  cases s with
  | nil => cases h
  | cons c t =>
    rw [parseNumber_cons] at h
    simp only [List.cons_append]
    rw [parseNumber_cons]
    by_cases hneg : c = '-'
    · rw [if_pos hneg] at h ⊢
      cases t with
      | nil => dsimp only at h; cases h
      | cons c2 t2 =>
        dsimp only at h
        simp only [List.cons_append]
        by_cases h0 : c2 = '0'
        · rw [if_pos h0] at h ⊢
          exact parseNumberFrac_ext h g hg
        · rw [if_neg h0] at h ⊢
          by_cases hd : isDigitCh c2 = true
          · rw [if_pos hd] at h ⊢
            cases hscan : scanDigits t2 with
            | mk d0 r0 =>
              rw [hscan] at h
              dsimp only at h
              have hcond : r0 = [] → numBoundOk g = true := by
                intro hr0
                subst hr0
                have hstepF : parseNumberFrac ['-'] (c2 :: d0) [] =
                    .ok (['-'] ++ (c2 :: d0) ++ [], []) := rfl
                rw [hstepF] at h
                injection h with h
                injection h with h1 h2
                exact hg h2.symm
              rw [scanDigits_ext hscan g hcond]
              dsimp only
              exact parseNumberFrac_ext h g hg
          · rw [if_neg hd] at h
            cases h
    · rw [if_neg hneg] at h ⊢
      by_cases h0 : c = '0'
      · rw [if_pos h0] at h ⊢
        exact parseNumberFrac_ext h g hg
      · rw [if_neg h0] at h ⊢
        by_cases hd : isDigitCh c = true
        · rw [if_pos hd] at h ⊢
          cases hscan : scanDigits t with
          | mk d0 r0 =>
            rw [hscan] at h
            dsimp only at h
            have hcond : r0 = [] → numBoundOk g = true := by
              intro hr0
              subst hr0
              have hstepF : parseNumberFrac [] (c :: d0) [] =
                  .ok ([] ++ (c :: d0) ++ [], []) := rfl
              rw [hstepF] at h
              injection h with h
              injection h with h1 h2
              exact hg h2.symm
            rw [scanDigits_ext hscan g hcond]
            dsimp only
            exact parseNumberFrac_ext h g hg
        · rw [if_neg hd] at h
          cases h

theorem digit_not_sign {c : Char} (h : isDigitCh c = true) :
    ¬(c = '+' ∨ c = '-') := by
  intro hor
  rcases hor with hc | hc <;> subst hc <;> exact absurd h (by decide)

theorem scanDigits_self {d : List Char} (hd : ∀ c ∈ d, isDigitCh c = true) :
    scanDigits d = (d, []) := by
  have h5 := scanDigits_of_all hd (q := []) (fun c3 t3 heq => nomatch heq)
  rw [List.append_nil] at h5
  exact h5

theorem parseNumberExp_restrict {neg ip fp s lit r : List Char}
    (h : parseNumberExp neg ip fp s = .ok (lit, r)) :
    ∃ ep, lit = neg ++ ip ++ fp ++ ep ∧
      (∀ c2 t2, ep = c2 :: t2 → (c2 = 'e' ∨ c2 = 'E')) ∧
      ∀ n' i' f', parseNumberExp n' i' f' ep =
        .ok (n' ++ i' ++ f' ++ ep, []) := by
  cases s with
  | nil =>
    have hstep : parseNumberExp neg ip fp [] = .ok (neg ++ ip ++ fp, []) := rfl
    rw [hstep] at h
    injection h with h
    injection h with h1 h2
    refine ⟨[], ?_, ?_, ?_⟩
    · rw [List.append_nil]
      exact h1.symm
    · intro c2 t2 heq
      cases heq
    · intro n' i' f'
      rw [List.append_nil]
      rfl
  | cons c t =>
    by_cases he : c = 'e' ∨ c = 'E'
    · rw [parseNumberExp_cons, if_pos he] at h
      cases t with
      | nil => dsimp only at h; cases h
      | cons u t2 =>
        dsimp only at h
        by_cases hu : u = '+' ∨ u = '-'
        · rw [if_pos hu] at h
          cases hscan : scanDigits t2 with
          | mk d0 r0 =>
            rw [hscan] at h
            cases d0 with
            | nil => dsimp only at h; cases h
            | cons dc dt =>
              dsimp only at h
              injection h with h
              injection h with h1 h2
              have hdall := scanDigits_all hscan
              have hself : scanDigits (dc :: dt) = (dc :: dt, []) :=
                scanDigits_self hdall
              refine ⟨c :: u :: dc :: dt, h1.symm,
                fun c2 t2 heq => by injection heq with a b; rw [← a]; exact he,
                ?_⟩
              intro n' i' f'
              rw [parseNumberExp_cons, if_pos he]
              dsimp only
              rw [if_pos hu, hself]
              rfl
        · rw [if_neg hu] at h
          cases hscan : scanDigits (u :: t2) with
          | mk d0 r0 =>
            rw [hscan] at h
            cases d0 with
            | nil => dsimp only at h; cases h
            | cons dc dt =>
              dsimp only at h
              injection h with h
              injection h with h1 h2
              have hdall := scanDigits_all hscan
              have hself : scanDigits (dc :: dt) = (dc :: dt, []) :=
                scanDigits_self hdall
              refine ⟨c :: dc :: dt, h1.symm,
                fun c2 t2 heq => by injection heq with a b; rw [← a]; exact he,
                ?_⟩
              intro n' i' f'
              rw [parseNumberExp_cons, if_pos he]
              dsimp only
              rw [if_neg (digit_not_sign (hdall dc (List.mem_cons_self dc dt))),
                hself]
    · rw [parseNumberExp_cons, if_neg he] at h
      injection h with h
      injection h with h1 h2
      refine ⟨[], ?_, ?_, ?_⟩
      · rw [List.append_nil]
        exact h1.symm
      · intro c2 t2 heq
        cases heq
      · intro n' i' f'
        rw [List.append_nil]
        rfl

theorem frac_reparse {ep : List Char}
    (hhead : ∀ c2 t2, ep = c2 :: t2 → (c2 = 'e' ∨ c2 = 'E'))
    (hre : ∀ n' i' f', parseNumberExp n' i' f' ep =
      .ok (n' ++ i' ++ f' ++ ep, [])) :
    ∀ n' i', parseNumberFrac n' i' ep = .ok (n' ++ i' ++ ep, []) := by
  intro n' i'
  cases ep with
  | nil => rfl
  | cons e er =>
    have he := hhead e er rfl
    have hdot : ¬ e = '.' := by rcases he with h | h <;> subst h <;> decide
    rw [parseNumberFrac_cons, if_neg hdot]
    have h6 := hre n' i' []
    rw [List.append_nil] at h6
    exact h6

theorem parseNumberFrac_restrict {neg ip s lit r : List Char}
    (h : parseNumberFrac neg ip s = .ok (lit, r)) :
    ∃ fpe, lit = neg ++ ip ++ fpe ∧
      (∀ c2 t2, fpe = c2 :: t2 → isDigitCh c2 = false) ∧
      ∀ n' i', parseNumberFrac n' i' fpe = .ok (n' ++ i' ++ fpe, []) := by
  cases s with
  | nil =>
    have hE : parseNumberExp neg ip [] [] = .ok (lit, r) := h
    obtain ⟨ep, hlit, hhead, hre⟩ := parseNumberExp_restrict hE
    rw [List.append_nil] at hlit
    exact ⟨ep, hlit,
      fun c2 t2 heq => by
        rcases hhead c2 t2 heq with h5 | h5 <;> subst h5 <;> decide,
      frac_reparse hhead hre⟩
  | cons c t =>
    by_cases hdot : c = '.'
    · rw [parseNumberFrac_cons, if_pos hdot] at h
      cases hscan : scanDigits t with
      | mk d0 r0 =>
        rw [hscan] at h
        cases d0 with
        | nil => dsimp only at h; cases h
        | cons dc dt =>
          dsimp only at h
          obtain ⟨ep, hlit, hhead, hre⟩ := parseNumberExp_restrict h
          have hdall := scanDigits_all hscan
          have hephead : ∀ c3 t3, ep = c3 :: t3 → isDigitCh c3 = false :=
            fun c3 t3 heq => by
              rcases hhead c3 t3 heq with h5 | h5 <;> subst h5 <;> decide
          rw [List.append_assoc] at hlit
          refine ⟨'.' :: dc :: (dt ++ ep), hlit, ?_, ?_⟩
          · intro c2 t2 heq
            injection heq with a b
            rw [← a]
            decide
          · intro n' i'
            rw [parseNumberFrac_cons, if_pos rfl]
            have hscan2 : scanDigits (dc :: (dt ++ ep)) = (dc :: dt, ep) :=
              scanDigits_of_all hdall hephead
            rw [hscan2]
            dsimp only
            have h6 := hre n' i' ('.' :: dc :: dt)
            rw [List.append_assoc] at h6
            exact h6
    · rw [parseNumberFrac_cons, if_neg hdot] at h
      obtain ⟨ep, hlit, hhead, hre⟩ := parseNumberExp_restrict h
      rw [List.append_nil] at hlit
      exact ⟨ep, hlit,
        fun c2 t2 heq => by
          rcases hhead c2 t2 heq with h5 | h5 <;> subst h5 <;> decide,
        frac_reparse hhead hre⟩

theorem parseNumber_restrict {s lit r : List Char}
    (h : parseNumber s = .ok (lit, r)) :
    parseNumber lit = .ok (lit, []) ∧
      ∃ c t, lit = c :: t ∧ (c = '-' ∨ isDigitCh c = true) := by
  cases s with
  | nil => cases h
  | cons c t =>
    rw [parseNumber_cons] at h
    by_cases hneg : c = '-'
    · rw [if_pos hneg] at h
      cases t with
      | nil => dsimp only at h; cases h
      | cons c2 t2 =>
        dsimp only at h
        by_cases h0 : c2 = '0'
        · rw [if_pos h0] at h
          subst h0
          obtain ⟨fpe, hlit, hhead, hfr⟩ := parseNumberFrac_restrict h
          subst hlit
          constructor
          · show parseNumber ('-' :: '0' :: fpe) = .ok ('-' :: '0' :: fpe, [])
            rw [parseNumber_cons, if_pos rfl]
            dsimp only
            rw [if_pos rfl]
            exact hfr ['-'] ['0']
          · exact ⟨'-', '0' :: fpe, rfl, Or.inl rfl⟩
        · rw [if_neg h0] at h
          by_cases hd : isDigitCh c2 = true
          · rw [if_pos hd] at h
            cases hscan : scanDigits t2 with
            | mk d0 r0 =>
              rw [hscan] at h
              dsimp only at h
              obtain ⟨fpe, hlit, hhead, hfr⟩ := parseNumberFrac_restrict h
              subst hlit
              have hdall := scanDigits_all hscan
              constructor
              · show parseNumber ('-' :: c2 :: (d0 ++ fpe)) =
                  .ok ('-' :: c2 :: (d0 ++ fpe), [])
                rw [parseNumber_cons, if_pos rfl]
                dsimp only
                rw [if_neg h0, if_pos hd, scanDigits_of_all hdall hhead]
                dsimp only
                exact hfr ['-'] (c2 :: d0)
              · exact ⟨'-', c2 :: (d0 ++ fpe), rfl, Or.inl rfl⟩
          · rw [if_neg hd] at h
            cases h
    · rw [if_neg hneg] at h
      by_cases h0 : c = '0'
      · rw [if_pos h0] at h
        subst h0
        obtain ⟨fpe, hlit, hhead, hfr⟩ := parseNumberFrac_restrict h
        subst hlit
        constructor
        · show parseNumber ('0' :: fpe) = .ok ('0' :: fpe, [])
          rw [parseNumber_cons, if_neg hneg, if_pos rfl]
          exact hfr [] ['0']
        · exact ⟨'0', fpe, rfl, Or.inr (by decide)⟩
      · rw [if_neg h0] at h
        by_cases hd : isDigitCh c = true
        · rw [if_pos hd] at h
          cases hscan : scanDigits t with
          | mk d0 r0 =>
            rw [hscan] at h
            dsimp only at h
            obtain ⟨fpe, hlit, hhead, hfr⟩ := parseNumberFrac_restrict h
            subst hlit
            have hdall := scanDigits_all hscan
            constructor
            · show parseNumber (c :: (d0 ++ fpe)) =
                .ok (c :: (d0 ++ fpe), [])
              rw [parseNumber_cons, if_neg hneg, if_neg h0, if_pos hd,
                scanDigits_of_all hdall hhead]
              dsimp only
              exact hfr [] (c :: d0)
            · exact ⟨c, d0 ++ fpe, rfl, Or.inr hd⟩
        · rw [if_neg hd] at h
          cases h

/-! ## Well-formed DOM values and `rapidjson::Writer` adequacy -/

/-- A number literal as the parser itself would produce it: it re-parses
completely as one number. -/
def wfNumLit (lit : String) : Bool :=
  match parseNumber lit.toList with
  | .ok (l2, r2) => decide (l2 = lit.toList) && decide (r2 = [])
  | .error _ => false

mutual
/-- DOM values whose number literals re-parse (writer output of such a value
parses back to it). -/
def wfJson : Json → Bool
  | .jnull => true
  | .jbool _ => true
  | .jnum lit => wfNumLit lit
  | .jstr _ => true
  | .jarr xs => wfJsonArr xs
  | .jobj ms => wfJsonObj ms

def wfJsonArr : List Json → Bool
  | [] => true
  | x :: xs => wfJson x && wfJsonArr xs

def wfJsonObj : List (String × Json) → Bool
  | [] => true
  | (_, v) :: ms => wfJson v && wfJsonObj ms
end

theorem wfNumLit_parse {lit : String} (h : wfNumLit lit = true) :
    parseNumber lit.toList = .ok (lit.toList, []) := by
  unfold wfNumLit at h
  cases hp : parseNumber lit.toList with
  | error e => rw [hp] at h; cases h
  | ok p =>
    obtain ⟨l2, r2⟩ := p
    rw [hp] at h
    simp only [Bool.and_eq_true, decide_eq_true_eq] at h
    rw [h.1, h.2]

theorem jsonSize_pos : ∀ v : Json, 0 < jsonSize v := by
  intro v
  cases v <;> simp [jsonSize]

theorem size_mem_arr {x : Json} {xs : List Json} (h : x ∈ xs) :
    jsonSize x < jsonArrSize xs := by
  induction xs with
  | nil => cases h
  | cons y t ih =>
    cases h with
    | head =>
      rw [show jsonArrSize (x :: t) = 1 + jsonSize x + jsonArrSize t from rfl]
      omega
    | tail _ hm =>
      have h2 := ih hm
      rw [show jsonArrSize (y :: t) = 1 + jsonSize y + jsonArrSize t from rfl]
      omega

theorem size_mem_obj {kv : String × Json} {ms : List (String × Json)}
    (h : kv ∈ ms) : jsonSize kv.2 < jsonObjSize ms := by
  induction ms with
  | nil => cases h
  | cons m t ih =>
    obtain ⟨k0, v0⟩ := m
    cases h with
    | head =>
      rw [show jsonObjSize ((k0, v0) :: t) = 1 + jsonSize v0 + jsonObjSize t
        from rfl]
      show jsonSize v0 < 1 + jsonSize v0 + jsonObjSize t
      omega
    | tail _ hm =>
      have h2 := ih hm
      rw [show jsonObjSize ((k0, v0) :: t) = 1 + jsonSize v0 + jsonObjSize t
        from rfl]
      omega

theorem size_arr_lt {xs : List Json} :
    jsonArrSize xs < jsonSize (.jarr xs) := by
  rw [show jsonSize (.jarr xs) = 1 + jsonArrSize xs from rfl]
  omega

theorem size_obj_lt {ms : List (String × Json)} :
    jsonObjSize ms < jsonSize (.jobj ms) := by
  rw [show jsonSize (.jobj ms) = 1 + jsonObjSize ms from rfl]
  omega

theorem writeValF_agree :
    ∀ (N : Nat) (v : Json), jsonSize v ≤ N → ∀ f1 f2 : Nat,
      jsonSize v ≤ f1 → jsonSize v ≤ f2 →
      writeValF f1 v = writeValF f2 v ∧ (writeValF f1 v).isSome = true := by
  intro N
  induction N with
  | zero =>
    intro v h
    exact absurd (jsonSize_pos v) (by omega)
  | succ m ih =>
    intro v hN f1 f2 h1 h2
    have hp := jsonSize_pos v
    cases f1 with
    | zero => omega
    | succ g1 =>
      cases f2 with
      | zero => omega
      | succ g2 =>
        cases v with
        | jnull => exact ⟨rfl, rfl⟩
        | jbool b => cases b <;> exact ⟨rfl, rfl⟩
        | jnum lit => exact ⟨rfl, rfl⟩
        | jstr s => exact ⟨rfl, rfl⟩
        | jarr xs =>
          have hxsz : jsonSize (Json.jarr xs) = 1 + jsonArrSize xs := rfl
          have hmap : ∀ ys : List Json,
              (∀ y ∈ ys, jsonSize y < jsonSize (Json.jarr xs)) →
              mapOptList (fun x => writeValF g1 x) ys =
                mapOptList (fun x => writeValF g2 x) ys ∧
              (mapOptList (fun x => writeValF g1 x) ys).isSome = true := by
            intro ys
            induction ys with
            | nil => exact fun _ => ⟨rfl, rfl⟩
            | cons y t iht =>
              intro hys
              have hy := hys y (List.mem_cons_self y t)
              have hyN : jsonSize y ≤ m := by omega
              have hy1 : jsonSize y ≤ g1 := by omega
              have hy2 : jsonSize y ≤ g2 := by omega
              obtain ⟨heqy, hsy⟩ := ih y hyN g1 g2 hy1 hy2
              obtain ⟨heqt, hst⟩ :=
                iht (fun z hz => hys z (List.mem_cons_of_mem _ hz))
              obtain ⟨w, hw⟩ := Option.isSome_iff_exists.mp hsy
              obtain ⟨ws, hws⟩ := Option.isSome_iff_exists.mp hst
              constructor
              · simp only [mapOptList]
                rw [← heqy, ← heqt, hw, hws]
              · simp only [mapOptList]
                rw [hw, hws]
                rfl
          obtain ⟨hmeq, hmsome⟩ := hmap xs (fun y hy => by
            have := size_mem_arr hy
            rw [hxsz]
            omega)
          obtain ⟨ps, hps⟩ := Option.isSome_iff_exists.mp hmsome
          constructor
          · simp only [writeValF]
            rw [← hmeq, hps]
          · simp only [writeValF]
            rw [hps]
            rfl
        | jobj ms =>
          have hmsz : jsonSize (Json.jobj ms) = 1 + jsonObjSize ms := rfl
          have hmap : ∀ ys : List (String × Json),
              (∀ y ∈ ys, jsonSize y.2 < jsonSize (Json.jobj ms)) →
              mapOptList (fun kv => (writeValF g1 kv.2).map
                (fun vcs => writeStrChars kv.1 ++ ':' :: vcs)) ys =
                mapOptList (fun kv => (writeValF g2 kv.2).map
                  (fun vcs => writeStrChars kv.1 ++ ':' :: vcs)) ys ∧
              (mapOptList (fun kv => (writeValF g1 kv.2).map
                (fun vcs => writeStrChars kv.1 ++ ':' :: vcs)) ys).isSome =
                true := by
            intro ys
            induction ys with
            | nil => exact fun _ => ⟨rfl, rfl⟩
            | cons y t iht =>
              intro hys
              have hy := hys y (List.mem_cons_self y t)
              have hyN : jsonSize y.2 ≤ m := by omega
              have hy1 : jsonSize y.2 ≤ g1 := by omega
              have hy2 : jsonSize y.2 ≤ g2 := by omega
              obtain ⟨heqy, hsy⟩ := ih y.2 hyN g1 g2 hy1 hy2
              obtain ⟨heqt, hst⟩ :=
                iht (fun z hz => hys z (List.mem_cons_of_mem _ hz))
              obtain ⟨w, hw⟩ := Option.isSome_iff_exists.mp hsy
              obtain ⟨ws, hws⟩ := Option.isSome_iff_exists.mp hst
              constructor
              · simp only [mapOptList]
                rw [← heqy, ← heqt, hw, hws]
              · simp only [mapOptList]
                rw [hw, hws]
                rfl
          obtain ⟨hmeq, hmsome⟩ := hmap ms (fun y hy => by
            have := size_mem_obj hy
            rw [hmsz]
            omega)
          obtain ⟨ps, hps⟩ := Option.isSome_iff_exists.mp hmsome
          constructor
          · simp only [writeValF]
            rw [← hmeq, hps]
          · simp only [writeValF]
            rw [hps]
            rfl

theorem writeValF_eq_writeVal {v : Json} {f : Nat} (hf : jsonSize v ≤ f) :
    writeValF f v = some (writeVal v) := by
  obtain ⟨heq, -⟩ :=
    writeValF_agree (jsonSize v) v (le_refl _) f (jsonSize v + 1) hf (by omega)
  obtain ⟨-, hsome⟩ :=
    writeValF_agree (jsonSize v) v (le_refl _) (jsonSize v + 1)
      (jsonSize v + 1) (by omega) (by omega)
  obtain ⟨w, hw⟩ := Option.isSome_iff_exists.mp hsome
  unfold writeVal
  rw [heq, hw]
  rfl

theorem mapOptList_writeVal :
    ∀ (xs : List Json) (f : Nat), (∀ x ∈ xs, jsonSize x ≤ f) →
      mapOptList (fun x => writeValF f x) xs = some (xs.map writeVal) := by
  intro xs f
  induction xs with
  | nil => intro _; rfl
  | cons x t ih =>
    intro h
    simp only [mapOptList, List.map]
    rw [writeValF_eq_writeVal (h x (List.mem_cons_self x t)),
      ih (fun z hz => h z (List.mem_cons_of_mem _ hz))]

theorem mapOptList_writeObj :
    ∀ (ms : List (String × Json)) (f : Nat), (∀ kv ∈ ms, jsonSize kv.2 ≤ f) →
      mapOptList (fun kv => (writeValF f kv.2).map
        (fun vcs => writeStrChars kv.1 ++ ':' :: vcs)) ms =
        some (ms.map (fun kv => writeStrChars kv.1 ++ ':' :: writeVal kv.2)) := by
  intro ms f
  induction ms with
  | nil => intro _; rfl
  | cons kv t ih =>
    intro h
    simp only [mapOptList, List.map]
    rw [writeValF_eq_writeVal (h kv (List.mem_cons_self kv t)),
      ih (fun z hz => h z (List.mem_cons_of_mem _ hz))]
    rfl

theorem writeVal_arr (xs : List Json) :
    writeVal (.jarr xs) = '[' :: (joinComma (xs.map writeVal) ++ [']']) := by
  have hstep : writeVal (.jarr xs) =
      (match mapOptList (fun x => writeValF (jsonSize (Json.jarr xs)) x) xs with
        | none => (none : Option (List Char))
        | some parts => some ('[' :: (joinComma parts ++ [']']))).getD [] := rfl
  rw [hstep, mapOptList_writeVal xs _ (fun x hx => by
    have h1 := size_mem_arr hx
    have h2 := @size_arr_lt xs
    omega)]
  rfl

theorem writeVal_obj (ms : List (String × Json)) :
    writeVal (.jobj ms) = '\x7b' :: (joinComma (ms.map
      (fun kv => writeStrChars kv.1 ++ ':' :: writeVal kv.2)) ++ ['\x7d']) := by
  have hstep : writeVal (.jobj ms) =
      (match mapOptList (fun kv : String × Json =>
          (writeValF (jsonSize (Json.jobj ms)) kv.2).map
            (fun vcs => writeStrChars kv.1 ++ ':' :: vcs)) ms with
        | none => (none : Option (List Char))
        | some parts => some ('\x7b' :: (joinComma parts ++ ['\x7d']))).getD
        [] := rfl
  rw [hstep, mapOptList_writeObj ms _ (fun kv hkv => by
    have h1 := size_mem_obj hkv
    have h2 := @size_obj_lt ms
    omega)]
  rfl

theorem digit_ne {c : Char} (h : isDigitCh c = true) (d : Char)
    (hd : isDigitCh d = false) : c ≠ d := by
  intro hc
  subst hc
  rw [h] at hd
  cases hd

theorem digit_not_ws {c : Char} (h : isDigitCh c = true) :
    isWsChar c = false := by
  cases hw : isWsChar c with
  | false => rfl
  | true =>
    exfalso
    simp only [isWsChar, Bool.or_eq_true, decide_eq_true_eq] at hw
    rcases hw with h5 | h5 | h5 | h5 <;> subst h5 <;>
      exact absurd h (by decide)

theorem skipWs_cons_of_not_ws {c : Char} (h : isWsChar c = false)
    (t : List Char) : skipWs (c :: t) = c :: t := by
  simp [skipWs, h]

theorem joinComma_one (x : List Char) : joinComma [x] = x := rfl

theorem joinComma_cons2 (x y : List Char) (ys : List (List Char)) :
    joinComma (x :: y :: ys) = x ++ ',' :: joinComma (y :: ys) := rfl

theorem hexVal_hexDigUpper : ∀ n : Nat, n < 16 →
    hexVal (hexDigUpper n) = some n := by decide

/-- The canonical head facts of a serialized well-formed value: nonempty,
not whitespace, and not a structural terminator. -/
theorem writeVal_head {v : Json} (hv : wfJson v = true) :
    ∃ c t, writeVal v = c :: t ∧ isWsChar c = false ∧ c ≠ ']' ∧
      c ≠ '\x7d' ∧ c ≠ ',' ∧ c ≠ ':' := by
  cases v with
  | jnull =>
    exact ⟨'n', _, rfl, by decide, by decide, by decide, by decide, by decide⟩
  | jbool b =>
    cases b with
    | true =>
      exact ⟨'t', _, rfl, by decide, by decide, by decide, by decide,
        by decide⟩
    | false =>
      exact ⟨'f', _, rfl, by decide, by decide, by decide, by decide,
        by decide⟩
  | jstr s =>
    exact ⟨'"', _, rfl, by decide, by decide, by decide, by decide, by decide⟩
  | jarr xs =>
    exact ⟨'[', _, writeVal_arr xs, by decide, by decide, by decide,
      by decide, by decide⟩
  | jobj ms =>
    exact ⟨'\x7b', _, writeVal_obj ms, by decide, by decide, by decide,
      by decide, by decide⟩
  | jnum lit =>
    have hp := wfNumLit_parse (hv : wfNumLit lit = true)
    obtain ⟨-, c, t, hlit, hc⟩ := parseNumber_restrict hp
    refine ⟨c, t, by rw [show writeVal (.jnum lit) = lit.toList from rfl, hlit],
      ?_, ?_, ?_, ?_, ?_⟩
    · rcases hc with h5 | h5
      · subst h5; decide
      · exact digit_not_ws h5
    · rcases hc with h5 | h5
      · subst h5; decide
      · exact digit_ne h5 ']' (by decide)
    · rcases hc with h5 | h5
      · subst h5; decide
      · exact digit_ne h5 '\x7d' (by decide)
    · rcases hc with h5 | h5
      · subst h5; decide
      · exact digit_ne h5 ',' (by decide)
    · rcases hc with h5 | h5
      · subst h5; decide
      · exact digit_ne h5 ':' (by decide)

theorem parseStrAux_quote (acc rest : List Char) :
    parseStrAux acc ('"' :: rest) = .ok (String.mk acc.reverse, rest) := by
  rw [parseStrAux.eq_def]
  dsimp only
  rw [if_pos rfl]

theorem parseStrAux_esc (acc : List Char) (e : Char) (rest2 : List Char)
    (hne : ¬ e = 'u') (d : Char) (hd : escDecode e = some d) :
    parseStrAux acc ('\\' :: e :: rest2) = parseStrAux (d :: acc) rest2 := by
  rw [parseStrAux.eq_def]
  dsimp only
  rw [if_neg (show ¬('\\' : Char) = '"' from by decide), if_pos rfl]
  rw [if_neg hne, hd]

theorem parseStrAux_u_step (acc : List Char) (rest2 : List Char) :
    parseStrAux acc ('\\' :: 'u' :: rest2) = parseStrU acc rest2 := by
  rw [parseStrAux.eq_def]
  dsimp only
  rw [if_neg (show ¬('\\' : Char) = '"' from by decide), if_pos rfl]
  rw [if_pos rfl]

set_option maxHeartbeats 1600000 in
theorem parseStrU_four (acc : List Char) (h1 h2 h3 h4 : Char)
    (rest3 : List Char) (n : Nat) (hhex : hex4 h1 h2 h3 h4 = some n)
    (hlow : n < 0xD800) :
    parseStrU acc (h1 :: h2 :: h3 :: h4 :: rest3) =
      parseStrAux (Char.ofNat n :: acc) rest3 := by
  rw [parseStrU.eq_def]
  dsimp only
  rw [hhex]
  dsimp only
  rw [if_neg (by omega), if_neg (by omega)]

theorem parseStrAux_plain (acc : List Char) (c : Char) (rest : List Char)
    (h1 : ¬ c = '"') (h2 : ¬ c = '\\') (h3 : ¬ c.toNat < 0x20) :
    parseStrAux acc (c :: rest) = parseStrAux (c :: acc) rest := by
  rw [parseStrAux.eq_def]
  dsimp only
  rw [if_neg h1, if_neg h2, if_neg h3]

theorem parseStr_rt : ∀ (cs acc rest : List Char),
    parseStrAux acc (escStr cs ++ '"' :: rest) =
      .ok (String.mk (acc.reverse ++ cs), rest) := by
  intro cs
  induction cs with
  | nil =>
    intro acc rest
    rw [List.append_nil]
    show parseStrAux acc ('"' :: rest) = .ok (String.mk acc.reverse, rest)
    exact parseStrAux_quote acc rest
  | cons c t ih =>
    intro acc rest
    rw [show escStr (c :: t) = escChar c ++ escStr t from rfl,
      List.append_assoc]
    have hmass : ∀ c0 : Char,
        parseStrAux (c0 :: acc) (escStr t ++ '"' :: rest) =
          .ok (String.mk (acc.reverse ++ c0 :: t), rest) := by
      intro c0
      have h6 := ih (c0 :: acc) rest
      rw [List.reverse_cons, List.append_assoc] at h6
      exact h6
    by_cases h1 : c = '"'
    · subst h1
      show parseStrAux acc ('\\' :: '"' :: (escStr t ++ '"' :: rest)) =
        .ok (String.mk (acc.reverse ++ '"' :: t), rest)
      rw [parseStrAux_esc acc '"' _ (by decide) '"' rfl]
      exact hmass '"'
    · by_cases h2 : c = '\\'
      · subst h2
        show parseStrAux acc ('\\' :: '\\' :: (escStr t ++ '"' :: rest)) =
          .ok (String.mk (acc.reverse ++ '\\' :: t), rest)
        rw [parseStrAux_esc acc '\\' _ (by decide) '\\' rfl]
        exact hmass '\\'
      · by_cases h3 : c = '\x08'
        · subst h3
          show parseStrAux acc ('\\' :: 'b' :: (escStr t ++ '"' :: rest)) =
            .ok (String.mk (acc.reverse ++ '\x08' :: t), rest)
          rw [parseStrAux_esc acc 'b' _ (by decide) '\x08' rfl]
          exact hmass '\x08'
        · by_cases h4 : c = '\x0C'
          · subst h4
            show parseStrAux acc ('\\' :: 'f' :: (escStr t ++ '"' :: rest)) =
              .ok (String.mk (acc.reverse ++ '\x0C' :: t), rest)
            rw [parseStrAux_esc acc 'f' _ (by decide) '\x0C' rfl]
            exact hmass '\x0C'
          · by_cases h5 : c = '\n'
            · subst h5
              show parseStrAux acc ('\\' :: 'n' :: (escStr t ++ '"' :: rest)) =
                .ok (String.mk (acc.reverse ++ '\n' :: t), rest)
              rw [parseStrAux_esc acc 'n' _ (by decide) '\n' rfl]
              exact hmass '\n'
            · by_cases hr : c = '\x0D'
              · subst hr
                show parseStrAux acc
                    ('\\' :: 'r' :: (escStr t ++ '"' :: rest)) =
                  .ok (String.mk (acc.reverse ++ '\x0D' :: t), rest)
                rw [parseStrAux_esc acc 'r' _ (by decide) '\x0D' rfl]
                exact hmass '\x0D'
              · by_cases ht : c = '\t'
                · subst ht
                  show parseStrAux acc
                      ('\\' :: 't' :: (escStr t ++ '"' :: rest)) =
                    .ok (String.mk (acc.reverse ++ '\t' :: t), rest)
                  rw [parseStrAux_esc acc 't' _ (by decide) '\t' rfl]
                  exact hmass '\t'
                · by_cases hctl : c.toNat < 0x20
                  · have hesc : escChar c =
                        ['\\', 'u', '0', '0', hexDigUpper (c.toNat / 16),
                          hexDigUpper (c.toNat % 16)] := by
                      simp only [escChar, if_neg h1, if_neg h2, if_neg h3,
                        if_neg h4, if_neg h5, if_neg hr, if_neg ht,
                        if_pos hctl]
                    rw [hesc]
                    have hhex : hex4 '0' '0' (hexDigUpper (c.toNat / 16))
                        (hexDigUpper (c.toNat % 16)) = some c.toNat := by
                      have hq1 : hexVal (hexDigUpper (c.toNat / 16)) =
                          some (c.toNat / 16) :=
                        hexVal_hexDigUpper _ (by omega)
                      have hq2 : hexVal (hexDigUpper (c.toNat % 16)) =
                          some (c.toNat % 16) :=
                        hexVal_hexDigUpper _ (by omega)
                      simp only [hex4, hq1, hq2,
                        show hexVal '0' = some 0 from rfl]
                      exact congrArg some (by omega)
                    show parseStrAux acc ('\\' :: 'u' :: ('0' :: '0' ::
                        hexDigUpper (c.toNat / 16) ::
                        hexDigUpper (c.toNat % 16) ::
                        (escStr t ++ '"' :: rest))) =
                      .ok (String.mk (acc.reverse ++ c :: t), rest)
                    rw [parseStrAux_u_step,
                      parseStrU_four acc _ _ _ _ _ c.toNat hhex (by omega),
                      Char.ofNat_toNat]
                    exact hmass c
                  · have hesc : escChar c = [c] := by
                      simp only [escChar, if_neg h1, if_neg h2, if_neg h3,
                        if_neg h4, if_neg h5, if_neg hr, if_neg ht,
                        if_neg hctl]
                    rw [hesc]
                    show parseStrAux acc (c :: (escStr t ++ '"' :: rest)) =
                      .ok (String.mk (acc.reverse ++ c :: t), rest)
                    rw [parseStrAux_plain acc c _ h1 h2 hctl]
                    exact hmass c

theorem joinComma_head {y : Json} (t2 : List Json) {c0 : Char} {t0 : List Char}
    (h0 : writeVal y = c0 :: t0) (suf : List Char) :
    ∃ tail, joinComma (List.map writeVal (y :: t2)) ++ suf = c0 :: tail := by
  cases t2 with
  | nil =>
    refine ⟨t0 ++ suf, ?_⟩
    simp only [List.map, joinComma_one, h0, List.cons_append]
  | cons z t3 =>
    refine ⟨(t0 ++ ',' :: joinComma (List.map writeVal (z :: t3))) ++ suf, ?_⟩
    simp only [List.map, joinComma_cons2, h0, List.cons_append]

theorem parseElems_rt :
    ∀ (xs : List Json)
      (pv : List Char → Option (Except String (Json × List Char))),
      (∀ x ∈ xs, ∀ q : List Char, numBoundOk q = true →
        pv (writeVal x ++ q) = some (.ok (x, q))) →
      (∀ x ∈ xs, wfJson x = true) →
      ∀ fe : Nat, jsonArrSize xs ≤ fe → xs ≠ [] →
      ∀ rest : List Char,
        parseElemsF pv fe (joinComma (xs.map writeVal) ++ ']' :: rest) =
          some (.ok (xs, rest)) := by
  intro xs
  induction xs with
  | nil => intro pv _ _ fe _ hne rest; exact absurd rfl hne
  | cons x t ih =>
    intro pv hpv hx fe hfe hne rest
    have hsz : jsonArrSize (x :: t) = 1 + jsonSize x + jsonArrSize t := rfl
    cases fe with
    | zero => omega
    | succ fe0 =>
      cases t with
      | nil =>
        have hel := hpv x (List.mem_cons_self x []) (']' :: rest) rfl
        simp only [List.map, joinComma_one]
        simp only [parseElemsF]
        rw [hel]
        dsimp only
        rw [skipWs_cons_of_not_ws (by decide) rest]
        dsimp only
        rw [if_neg (by decide), if_pos rfl]
      | cons y t2 =>
        simp only [List.map, joinComma_cons2]
        rw [List.append_assoc, List.cons_append]
        have hel := hpv x (List.mem_cons_self _ _)
          (',' :: (joinComma (List.map writeVal (y :: t2)) ++ ']' :: rest)) rfl
        simp only [List.map] at hel
        simp only [parseElemsF]
        rw [hel]
        dsimp only
        rw [skipWs_cons_of_not_ws (by decide)]
        dsimp only
        rw [if_pos rfl]
        obtain ⟨c0, t0, h0, hws0, -, -, -, -⟩ :=
          writeVal_head (hx y (List.mem_cons_of_mem _ (List.mem_cons_self _ _)))
        obtain ⟨tail, htail⟩ := joinComma_head t2 h0 (']' :: rest)
        simp only [List.map] at htail
        rw [htail, skipWs_cons_of_not_ws hws0, ← htail]
        have hihe := ih pv (fun z hz => hpv z (List.mem_cons_of_mem _ hz))
          (fun z hz => hx z (List.mem_cons_of_mem _ hz)) fe0 (by omega)
          (by intro hc; cases hc) rest
        simp only [List.map] at hihe
        rw [hihe]

theorem joinComma_part (p : List Char) (ps : List (List Char))
    (suf : List Char) :
    ∃ W, joinComma (p :: ps) ++ suf = p ++ W := by
  cases ps with
  | nil => exact ⟨suf, by rw [joinComma_one]⟩
  | cons q qs =>
    exact ⟨(',' :: joinComma (q :: qs)) ++ suf,
      by rw [joinComma_cons2, List.append_assoc]⟩

theorem memberPart_head (kv : String × Json) (ps : List (List Char))
    (suf : List Char) :
    ∃ tail, joinComma ((writeStrChars kv.1 ++ ':' :: writeVal kv.2) :: ps) ++
      suf = '"' :: tail := by
  obtain ⟨W, hW⟩ := joinComma_part _ ps suf
  refine ⟨((escStr kv.1.toList ++ ['"']) ++ (':' :: writeVal kv.2)) ++ W, ?_⟩
  rw [hW]
  rfl

theorem parseMember_last
    (pv : List Char → Option (Except String (Json × List Char)))
    (k : String) (v : Json) (rest : List Char) (fe0 : Nat)
    (hv : wfJson v = true)
    (hpv1 : ∀ q : List Char, numBoundOk q = true →
      pv (writeVal v ++ q) = some (.ok (v, q))) :
    parseMembersF pv (fe0 + 1)
      ((writeStrChars k ++ ':' :: writeVal v) ++ '\x7d' :: rest) =
      some (.ok ([(k, v)], rest)) := by
  rw [show writeStrChars k = '"' :: (escStr k.toList ++ ['"']) from rfl]
  simp only [List.append_assoc, List.cons_append, List.nil_append]
  simp only [parseMembersF]
  rw [if_pos trivial]
  rw [parseStr_rt k.toList [] (':' :: (writeVal v ++ '\x7d' :: rest))]
  rw [show String.mk (List.reverse [] ++ k.toList) = k from
    by rw [List.reverse_nil, List.nil_append, stringMk_toList]]
  dsimp only
  rw [skipWs_cons_of_not_ws (by decide)]
  dsimp only
  rw [if_pos rfl]
  obtain ⟨c1, t1, h1v, hws1, -, -, -, -⟩ := writeVal_head hv
  have hskip : skipWs (writeVal v ++ '\x7d' :: rest) =
      writeVal v ++ '\x7d' :: rest := by
    rw [h1v, List.cons_append, skipWs_cons_of_not_ws hws1]
  rw [hskip, hpv1 ('\x7d' :: rest) rfl]
  dsimp only
  rw [skipWs_cons_of_not_ws (by decide)]
  dsimp only
  rw [if_neg (by decide), if_pos rfl]

theorem parseMember_more
    (pv : List Char → Option (Except String (Json × List Char)))
    (k : String) (v : Json) (rest2 : List Char) (fe0 : Nat)
    (ms0 : List (String × Json)) (rest0 : List Char)
    (hv : wfJson v = true)
    (hpv1 : ∀ q : List Char, numBoundOk q = true →
      pv (writeVal v ++ q) = some (.ok (v, q)))
    (hrec : parseMembersF pv fe0 (skipWs rest2) = some (.ok (ms0, rest0))) :
    parseMembersF pv (fe0 + 1)
      ((writeStrChars k ++ ':' :: writeVal v) ++ ',' :: rest2) =
      some (.ok ((k, v) :: ms0, rest0)) := by
  rw [show writeStrChars k = '"' :: (escStr k.toList ++ ['"']) from rfl]
  simp only [List.append_assoc, List.cons_append, List.nil_append]
  simp only [parseMembersF]
  rw [if_pos trivial]
  rw [parseStr_rt k.toList [] (':' :: (writeVal v ++ ',' :: rest2))]
  rw [show String.mk (List.reverse [] ++ k.toList) = k from
    by rw [List.reverse_nil, List.nil_append, stringMk_toList]]
  dsimp only
  rw [skipWs_cons_of_not_ws (by decide)]
  dsimp only
  rw [if_pos rfl]
  obtain ⟨c1, t1, h1v, hws1, -, -, -, -⟩ := writeVal_head hv
  have hskip : skipWs (writeVal v ++ ',' :: rest2) =
      writeVal v ++ ',' :: rest2 := by
    rw [h1v, List.cons_append, skipWs_cons_of_not_ws hws1]
  rw [hskip, hpv1 (',' :: rest2) rfl]
  dsimp only
  rw [skipWs_cons_of_not_ws (by decide)]
  dsimp only
  rw [if_pos rfl, hrec]

theorem parseMembers_rt :
    ∀ (ms : List (String × Json))
      (pv : List Char → Option (Except String (Json × List Char))),
      (∀ kv ∈ ms, ∀ q : List Char, numBoundOk q = true →
        pv (writeVal kv.2 ++ q) = some (.ok (kv.2, q))) →
      (∀ kv ∈ ms, wfJson kv.2 = true) →
      ∀ fe : Nat, jsonObjSize ms ≤ fe → ms ≠ [] →
      ∀ rest : List Char,
        parseMembersF pv fe (joinComma (ms.map
          (fun kv => writeStrChars kv.1 ++ ':' :: writeVal kv.2)) ++
          '\x7d' :: rest) = some (.ok (ms, rest)) := by
  intro ms
  induction ms with
  | nil => intro pv _ _ fe _ hne rest; exact absurd rfl hne
  | cons kv t ih =>
    obtain ⟨k, v⟩ := kv
    intro pv hpv hwf fe hfe hne rest
    have hsz : jsonObjSize ((k, v) :: t) = 1 + jsonSize v + jsonObjSize t := rfl
    have hv : wfJson v = true := hwf (k, v) (List.mem_cons_self _ _)
    have hpv1 : ∀ q : List Char, numBoundOk q = true →
        pv (writeVal v ++ q) = some (.ok (v, q)) :=
      fun q hq => hpv (k, v) (List.mem_cons_self _ _) q hq
    cases fe with
    | zero => omega
    | succ fe0 =>
      cases t with
      | nil =>
        simp only [List.map, joinComma_one]
        exact parseMember_last pv k v rest fe0 hv hpv1
      | cons kv2 t2 =>
        simp only [List.map, joinComma_cons2]
        rw [List.append_assoc, List.cons_append]
        have hihe := ih pv (fun z hz => hpv z (List.mem_cons_of_mem _ hz))
          (fun z hz => hwf z (List.mem_cons_of_mem _ hz)) fe0 (by omega)
          (by intro hc; cases hc) rest
        simp only [List.map] at hihe
        have hskip2 : skipWs
            (joinComma ((writeStrChars kv2.1 ++ ':' :: writeVal kv2.2) ::
              List.map (fun kv => writeStrChars kv.1 ++ ':' :: writeVal kv.2)
                t2) ++ '\x7d' :: rest) =
            joinComma ((writeStrChars kv2.1 ++ ':' :: writeVal kv2.2) ::
              List.map (fun kv => writeStrChars kv.1 ++ ':' :: writeVal kv.2)
                t2) ++ '\x7d' :: rest := by
          obtain ⟨tail2, htail2⟩ := memberPart_head kv2
            (List.map (fun kv => writeStrChars kv.1 ++ ':' :: writeVal kv.2)
              t2) ('\x7d' :: rest)
          rw [htail2, skipWs_cons_of_not_ws (by decide)]
        exact parseMember_more pv k v _ fe0 (kv2 :: t2) rest hv hpv1
          (by rw [hskip2]; exact hihe)

theorem parseValueF_cons (fuel : Nat) (c : Char) (rest : List Char) :
    parseValueF (fuel + 1) (c :: rest) =
      if c = 'n' then
        match rest with
        | c1 :: c2 :: c3 :: rest2 =>
          if c1 = 'u' ∧ c2 = 'l' ∧ c3 = 'l' then some (.ok (.jnull, rest2))
          else some (.error "Invalid value.")
        | _ => some (.error "Invalid value.")
      else if c = 't' then
        match rest with
        | c1 :: c2 :: c3 :: rest2 =>
          if c1 = 'r' ∧ c2 = 'u' ∧ c3 = 'e' then
            some (.ok (.jbool true, rest2))
          else some (.error "Invalid value.")
        | _ => some (.error "Invalid value.")
      else if c = 'f' then
        match rest with
        | c1 :: c2 :: c3 :: c4 :: rest2 =>
          if c1 = 'a' ∧ c2 = 'l' ∧ c3 = 's' ∧ c4 = 'e' then
            some (.ok (.jbool false, rest2))
          else some (.error "Invalid value.")
        | _ => some (.error "Invalid value.")
      else if c = '"' then
        match parseStrAux [] rest with
        | .error e => some (.error e)
        | .ok (str, rest2) => some (.ok (.jstr str, rest2))
      else if c = '[' then
        match skipWs rest with
        | c2 :: rest2 =>
          if c2 = ']' then some (.ok (.jarr [], rest2))
          else
            match parseElemsF (fun t => parseValueF fuel t) fuel
                (c2 :: rest2) with
            | none => none
            | some (.error e) => some (.error e)
            | some (.ok (vs, rest3)) => some (.ok (.jarr vs, rest3))
        | [] => some (.error "Missing a comma or square bracket in array.")
      else if c = '\x7b' then
        match skipWs rest with
        | c2 :: rest2 =>
          if c2 = '\x7d' then some (.ok (.jobj [], rest2))
          else
            match parseMembersF (fun t => parseValueF fuel t) fuel
                (c2 :: rest2) with
            | none => none
            | some (.error e) => some (.error e)
            | some (.ok (ms, rest3)) => some (.ok (.jobj ms, rest3))
        | [] => some (.error "Missing a name for object member.")
      else if c = '-' ∨ isDigitCh c then
        match parseNumber (c :: rest) with
        | .error e => some (.error e)
        | .ok (lit, rest2) => some (.ok (.jnum (String.mk lit), rest2))
      else some (.error "Invalid value.") := rfl

theorem wfJsonArr_mem {xs : List Json} (h : wfJsonArr xs = true) :
    ∀ x ∈ xs, wfJson x = true := by
  induction xs with
  | nil => intro x hx; cases hx
  | cons y t ih =>
    rw [show wfJsonArr (y :: t) = (wfJson y && wfJsonArr t) from rfl] at h
    simp only [Bool.and_eq_true] at h
    intro x hx
    cases hx with
    | head => exact h.1
    | tail _ hm => exact ih h.2 x hm

theorem wfJsonObj_mem {ms : List (String × Json)} (h : wfJsonObj ms = true) :
    ∀ kv ∈ ms, wfJson kv.2 = true := by
  induction ms with
  | nil => intro kv hkv; cases hkv
  | cons m t ih =>
    obtain ⟨k0, v0⟩ := m
    rw [show wfJsonObj ((k0, v0) :: t) = (wfJson v0 && wfJsonObj t) from
      rfl] at h
    simp only [Bool.and_eq_true] at h
    intro kv hkv
    cases hkv with
    | head => exact h.1
    | tail _ hm => exact ih h.2 kv hm

theorem num_head_facts {c : Char} (hc : c = '-' ∨ isDigitCh c = true) :
    ¬ c = 'n' ∧ ¬ c = 't' ∧ ¬ c = 'f' ∧ ¬ c = '"' ∧ ¬ c = '[' ∧
      ¬ c = '\x7b' := by
  rcases hc with h | h
  · subst h
    exact ⟨by decide, by decide, by decide, by decide, by decide, by decide⟩
  · exact ⟨digit_ne h 'n' (by decide), digit_ne h 't' (by decide),
      digit_ne h 'f' (by decide), digit_ne h '"' (by decide),
      digit_ne h '[' (by decide), digit_ne h '\x7b' (by decide)⟩

theorem parse_rt :
    ∀ (N : Nat) (v : Json), jsonSize v ≤ N → wfJson v = true →
      ∀ rest : List Char, numBoundOk rest = true →
      ∀ F : Nat, jsonSize v < F →
      parseValueF F (writeVal v ++ rest) = some (.ok (v, rest)) := by
  intro N
  induction N with
  | zero =>
    intro v h
    exact absurd (jsonSize_pos v) (by omega)
  | succ m ih =>
    intro v hN hwf rest hnb F hF
    have hvpos := jsonSize_pos v
    cases F with
    | zero => omega
    | succ F0 =>
      cases v with
      | jnull => rfl
      | jbool b => cases b <;> rfl
      | jnum lit =>
        have hp := wfNumLit_parse (hwf : wfNumLit lit = true)
        obtain ⟨hself, c, t0, hlit, hc⟩ := parseNumber_restrict hp
        rw [show writeVal (.jnum lit) = lit.toList from rfl, hlit,
          List.cons_append, parseValueF_cons]
        obtain ⟨h1, h2, h3, h4, h5, h6⟩ := num_head_facts hc
        rw [if_neg h1, if_neg h2, if_neg h3, if_neg h4, if_neg h5, if_neg h6,
          if_pos hc]
        have hext := parseNumber_ext hself rest (fun _ => hnb)
        rw [List.nil_append] at hext
        rw [hlit, List.cons_append] at hext
        rw [hext]
        show some (Except.ok (Json.jnum (String.mk (c :: t0)), rest)) =
          some (Except.ok (Json.jnum lit, rest))
        rw [← hlit, stringMk_toList]
      | jstr s =>
        rw [show writeVal (.jstr s) = '"' :: (escStr s.toList ++ ['"'])
            from rfl,
          List.cons_append, List.append_assoc,
          show (['"'] : List Char) ++ rest = '"' :: rest from rfl,
          parseValueF_cons]
        rw [if_neg (by decide), if_neg (by decide), if_neg (by decide),
          if_pos rfl]
        rw [parseStr_rt s.toList [] rest]
        rw [show String.mk (List.reverse [] ++ s.toList) = s from
          by rw [List.reverse_nil, List.nil_append, stringMk_toList]]
      | jarr xs =>
        rw [writeVal_arr, List.cons_append, List.append_assoc,
          show ([']'] : List Char) ++ rest = ']' :: rest from rfl,
          parseValueF_cons]
        rw [if_neg (by decide), if_neg (by decide), if_neg (by decide),
          if_neg (by decide), if_pos rfl]
        have hsza : jsonSize (Json.jarr xs) = 1 + jsonArrSize xs := rfl
        cases xs with
        | nil =>
          rw [show joinComma (List.map writeVal ([] : List Json)) ++
              ']' :: rest = ']' :: rest from rfl]
          rw [skipWs_cons_of_not_ws (by decide)]
          dsimp only
          rw [if_pos rfl]
        | cons x t =>
          have hwfm := wfJsonArr_mem (hwf : wfJsonArr (x :: t) = true)
          obtain ⟨c0, t0, h0, hws0, hbr, -, -, -⟩ :=
            writeVal_head (hwfm x (List.mem_cons_self x t))
          obtain ⟨tail, htail⟩ := joinComma_head t h0 (']' :: rest)
          rw [htail, skipWs_cons_of_not_ws hws0]
          dsimp only
          rw [if_neg hbr, ← htail]
          have hpv : ∀ z ∈ x :: t, ∀ q : List Char, numBoundOk q = true →
              parseValueF F0 (writeVal z ++ q) = some (.ok (z, q)) := by
            intro z hz q hq
            have hzs := size_mem_arr hz
            exact ih z (by omega) (hwfm z hz) q hq F0 (by omega)
          rw [parseElems_rt (x :: t) (fun t2 => parseValueF F0 t2) hpv hwfm
            F0 (by omega) (by intro hcc; cases hcc) rest]
      | jobj ms =>
        rw [writeVal_obj, List.cons_append, List.append_assoc,
          show (['\x7d'] : List Char) ++ rest = '\x7d' :: rest from rfl,
          parseValueF_cons]
        rw [if_neg (by decide), if_neg (by decide), if_neg (by decide),
          if_neg (by decide), if_neg (by decide), if_pos rfl]
        have hszo : jsonSize (Json.jobj ms) = 1 + jsonObjSize ms := rfl
        cases ms with
        | nil =>
          rw [show joinComma (List.map (fun kv =>
              writeStrChars kv.1 ++ ':' :: writeVal kv.2)
              ([] : List (String × Json))) ++ '\x7d' :: rest =
              '\x7d' :: rest from rfl]
          rw [skipWs_cons_of_not_ws (by decide)]
          dsimp only
          rw [if_pos rfl]
        | cons kv t =>
          have hwfm := wfJsonObj_mem (hwf : wfJsonObj (kv :: t) = true)
          have hparts : List.map (fun kv =>
              writeStrChars kv.1 ++ ':' :: writeVal kv.2) (kv :: t) =
              (writeStrChars kv.1 ++ ':' :: writeVal kv.2) ::
                List.map (fun kv =>
                  writeStrChars kv.1 ++ ':' :: writeVal kv.2) t := rfl
          obtain ⟨tail, htail⟩ := memberPart_head kv
            (List.map (fun kv => writeStrChars kv.1 ++ ':' :: writeVal kv.2)
              t) ('\x7d' :: rest)
          rw [hparts, htail, skipWs_cons_of_not_ws (by decide)]
          dsimp only
          rw [if_neg (by decide), ← htail, ← hparts]
          have hpv : ∀ z ∈ kv :: t, ∀ q : List Char, numBoundOk q = true →
              parseValueF F0 (writeVal z.2 ++ q) = some (.ok (z.2, q)) := by
            intro z hz q hq
            have hzs := size_mem_obj hz
            exact ih z.2 (by omega) (hwfm z hz) q hq F0 (by omega)
          rw [parseMembers_rt (kv :: t) (fun t2 => parseValueF F0 t2) hpv
            hwfm F0 (by omega) (by intro hcc; cases hcc) rest]

theorem parseElemsF_succ
    (pv : List Char → Option (Except String (Json × List Char)))
    (fuel : Nat) (s : List Char) :
    parseElemsF pv (fuel + 1) s =
      match pv s with
      | none => none
      | some (.error e) => some (.error e)
      | some (.ok (v, s1)) =>
        match skipWs s1 with
        | [] => some (.error "Missing a comma or square bracket in array.")
        | c :: s2 =>
          if c = ',' then
            match parseElemsF pv fuel (skipWs s2) with
            | none => none
            | some (.error e) => some (.error e)
            | some (.ok (vs, rest)) => some (.ok (v :: vs, rest))
          else if c = ']' then some (.ok ([v], s2))
          else some (.error "Missing a comma or square bracket in array.") :=
  rfl

theorem parseMembersF_succ
    (pv : List Char → Option (Except String (Json × List Char)))
    (fuel : Nat) (s : List Char) :
    parseMembersF pv (fuel + 1) s =
      match s with
      | [] => some (.error "Missing a name for object member.")
      | c0 :: s0 =>
        if c0 = '"' then
          match parseStrAux [] s0 with
          | .error e => some (.error e)
          | .ok (k, s1) =>
            match skipWs s1 with
            | [] =>
              some (.error "Missing a colon after a name of object member.")
            | c1 :: s2 =>
              if c1 = ':' then
                match pv (skipWs s2) with
                | none => none
                | some (.error e) => some (.error e)
                | some (.ok (v, s3)) =>
                  match skipWs s3 with
                  | [] =>
                    some (.error "Missing a comma or curly bracket in object.")
                  | c2 :: s4 =>
                    if c2 = ',' then
                      match parseMembersF pv fuel (skipWs s4) with
                      | none => none
                      | some (.error e) => some (.error e)
                      | some (.ok (ms, rest)) =>
                        some (.ok ((k, v) :: ms, rest))
                    else if c2 = '\x7d' then some (.ok ([(k, v)], s4))
                    else
                      some (.error
                        "Missing a comma or curly bracket in object.")
              else
                some (.error "Missing a colon after a name of object member.")
        else some (.error "Missing a name for object member.") := rfl

theorem wfNumLit_of_parse {l : List Char} (h : parseNumber l = .ok (l, [])) :
    wfNumLit (String.mk l) = true := by
  unfold wfNumLit
  rw [show (String.mk l).toList = l from rfl, h]
  simp

theorem parseElemsF_wf
    (pv : List Char → Option (Except String (Json × List Char)))
    (hpv : ∀ s v r, pv s = some (.ok (v, r)) → wfJson v = true) :
    ∀ (fe : Nat) (s : List Char) (vs : List Json) (r : List Char),
      parseElemsF pv fe s = some (.ok (vs, r)) → wfJsonArr vs = true := by
  intro fe
  induction fe with
  | zero => intro s vs r h; cases h
  | succ f ih =>
    intro s vs r h
    rw [parseElemsF_succ] at h
    repeat' split at h
    all_goals
      simp only [reduceCtorEq, Option.some.injEq, Except.ok.injEq,
        Prod.mk.injEq] at h
    all_goals obtain ⟨hv, -⟩ := h
    all_goals subst hv
    · rename_i x1 v s1 hpvs x2 c0 cs0 hsw hc x3 vs0 rest0 heq
      rw [show wfJsonArr (v :: vs0) = (wfJson v && wfJsonArr vs0) from rfl,
        hpv _ _ _ hpvs, ih _ _ _ heq]
      rfl
    · rename_i x1 v s1 hpvs x2 c0 cs0 hsw hc hc2
      rw [show wfJsonArr [v] = (wfJson v && true) from rfl, hpv _ _ _ hpvs]
      rfl

theorem wfJsonArr_cons (v : Json) (t : List Json) :
    wfJsonArr (v :: t) = (wfJson v && wfJsonArr t) := rfl

theorem wfJsonObj_cons (k : String) (v : Json) (t : List (String × Json)) :
    wfJsonObj ((k, v) :: t) = (wfJson v && wfJsonObj t) := rfl

theorem parseMembersF_wf
    (pv : List Char → Option (Except String (Json × List Char)))
    (hpv : ∀ s v r, pv s = some (.ok (v, r)) → wfJson v = true) :
    ∀ (fe : Nat) (s : List Char) (ms : List (String × Json)) (r : List Char),
      parseMembersF pv fe s = some (.ok (ms, r)) → wfJsonObj ms = true := by
  intro fe
  induction fe with
  | zero => intro s ms r h; cases h
  | succ f ih =>
    intro s ms r h
    rw [parseMembersF_succ] at h
    repeat' split at h
    all_goals
      simp only [reduceCtorEq, Option.some.injEq, Except.ok.injEq,
        Prod.mk.injEq] at h
    all_goals obtain ⟨hv, -⟩ := h
    all_goals subst hv
    all_goals rw [wfJsonObj_cons]
    · have hw := hpv _ _ _ (by assumption)
      have hm := ih _ _ _ (by assumption)
      rw [hw, hm]
      rfl
    · have hw := hpv _ _ _ (by assumption)
      rw [hw]
      rfl

theorem parse_wf : ∀ (F : Nat) (s : List Char) (v : Json) (rest : List Char),
    parseValueF F s = some (.ok (v, rest)) → wfJson v = true := by
  intro F
  induction F with
  | zero => intro s v rest h; cases h
  | succ fuel ih =>
    intro s v rest h
    cases s with
    | nil =>
      rw [show parseValueF (fuel + 1) ([] : List Char) =
        some (.error "The document is empty.") from rfl] at h
      simp at h
    | cons c rest0 =>
      rw [parseValueF_cons] at h
      repeat' split at h
      all_goals
        simp only [reduceCtorEq, Option.some.injEq, Except.ok.injEq,
          Prod.mk.injEq] at h
      all_goals obtain ⟨hv, -⟩ := h
      all_goals subst hv
      all_goals try rfl
      · exact parseElemsF_wf (fun t => parseValueF fuel t)
          (fun s2 v2 r2 hh => ih s2 v2 r2 hh) fuel _ _ _ (by assumption)
      · exact parseMembersF_wf (fun t => parseValueF fuel t)
          (fun s2 v2 r2 hh => ih s2 v2 r2 hh) fuel _ _ _ (by assumption)
      · rename_i lit rest2 heq
        exact wfNumLit_of_parse (parseNumber_restrict heq).1

theorem wfJson_arr (xs : List Json) : wfJson (.jarr xs) = wfJsonArr xs := rfl

theorem wfJson_obj (ms : List (String × Json)) :
    wfJson (.jobj ms) = wfJsonObj ms := rfl

theorem wf_frame_aux : ∀ N : Nat,
    (∀ v v', jsonSize v ≤ N → JFrame v v' →
      wfJson v = true → wfJson v' = true) ∧
    (∀ xs xs', jsonArrSize xs ≤ N → JFrameList xs xs' →
      wfJsonArr xs = true → wfJsonArr xs' = true) ∧
    (∀ ms ms', jsonObjSize ms ≤ N → MFrameList ms ms' →
      wfJsonObj ms = true → wfJsonObj ms' = true) := by
  intro N
  induction N with
  | zero =>
    refine ⟨fun v v' hsz => absurd (jsonSize_pos v) (by omega), ?_, ?_⟩
    · intro xs xs' hsz hl hwf
      cases hl with
      | nil => exact hwf
      | cons hx hxs =>
        exfalso
        rename_i x x' t t'
        have hs : jsonArrSize (x :: t) = 1 + jsonSize x + jsonArrSize t := rfl
        omega
    · intro ms ms' hsz hl hwf
      cases hl with
      | nil => exact hwf
      | cons hme hms =>
        exfalso
        rename_i k v v' t t'
        have hs : jsonObjSize ((k, v) :: t) =
          1 + jsonSize v + jsonObjSize t := rfl
        omega
  | succ n ih =>
    obtain ⟨ihv, iha, iho⟩ := ih
    refine ⟨?_, ?_, ?_⟩
    · intro v v' hsz hf hwf
      cases hf with
      | eq => exact hwf
      | arr hl =>
        rename_i xs xs'
        rw [wfJson_arr] at hwf ⊢
        have hs : jsonSize (Json.jarr xs) = 1 + jsonArrSize xs := rfl
        exact iha xs xs' (by omega) hl hwf
      | obj hl =>
        rename_i ms ms'
        rw [wfJson_obj] at hwf ⊢
        have hs : jsonSize (Json.jobj ms) = 1 + jsonObjSize ms := rfl
        exact iho ms ms' (by omega) hl hwf
    · intro xs xs' hsz hl hwf
      cases hl with
      | nil => exact hwf
      | cons hx hxs =>
        rename_i x x' t t'
        have hs : jsonArrSize (x :: t) = 1 + jsonSize x + jsonArrSize t := rfl
        rw [wfJsonArr_cons] at hwf ⊢
        simp only [Bool.and_eq_true] at hwf
        rw [ihv x x' (by omega) hx hwf.1, iha t t' (by omega) hxs hwf.2]
        rfl
    · intro ms ms' hsz hl hwf
      cases hl with
      | nil => exact hwf
      | cons hme hms =>
        rename_i k v v' t t'
        have hs : jsonObjSize ((k, v) :: t) =
          1 + jsonSize v + jsonObjSize t := rfl
        rw [wfJsonObj_cons] at hwf ⊢
        simp only [Bool.and_eq_true] at hwf
        cases hme with
        | keep hf =>
          rw [ihv v v' (by omega) hf hwf.1, iho t t' (by omega) hms hwf.2]
          rfl
        | nameStrip hdot =>
          rw [iho t t' (by omega) hms hwf.2, Bool.and_true]
          rfl
    
theorem wf_of_frame {v v' : Json} (hf : JFrame v v') (hwf : wfJson v = true) :
    wfJson v' = true :=
  (wf_frame_aux (jsonSize v)).1 v v' le_rfl hf hwf

theorem size_le_len_aux : ∀ N : Nat,
    (∀ v, jsonSize v ≤ N → wfJson v = true →
      jsonSize v ≤ (writeVal v).length) ∧
    (∀ xs, jsonArrSize xs ≤ N → wfJsonArr xs = true →
      jsonArrSize xs ≤ (joinComma (xs.map writeVal)).length + 1) ∧
    (∀ ms, jsonObjSize ms ≤ N → wfJsonObj ms = true →
      jsonObjSize ms ≤ (joinComma (ms.map
        (fun kv => writeStrChars kv.1 ++ ':' :: writeVal kv.2))).length + 1) := by
  intro N
  induction N with
  | zero =>
    refine ⟨fun v hsz => absurd (jsonSize_pos v) (by omega), ?_, ?_⟩
    · intro xs hsz hwf
      cases xs with
      | nil => exact Nat.zero_le _
      | cons x t =>
        exfalso
        have hs : jsonArrSize (x :: t) = 1 + jsonSize x + jsonArrSize t := rfl
        omega
    · intro ms hsz hwf
      cases ms with
      | nil => exact Nat.zero_le _
      | cons m t =>
        exfalso
        obtain ⟨k, v⟩ := m
        have hs : jsonObjSize ((k, v) :: t) =
          1 + jsonSize v + jsonObjSize t := rfl
        omega
  | succ n ih =>
    obtain ⟨ihv, iha, iho⟩ := ih
    refine ⟨?_, ?_, ?_⟩
    · intro v hsz hwf
      cases v with
      | jnull => decide
      | jbool b => cases b <;> decide
      | jnum lit =>
        obtain ⟨-, c, t0, hlit, -⟩ :=
          parseNumber_restrict (wfNumLit_parse hwf)
        rw [show writeVal (Json.jnum lit) = lit.toList from rfl,
          show jsonSize (Json.jnum lit) = 1 from rfl, hlit, List.length_cons]
        omega
      | jstr s =>
        rw [show writeVal (Json.jstr s) = '"' :: (escStr s.toList ++ ['"'])
            from rfl,
          show jsonSize (Json.jstr s) = 1 from rfl, List.length_cons]
        omega
      | jarr xs =>
        rw [writeVal_arr, List.length_cons, List.length_append,
          List.length_singleton]
        have hs : jsonSize (Json.jarr xs) = 1 + jsonArrSize xs := rfl
        rw [wfJson_arr] at hwf
        have hb := iha xs (by omega) hwf
        omega
      | jobj ms =>
        rw [writeVal_obj, List.length_cons, List.length_append,
          List.length_singleton]
        have hs : jsonSize (Json.jobj ms) = 1 + jsonObjSize ms := rfl
        rw [wfJson_obj] at hwf
        have hb := iho ms (by omega) hwf
        omega
    · intro xs hsz hwf
      cases xs with
      | nil => exact Nat.zero_le _
      | cons x t =>
        have hs : jsonArrSize (x :: t) = 1 + jsonSize x + jsonArrSize t := rfl
        rw [wfJsonArr_cons] at hwf
        simp only [Bool.and_eq_true] at hwf
        have hvx := ihv x (by omega) hwf.1
        cases t with
        | nil =>
          simp only [List.map]
          rw [joinComma_one]
          have hs2 : jsonArrSize [x] = 1 + jsonSize x + 0 := rfl
          omega
        | cons y t2 =>
          have hbt := iha (y :: t2) (by
            have hs3 : jsonArrSize (y :: t2) =
              1 + jsonSize y + jsonArrSize t2 := rfl
            omega) hwf.2
          simp only [List.map] at hbt ⊢
          rw [joinComma_cons2, List.length_append, List.length_cons]
          have hs2 : jsonArrSize (x :: y :: t2) =
            1 + jsonSize x + jsonArrSize (y :: t2) := rfl
          omega
    · intro ms hsz hwf
      cases ms with
      | nil => exact Nat.zero_le _
      | cons m t =>
        obtain ⟨k, v⟩ := m
        have hs : jsonObjSize ((k, v) :: t) =
          1 + jsonSize v + jsonObjSize t := rfl
        rw [wfJsonObj_cons] at hwf
        simp only [Bool.and_eq_true] at hwf
        have hvx := ihv v (by omega) hwf.1
        have hwsc : (writeStrChars k).length = (escStr k.toList).length + 2 := by
          rw [show writeStrChars k = '"' :: (escStr k.toList ++ ['"'])
            from rfl, List.length_cons, List.length_append,
            List.length_singleton]
        cases t with
        | nil =>
          simp only [List.map]
          rw [joinComma_one]
          have hs2 : jsonObjSize [(k, v)] = 1 + jsonSize v + 0 := rfl
          rw [List.length_append, List.length_cons]
          omega
        | cons m2 t2 =>
          obtain ⟨k2, v2⟩ := m2
          have hbt := iho ((k2, v2) :: t2) (by
            have hs3 : jsonObjSize ((k2, v2) :: t2) =
              1 + jsonSize v2 + jsonObjSize t2 := rfl
            omega) hwf.2
          simp only [List.map] at hbt ⊢
          rw [joinComma_cons2, List.length_append, List.length_append,
            List.length_cons, List.length_cons]
          have hs2 : jsonObjSize ((k, v) :: (k2, v2) :: t2) =
            1 + jsonSize v + jsonObjSize ((k2, v2) :: t2) := rfl
          omega

theorem size_le_len {v : Json} (hwf : wfJson v = true) :
    jsonSize v ≤ (writeVal v).length :=
  (size_le_len_aux (jsonSize v)).1 v le_rfl hwf

theorem sanitize_ok_inv {x y : String}
    (h : sanitizeAvroSchemaDefinition x = .ok y) :
    ∃ v rest v', parseValueF (x.toList.length + 1) (skipWs x.toList) =
        some (.ok (v, rest)) ∧
      sanitizeValF (jsonSize v + 1) v = some (.ok v') ∧
      String.mk (writeVal v') = y := by
  unfold sanitizeAvroSchemaDefinition at h
  dsimp only at h
  repeat' split at h
  all_goals simp only [reduceCtorEq, Except.ok.injEq] at h
  exact ⟨_, _, _, by assumption, by assumption, h⟩

theorem sanitize_eval {x : String} {c0 : Char} {cs : List Char} {v v' : Json}
    {rest : List Char}
    (hsw : skipWs x.toList = c0 :: cs)
    (hp : parseValueF (x.toList.length + 1) (c0 :: cs) = some (.ok (v, rest)))
    (hs : sanitizeValF (jsonSize v + 1) v = some (.ok v')) :
    sanitizeAvroSchemaDefinition x = .ok (String.mk (writeVal v')) := by
  unfold sanitizeAvroSchemaDefinition
  dsimp only
  rw [hsw, hp]
  dsimp only
  rw [hs]

/-- C6 (amended): sanitize is idempotent on its successful *outputs* — if
`sanitize x = ok y` and the second application `sanitize y` also succeeds,
it returns `y` unchanged.  (The original claim is false: the second
application can fail, because a name ending in `.` sanitizes to the empty
string, which the name check of a second pass rejects.) -/
theorem c6_sanitize_idempotent_on_success {x y z : String}
    (h1 : sanitizeAvroSchemaDefinition x = .ok y)
    (h2 : sanitizeAvroSchemaDefinition y = .ok z) : z = y := by
  obtain ⟨v, rest, v', hpar, hsan, hy⟩ := sanitize_ok_inv h1
  have hwfv : wfJson v = true := parse_wf _ _ _ _ hpar
  have hfr : JFrame v v' := sanitizeValF_frame _ _ _ hsan
  have hwfv' : wfJson v' = true := wf_of_frame hfr hwfv
  have hlen : jsonSize v' ≤ (writeVal v').length := size_le_len hwfv'
  have hyl : y.toList = writeVal v' := by rw [← hy, toList_stringMk]
  obtain ⟨c0, t0, h0, hws0, -, -, -, -⟩ := writeVal_head hwfv'
  have hskip : skipWs y.toList = y.toList := by
    rw [hyl, h0]
    exact skipWs_cons_of_not_ws hws0 t0
  have hpar2 : parseValueF (y.toList.length + 1) (skipWs y.toList) =
      some (.ok (v', [])) := by
    rw [hskip, hyl]
    have hrt := parse_rt (jsonSize v') v' le_rfl hwfv' [] rfl
      ((writeVal v').length + 1) (by omega)
    rw [List.append_nil] at hrt
    exact hrt
  obtain ⟨v2, rest2, v2', hpar2b, hsan2, hz⟩ := sanitize_ok_inv h2
  rw [hpar2] at hpar2b
  simp only [Option.some.injEq, Except.ok.injEq, Prod.mk.injEq] at hpar2b
  obtain ⟨hv2, -⟩ := hpar2b
  subst hv2
  have hidem := sanitizeValF_idem _ _ _ _ _ hsan hsan2
  rw [← hz, hidem]
  exact hy

theorem c6_sanitize_idempotent_on_success_witness :
    sanitizeAvroSchemaDefinition "\x7b\"name\":\"a.b\"\x7d" =
      .ok "\x7b\"name\":\"b\"\x7d" ∧
    sanitizeAvroSchemaDefinition "\x7b\"name\":\"b\"\x7d" =
      .ok "\x7b\"name\":\"b\"\x7d" ∧
    ("\x7b\"name\":\"b\"\x7d" : String) = "\x7b\"name\":\"b\"\x7d" :=
  ⟨rfl, rfl, c6_sanitize_idempotent_on_success
    (x := "\x7b\"name\":\"a.b\"\x7d") rfl rfl⟩

/-- C7 (amended): the parse uses `kParseStopWhenDoneFlag`, so trailing bytes
after a complete JSON value are *silently discarded* rather than rejected:
appending garbage (any suffix that cannot extend a number literal) to a
serialized well-formed value leaves the successful sanitize result
unchanged.  (The original claim — that trailing garbage yields a
`schema_invalid` error — is false.) -/
theorem c7_trailing_garbage_discarded {v : Json} {g : List Char} {y : String}
    (hwf : wfJson v = true) (hg : numBoundOk g = true)
    (h1 : sanitizeAvroSchemaDefinition (String.mk (writeVal v)) = .ok y) :
    sanitizeAvroSchemaDefinition (String.mk (writeVal v ++ g)) = .ok y := by
  obtain ⟨c0, t0, h0, hws0, -, -, -, -⟩ := writeVal_head hwf
  have hlen : jsonSize v ≤ (writeVal v).length := size_le_len hwf
  obtain ⟨v1, rest1, v1', hp1, hs1, hy⟩ := sanitize_ok_inv h1
  have hpar1 : parseValueF ((String.mk (writeVal v)).toList.length + 1)
      (skipWs (String.mk (writeVal v)).toList) = some (.ok (v, [])) := by
    rw [toList_stringMk, h0, skipWs_cons_of_not_ws hws0, ← h0]
    have hrt := parse_rt (jsonSize v) v le_rfl hwf [] rfl
      ((writeVal v).length + 1) (by omega)
    rw [List.append_nil] at hrt
    exact hrt
  rw [hpar1] at hp1
  simp only [Option.some.injEq, Except.ok.injEq, Prod.mk.injEq] at hp1
  obtain ⟨hv1, -⟩ := hp1
  subst hv1
  have hsw2 : skipWs (String.mk (writeVal v ++ g)).toList =
      c0 :: (t0 ++ g) := by
    rw [toList_stringMk, h0, List.cons_append]
    exact skipWs_cons_of_not_ws hws0 _
  have hpar2 : parseValueF ((String.mk (writeVal v ++ g)).toList.length + 1)
      (c0 :: (t0 ++ g)) = some (.ok (v, g)) := by
    rw [toList_stringMk, ← List.cons_append, ← h0]
    exact parse_rt (jsonSize v) v le_rfl hwf g hg _
      (by rw [List.length_append]; omega)
  have hval := sanitize_eval hsw2 hpar2 hs1
  rw [hval, hy]

theorem c7_trailing_garbage_discarded_witness :
    wfJson (.jobj []) = true ∧ numBoundOk " garbage".toList = true ∧
    sanitizeAvroSchemaDefinition (String.mk (writeVal (.jobj []))) =
      .ok "\x7b\x7d" ∧
    sanitizeAvroSchemaDefinition
      (String.mk (writeVal (.jobj []) ++ " garbage".toList)) =
      .ok "\x7b\x7d" :=
  ⟨rfl, rfl, rfl, c7_trailing_garbage_discarded rfl rfl rfl⟩
end AvroSpec
